import Mathlib

/-!
V.23 software modem: frame format, parity, modulator frame word and demodulator framing.

A shallow embedding of `src/src/v23.cpp`.

Conventions of the embedding.

* A 32-bit register that the source uses as a bag of bits (`frame_pattern`, `frame_mask`,
  `parity_mask`, `data_mask`, `out_shift`, the `uint32_t` locals) is a `Nat` holding its
  two's complement bit pattern, always reduced `% 2 ^ 32`; `-1` is `0xFFFFFFFF`.
* An `int` that the source uses as a counter (`frame_size`, `data_offset`, `data_size`,
  `errcount`, `bit_wait`, ...) is an `Int`.
* A C string is the list of its characters before the terminating NUL.
* The bytes written to the output stream are returned as a list.
-/

namespace V23

/-! ## Constants -/

/-- The constant `SKEW_CORRECT_FACTOR`. -/
def SKEW_CORRECT_FACTOR : Int := 3

/-- The constant `ERROR_LIMIT`. -/
def ERROR_LIMIT : Int := 3

/-- The constant `DEF_FRAME_FORMAT`. -/
def DEF_FRAME_FORMAT : List Char := ['1', '0', 'd', 'd', 'd', 'd', 'd', 'd', 'd', 'p', '1']

/-! ## Machine arithmetic -/

/-- Reduction of a value to a 32-bit register. -/
def wrap32 (x : Nat) : Nat := x % 2 ^ 32

/-- The C expression `x << n` on a 32-bit register. The count is an `int`; counts outside
`0 .. 31` are undefined in C and are not exercised by the theorems below. -/
def shl32 (x : Nat) (n : Int) : Nat := wrap32 (x <<< n.toNat)

/-- The C expression `x - 1` on a 32-bit register. -/
def dec32 (x : Nat) : Nat := wrap32 (x + (2 ^ 32 - 1))

/-! ## Data model -/

/-- The struct `framefmt`. -/
structure framefmt where
  frame_size : Int
  frame_pattern : Nat
  frame_mask : Nat
  parity_mask : Nat
  parity_enable : Bool
  parity_even : Bool
  data_offset : Int
  data_mask : Nat
  data_size : Int
  lsb_first : Bool
deriving DecidableEq, Repr

/-- The struct `modemcfg`. -/
structure modemcfg where
  sample_rate : Int
  first_null : Int
  mark_freqhz : Int
  space_freqhz : Int
  ff : framefmt
  samples_per_bit : Int
  max_skew : Int
  errchar : Nat
deriving DecidableEq, Repr

/-! ## `parity` -/

/-- The function `parity(unsigned int v)`. The return expression `((v >> 28) & 1 != 0)` is
parsed by C as `(v >> 28) & (1 != 0)`, and the `unsigned` result is converted to `bool`. -/
def parity (v : Nat) : Bool :=
  let v := wrap32 v
  let v := v ^^^ (v >>> 1)
  let v := v ^^^ (v >>> 2)
  let v := wrap32 ((v &&& 0x11111111) * 0x11111111)
  ((v >>> 28) &&& (if (1 : Nat) ≠ 0 then 1 else 0)) ≠ 0

/-- The expression `(data * 0x0202020202ULL & 0x010884422010ULL) % 1023`, evaluated in 64-bit
arithmetic and stored back into the `uint32_t data`; it occurs in `v23_modulate` and in
`v23_demodulate`. -/
def reverse_byte (data : Nat) : Nat :=
  wrap32 ((((data * 0x0202020202) % 2 ^ 64) &&& 0x010884422010) % 1023)

/-! ## `init_framefmt` -/

/-- The state of `ff` on entry to the loop of `init_framefmt`. -/
def framefmt_init (overlap : Int) : framefmt :=
  { frame_pattern := 0, frame_mask := 0, parity_mask := 0, parity_enable := false,
    parity_even := false, data_offset := 0, data_mask := 0, data_size := 0,
    frame_size := -overlap, lsb_first := true }

/-- One iteration of the loop of `init_framefmt` for the character `c`: the updated `ff`
and `false` when the `default:` case returns. -/
def init_framefmt_step (ff : framefmt) (c : Char) : framefmt × Bool :=
  let ff : framefmt :=
    { ff with
      frame_mask := shl32 ff.frame_mask 1
      frame_pattern := shl32 ff.frame_pattern 1
      parity_mask := shl32 ff.parity_mask 1
      data_mask := shl32 ff.data_mask 1
      data_offset := ff.data_offset + 1
      frame_size := ff.frame_size + 1 }
  if c = '1' then
    ({ ff with frame_mask := ff.frame_mask ||| 1, frame_pattern := ff.frame_pattern ||| 1 }, true)
  else if c = '0' then
    ({ ff with frame_mask := ff.frame_mask ||| 1, frame_pattern := ff.frame_pattern ||| 0 }, true)
  else if c = 'd' ∨ c = 'D' then
    ({ ff with
       data_mask := ff.data_mask ||| 1
       data_offset := 0
       data_size := ff.data_size + 1
       lsb_first := decide (c = 'd') }, true)
  else if c = 'p' ∨ c = 'P' then
    ({ ff with
       parity_mask := ff.parity_mask ||| 1
       parity_enable := true
       parity_even := decide (c = 'P') }, true)
  else
    (ff, false)

/-- The loop of `init_framefmt` over the remaining characters. -/
def init_framefmt_loop (ff : framefmt) : List Char → framefmt × Bool
  | [] => (ff, true)
  | c :: cs =>
    match init_framefmt_step ff c with
    | (ff1, true) => init_framefmt_loop ff1 cs
    | (ff1, false) => (ff1, false)

/-- The function `init_framefmt(ff, fmt, overlap)`: the contents of `ff` on return and the
returned `bool`. -/
def init_framefmt (fmt : List Char) (overlap : Int) : framefmt × Bool :=
  init_framefmt_loop (framefmt_init overlap) fmt

/-! ## `v23_modulate`: building a frame -/

/-- The expression `(int)c_in & (( 1 << f.data_size ) - 1)` of `v23_modulate` ("Truncate data
if needed"), stored into the `uint32_t data`; `c_in` is an `unsigned char`. -/
def truncate_data (data_size : Int) (c_in : Nat) : Nat :=
  wrap32 (c_in % 256) &&& dec32 (shl32 1 data_size)

/-- The block `if(f.lsb_first) { data <<= (8 - f.data_size); data = (data * ...) % 1023; }`,
which occurs in `v23_modulate` and in `v23_demodulate`. -/
def order_data (data_size : Int) (lsb_first : Bool) (data : Nat) : Nat :=
  if lsb_first then reverse_byte (shl32 data (8 - data_size)) else data

/-- The value of `out_shift` in `v23_modulate` after `out_shift |= data`, before the final
shift to the top of the word, for the input byte `c_in`. -/
def modulate_frame (f : framefmt) (c_in : Nat) : Nat :=
  let out_shift := f.frame_pattern
  let data := truncate_data f.data_size c_in
  let out_shift :=
    if f.parity_enable && (parity data == f.parity_even) then out_shift ||| f.parity_mask
    else out_shift
  let data := order_data f.data_size f.lsb_first data
  let data := shl32 data f.data_offset
  let data := data &&& f.data_mask
  out_shift ||| data

/-- The value of `out_shift` in `v23_modulate` once a frame is loaded, after
`out_shift <<= (32 - f.frame_size)`. -/
def modulate_load (f : framefmt) (c_in : Nat) : Nat :=
  shl32 (modulate_frame f c_in) (32 - f.frame_size)

/-- The bits that the transmit loop of `v23_modulate` sends for a loaded register: `n` times
`i_out = (out_shift & 0x80000000) ? 1 : 0` followed by `out_shift <<= 1`. -/
def modulate_bits : Nat → Nat → List Nat
  | _, 0 => []
  | out_shift, n + 1 =>
    (if out_shift &&& 0x80000000 ≠ 0 then 1 else 0) :: modulate_bits (shl32 out_shift 1) n

/-! ## `v23_demodulate`: the framing state machine -/

/-- The locals of `v23_demodulate` that the per-sample loop reads and writes. -/
structure demod_state where
  errcount : Int
  errtimeout : Int
  out_shift : Nat
  frame_hold : Int
  num_transitions : Int
  total_skew : Int
  bit_wait : Int
  state : Int
  line_idle : Bool
deriving DecidableEq, Repr

/-- The values of the locals of `v23_demodulate` when the sample loop is entered. -/
def demod_init (m : modemcfg) : demod_state :=
  { errcount := 0, errtimeout := 0, out_shift := 0xFFFFFFFF, frame_hold := m.ff.frame_size,
    num_transitions := 0, total_skew := 0, bit_wait := m.samples_per_bit, state := 0,
    line_idle := true }

/-- The test `(out_shift & f.frame_mask) == f.frame_pattern`. -/
def frame_match (f : framefmt) (out_shift : Nat) : Bool :=
  (out_shift &&& f.frame_mask) == f.frame_pattern

/-- The local `avg_skew` of a candidate frame. -/
def demod_avg_skew (s : demod_state) : Int :=
  if s.num_transitions > 0 then Int.tdiv s.total_skew s.num_transitions else 0

/-- The local `frame_data`: `out_shift & ((1 << (f.frame_size+1)) - 1)`. -/
def demod_frame_data (f : framefmt) (out_shift : Nat) : Nat :=
  out_shift &&& dec32 (shl32 1 (f.frame_size + 1))

/-- The local `data` as first extracted: `(frame_data & f.data_mask) >> f.data_offset`. -/
def demod_raw_data (f : framefmt) (out_shift : Nat) : Nat :=
  (demod_frame_data f out_shift &&& f.data_mask) >>> f.data_offset.toNat

/-- The local `parity_bit`: `(frame_data & f.parity_mask) != 0`. -/
def demod_parity_bit (f : framefmt) (out_shift : Nat) : Bool :=
  (demod_frame_data f out_shift &&& f.parity_mask) != 0

/-- The condition `!f.parity_enable || (data_parity == parity_bit)` of the parity check. -/
def demod_parity_ok (f : framefmt) (out_shift : Nat) : Bool :=
  let parity_bit := demod_parity_bit f out_shift
  let data := demod_raw_data f out_shift
  let data_parity := parity data
  let data_parity := if !f.parity_even then !data_parity else data_parity
  !f.parity_enable || (data_parity == parity_bit)

/-- The byte decoded from a good frame: `data` after the optional bit reversal and
`data &= 0xff`. -/
def demod_data (f : framefmt) (out_shift : Nat) : Nat :=
  let data := demod_raw_data f out_shift
  let data := order_data f.data_size f.lsb_first data
  data &&& 0xff

/-- The body of the branch `else if((out_shift & f.frame_mask) == f.frame_pattern)`: the
updated locals and the bytes written to `out`. -/
def demod_frame (m : modemcfg) (s : demod_state) : demod_state × List Nat :=
  let f := m.ff
  let avg_skew := demod_avg_skew s
  let s := { s with line_idle := true }
  if avg_skew > m.max_skew then
    ({ s with errcount := s.errcount + 1, errtimeout := 10 * f.frame_size }, [])
  else if demod_parity_ok f s.out_shift then
    let s := if s.errcount > 0 then { s with errcount := s.errcount - 1 } else s
    if s.errcount < ERROR_LIMIT then (s, [demod_data f s.out_shift]) else (s, [])
  else
    let s := { s with errcount := s.errcount + 1, errtimeout := 10 * f.frame_size }
    if s.errcount < ERROR_LIMIT ∧ m.errchar ≠ 0 then (s, [m.errchar]) else (s, [])

/-- The block `if(line_idle) { out_shift &= (2 << f.frame_size) - 1; ... }` that closes the
handling of a latched bit. -/
def demod_reseed (f : framefmt) (s : demod_state) : demod_state :=
  if s.line_idle then
    let s :=
      { s with
        out_shift := s.out_shift &&& dec32 (shl32 2 f.frame_size)
        total_skew := 0
        num_transitions := 0
        frame_hold := f.frame_size - 1 }
    if s.errtimeout > 0 then { s with errtimeout := s.errtimeout - 1 }
    else { s with errcount := 0 }
  else s

/-- The body of `if(--bit_wait <= 0)` for the latched bit `outbit`, up to and including
`bit_wait += m.samples_per_bit`. -/
def demod_latch (m : modemcfg) (s : demod_state) (outbit : Nat) : demod_state × List Nat :=
  let f := m.ff
  let s := { s with out_shift := wrap32 (wrap32 (s.out_shift <<< 1) + outbit) }
  let s :=
    if (!s.line_idle && s.out_shift == 0xFFFFFFFF) || s.out_shift == 0 then
      { s with line_idle := true }
    else s
  let r : demod_state × List Nat :=
    if s.line_idle then (s, [])
    else
      let s := { s with frame_hold := s.frame_hold - 1 }
      if s.frame_hold > 0 then (s, [])
      else if frame_match f s.out_shift then demod_frame m s
      else (s, [])
  let s := demod_reseed f r.1
  ({ s with bit_wait := s.bit_wait + m.samples_per_bit }, r.2)

/-- The body of `if(last != state)`: re-alignment of the bit clock on an edge of the timing
signal. -/
def demod_edge (m : modemcfg) (s : demod_state) : demod_state :=
  let adj : Int :=
    if s.bit_wait > Int.tdiv m.samples_per_bit 2 then m.samples_per_bit - s.bit_wait
    else -s.bit_wait
  if s.line_idle then
    { s with line_idle := false, bit_wait := s.bit_wait + adj }
  else
    let s :=
      { s with
        total_skew := s.total_skew + (if adj ≥ 0 then adj else -adj)
        num_transitions := s.num_transitions + 1 }
    let adj : Int :=
      if adj > 0 then Int.tdiv adj SKEW_CORRECT_FACTOR + 1
      else if adj < 0 then Int.tdiv adj SKEW_CORRECT_FACTOR - 1
      else adj
    { s with bit_wait := s.bit_wait + adj }

/-- One iteration of the loop `for(size_t i=0; i<n; ++i)` of `v23_demodulate` on the sample
pair `bufTiming[i]`, `bufOut[i]`; `phase_pos` and `phase_neg` are the two bit values chosen
from the carrier frequencies. -/
def demod_sample (m : modemcfg) (phase_pos phase_neg : Nat) (s : demod_state)
    (timing out : Int) : demod_state × List Nat :=
  let last := s.state
  let s := { s with state := if timing > 0 then 1 else 0 }
  let s := if last ≠ s.state then demod_edge m s else s
  let s := { s with bit_wait := s.bit_wait - 1 }
  if s.bit_wait ≤ 0 then
    demod_latch m s (if out > 0 then phase_pos else phase_neg)
  else (s, [])

/-- The loop `for(size_t i=0; i<n; ++i)` of `v23_demodulate` over the pairs
`(bufTiming[i], bufOut[i])`: the final locals and the bytes written. -/
def demod_run (m : modemcfg) (phase_pos phase_neg : Nat) :
    demod_state → List (Int × Int) → demod_state × List Nat
  | s, [] => (s, [])
  | s, x :: xs =>
    ((demod_run m phase_pos phase_neg (demod_sample m phase_pos phase_neg s x.1 x.2).1 xs).1,
      (demod_sample m phase_pos phase_neg s x.1 x.2).2 ++
        (demod_run m phase_pos phase_neg (demod_sample m phase_pos phase_neg s x.1 x.2).1 xs).2)

/-! ## Notions used to state the properties -/

/-- A pattern character that stands for a fixed bit. -/
def is_fixed (c : Char) : Bool := c == '0' || c == '1'

/-- A pattern character that stands for a fixed one. -/
def is_one (c : Char) : Bool := c == '1'

/-- A pattern character that stands for a data bit. -/
def is_data (c : Char) : Bool := c == 'd' || c == 'D'

/-- A pattern character that stands for a parity bit. -/
def is_parity (c : Char) : Bool := c == 'p' || c == 'P'

/-- A character that `init_framefmt` accepts. -/
def is_spec (c : Char) : Bool := is_fixed c || is_data c || is_parity c

/-- Bit `j` of the 32-bit mask that collects the characters satisfying `p`, where `acc` lists
the characters read so far, last one first. -/
def bit_at (p : Char → Bool) (acc : List Char) (j : Nat) : Bool :=
  decide (j < 32) && (match acc[j]? with | some c => p c | none => false)

/-- The loop invariant of `init_framefmt`: what `ff` holds once the characters `acc` (last
one first) have been read. -/
structure Rep (overlap : Int) (ff : framefmt) (acc : List Char) : Prop where
  mask : ∀ j, ff.frame_mask.testBit j = bit_at is_fixed acc j
  pattern : ∀ j, ff.frame_pattern.testBit j = bit_at is_one acc j
  data : ∀ j, ff.data_mask.testBit j = bit_at is_data acc j
  par : ∀ j, ff.parity_mask.testBit j = bit_at is_parity acc j
  size : ff.frame_size = acc.length - overlap
  dsize : ff.data_size = acc.countP is_data
  doff : ff.data_offset = (acc.takeWhile (fun c => !is_data c)).length
  lsb : ff.lsb_first = (match acc.find? is_data with | some c => c == 'd' | none => true)
  pen : ff.parity_enable = acc.any is_parity
  pev : ff.parity_even = (match acc.find? is_parity with | some c => c == 'P' | none => false)

/-- The number of ones among the low `w` bits of `x`. -/
def bitcount : Nat → Nat → Nat
  | 0, _ => 0
  | w + 1, x => x % 2 + bitcount w (x / 2)

/-- The first two statements of `parity`: `v ^= v >> 1; v ^= v >> 2;`. -/
def xor_fold (v : Nat) : Nat :=
  let v := v ^^^ (v >>> 1)
  v ^^^ (v >>> 2)

/-- What the proofs about a frame use of a format compiled from a pattern of `len` characters
with `n` contiguous data characters followed by `off` other characters. -/
structure FrameOK (f : framefmt) (len n off : Nat) : Prop where
  size : f.frame_size + 1 = len
  len_le : len ≤ 31
  dsize : f.data_size = n
  n_le : n ≤ 8
  doff : f.data_offset = off
  fit : off + n ≤ len
  data : ∀ j, f.data_mask.testBit j = decide (off ≤ j ∧ j < off + n)
  pat_sub : ∀ j, f.frame_pattern.testBit j = true → f.frame_mask.testBit j = true
  mask_par : ∀ j, f.frame_mask.testBit j = true → f.parity_mask.testBit j = false
  mask_data : ∀ j, f.frame_mask.testBit j = true → f.data_mask.testBit j = false
  par_data : ∀ j, f.parity_mask.testBit j = true → f.data_mask.testBit j = false
  mask_lt : ∀ j, len ≤ j → f.frame_mask.testBit j = false
  par_lt : ∀ j, len ≤ j → f.parity_mask.testBit j = false
  par_ne : f.parity_enable = true → ∃ j, f.parity_mask.testBit j = true

/-- The configuration of the backward channel at 44100 Hz (75 baud, so 588 samples per bit
and a skew limit of 117 samples) with the default frame format and error character `X`. -/
def backward_cfg_X : modemcfg :=
  { sample_rate := 44100, first_null := 60, mark_freqhz := 390, space_freqhz := 450,
    ff := (init_framefmt DEF_FRAME_FORMAT 1).1, samples_per_bit := 588, max_skew := 117,
    errchar := 88 }

/-- The handling of a sequence of latched bits, one `demod_latch` per bit, each entered with
the countdown `bit_wait` just expired. -/
def demod_bits (m : modemcfg) : demod_state → List Nat → demod_state × List Nat
  | s, [] => (s, [])
  | s, b :: bs =>
    ((demod_bits m (demod_latch m { s with bit_wait := 0 } b).1 bs).1,
      (demod_latch m { s with bit_wait := 0 } b).2 ++
        (demod_bits m (demod_latch m { s with bit_wait := 0 } b).1 bs).2)

/-- An ideal sample stream for a bit sequence: every bit lasts `spb` samples, `bufOut` is
`1000` during a one and `-1000` during a zero, and `bufTiming` holds the value `timing`. -/
def bit_samples (spb : Nat) (timing : Int) (bits : List Nat) : List (Int × Int) :=
  bits.flatMap (fun b => List.replicate spb (timing, if b = 1 then 1000 else -1000))

/-- The bit sequence of the frame for `c_in` with the parity bit inverted. -/
def broken_frame_bits (f : framefmt) (c_in : Nat) : List Nat :=
  modulate_bits (shl32 (modulate_frame f c_in ^^^ f.parity_mask) (32 - f.frame_size))
    f.frame_size.toNat

/-- The per-segment output of `demod_run` over consecutive segments of a sample stream. -/
def demod_segments (m : modemcfg) (phase_pos phase_neg : Nat) :
    demod_state → List (List (Int × Int)) → List (demod_state × List Nat)
  | _, [] => []
  | s, seg :: segs =>
    demod_run m phase_pos phase_neg s seg ::
      demod_segments m phase_pos phase_neg (demod_run m phase_pos phase_neg s seg).1 segs

/-- Four parity-broken frames of `0x41` on the backward channel, separated by `g1`, `g2`,
`g3` idle (mark) bits; the timing signal changes sign at the start of every frame. -/
def four_broken_frames (g1 g2 g3 : Nat) : List (List (Int × Int)) :=
  [ bit_samples 588 1 (broken_frame_bits backward_cfg_X.ff 0x41),
    bit_samples 588 1 (List.replicate g1 1),
    bit_samples 588 (-1) (broken_frame_bits backward_cfg_X.ff 0x41),
    bit_samples 588 (-1) (List.replicate g2 1),
    bit_samples 588 1 (broken_frame_bits backward_cfg_X.ff 0x41),
    bit_samples 588 1 (List.replicate g3 1),
    bit_samples 588 (-1) (broken_frame_bits backward_cfg_X.ff 0x41) ]

/-- The locals of the demodulator `g` idle bits after a parity-broken frame of `0x41` that
left `errcount = k`. -/
def after_frames (k : Int) (g : Nat) (st : Int) : demod_state :=
  { errcount := k, errtimeout := 99 - g, out_shift := (0x505 * 2 ^ g + (2 ^ g - 1)) % 2 ^ 11,
    frame_hold := 9, num_transitions := 0, total_skew := 0, bit_wait := 588, state := st,
    line_idle := true }

/-! ## Signed machine integers -/

/-- Reduction of a value to an `int32_t` (two's complement). -/
def int32_wrap (x : Int) : Int := (x + 2 ^ 31) % 2 ^ 32 - 2 ^ 31

/-- Reduction of a value to an `int16_t` (two's complement). -/
def int16_wrap (x : Int) : Int := (x + 2 ^ 15) % 2 ^ 16 - 2 ^ 15

/-! ## Oscillator -/

/-- The struct `osc`. -/
structure osc where
  freqhz : Int
  p : Int
deriving DecidableEq, Repr

/-- The loop `while(p >= sinelen) p -= sinelen;` of `sin_get_samples`. The comparison and
the subtraction are done in `size_t` (64 bits), the `int` `p` being converted first, and the
difference is converted back to `int`. The loop is run for at most `fuel` rounds. -/
def phase_loop : Nat → Nat → Int → Int
  | 0, _, p => p
  | fuel + 1, sinelen, p =>
    if (sinelen : Int) ≤ p % 2 ^ 64 then
      phase_loop fuel sinelen (int32_wrap ((p % 2 ^ 64 - sinelen) % 2 ^ 64))
    else p

/-- The function `sin_get_samples(p, freqhz, samples_out, n_samples)` over the table
`sinebuf`: the samples written and the final value of `p`. The sum `p += freqhz` wraps to
32 bits. The inner loop gets `2 ^ 32` rounds; it needs fewer whenever `sinelen` is positive and
the sum is not negative. -/
def sin_get_samples (sinebuf : List Int) (freqhz : Int) : Nat → Int → List Int × Int
  | 0, p => ([], p)
  | n + 1, p =>
    ((sinebuf.getD p.toNat 0) ::
        (sin_get_samples sinebuf freqhz n
          (phase_loop (2 ^ 32) sinebuf.length (int32_wrap (p + freqhz)))).1,
      (sin_get_samples sinebuf freqhz n
        (phase_loop (2 ^ 32) sinebuf.length (int32_wrap (p + freqhz)))).2)

/-- The function `osc_get_samples(o, samples_out, n_samples)`: the oscillator afterwards and
the samples written. -/
def osc_get_samples (sinebuf : List Int) (o : osc) (n_samples : Nat) : osc × List Int :=
  ({ o with p := (sin_get_samples sinebuf o.freqhz n_samples o.p).2 },
    (sin_get_samples sinebuf o.freqhz n_samples o.p).1)

/-- The initial value of the local `i` of `osc_get_complex_samples`:
`(o.p + sinelen / 4) % sinelen`, computed in `size_t` and converted to `int`. -/
def quarter_phase (sinelen : Nat) (p : Int) : Int :=
  int32_wrap (((p % 2 ^ 64 + (sinelen / 4 : Nat)) % 2 ^ 64) % sinelen)

/-- The function `osc_get_complex_samples(o, i_samples_out, q_samples_out, n_samples)`: the
oscillator afterwards, the I samples and the Q samples. -/
def osc_get_complex_samples (sinebuf : List Int) (o : osc) (n_samples : Nat) :
    osc × List Int × List Int :=
  ({ o with p := (sin_get_samples sinebuf o.freqhz n_samples o.p).2 },
    (sin_get_samples sinebuf o.freqhz n_samples (quarter_phase sinebuf.length o.p)).1,
    (sin_get_samples sinebuf o.freqhz n_samples o.p).1)

/-! ## Moving-average filter -/

/-- The struct `maf`; the buffer is the list of its `N` entries. -/
structure maf where
  buf : List Int
  N : Nat
  p : Nat
  sum : Int
deriving DecidableEq, Repr

/-- The function `maf_init(maf, N)` when the allocation succeeds: a zeroed buffer. -/
def maf_init (N : Nat) : maf :=
  { buf := List.replicate N 0, N := N, p := 0, sum := 0 }

/-- One iteration of the loop of `maf_process` on the input sample `x`: the filter
afterwards and the sample written to `samples_out[i]`. -/
def maf_step (m : maf) (x : Int) (nodivide : Bool) : maf × Int :=
  let sum := int32_wrap (m.sum - m.buf.getD m.p 0)
  let buf := m.buf.set m.p x
  let sum := int32_wrap (sum + buf.getD m.p 0)
  let out : Int :=
    if nodivide then
      if sum > 32767 then 32767
      else if sum < -32767 then -32767
      else int16_wrap sum
    else
      int16_wrap (Int.tdiv (int32_wrap (sum + Int.tdiv (int32_wrap m.N) 2)) (int32_wrap m.N))
  let p := m.p + 1
  let p := if p ≥ m.N then p - m.N else p
  ({ buf := buf, N := m.N, p := p, sum := sum }, out)

/-- The function `maf_process(maf, samples_in, samples_out, n_samples, nodivide)`: the
filter afterwards and the samples written. -/
def maf_process (nodivide : Bool) : maf → List Int → maf × List Int
  | m, [] => (m, [])
  | m, x :: xs =>
    ((maf_process nodivide (maf_step m x nodivide).1 xs).1,
      (maf_step m x nodivide).2 :: (maf_process nodivide (maf_step m x nodivide).1 xs).2)

/-! ## Sample primitives -/

/-- One iteration of the loop of `mul_samples` on the samples `a` and `b`: the value stored
into `samples_out[i]`. -/
def mul_sample (a b : Int) : Int :=
  let product := Int.tdiv (int32_wrap (int32_wrap a * int32_wrap b)) 32768
  let product := if product > 32767 then 32767 else if product < -32767 then -32767 else product
  int16_wrap product

/-- The function `mul_samples(samples_a, samples_b, samples_out, n_samples)`. -/
def mul_samples (samples_a samples_b : List Int) : List Int :=
  List.zipWith mul_sample samples_a samples_b

/-- The local `angle` of `ang_complex_samples` for the sample pair `x = samples_i[i]`,
`y = samples_q[i]`, not both zero, before it is stored. -/
def ang_angle (x y : Int) : Int :=
  let abs_x := if x < 0 then int32_wrap (-x) else x
  let abs_y := if y < 0 then int32_wrap (-y) else y
  if abs_x > abs_y then
    let angle := Int.tdiv (int32_wrap (8192 * y)) x
    if x < 0 then int32_wrap (angle + 32768) else angle
  else
    let angle := int32_wrap (16384 - Int.tdiv (int32_wrap (8192 * x)) y)
    if y < 0 then int32_wrap (angle + 32768) else angle

/-- One iteration of the loop of `ang_complex_samples`: the value stored into
`samples_out[i]`. -/
def ang_sample (x y : Int) : Int :=
  if x = 0 ∧ y = 0 then 0 else int16_wrap (ang_angle x y)

/-- The function `ang_complex_samples(samples_i, samples_q, samples_out, n_samples)`. -/
def ang_complex_samples (samples_i samples_q : List Int) : List Int :=
  List.zipWith ang_sample samples_i samples_q

/-! ## `v23_modulate`: the transmit loop -/

/-- The local variables of `v23_modulate` that live across iterations of its `while(!quit)`
loop. The 32-bit register `out_shift` is held as its bit pattern. -/
structure mod_state where
  o : osc
  out_shift : Nat
  bits_in_buffer : Int
  bit_wait : Int
  line_idle : Bool
deriving DecidableEq, Repr

/-- The locals of `v23_modulate` when its loop is entered: `o.p = 0`,
`o.freqhz = m.mark_freqhz`, `out_shift = -1`, `bits_in_buffer = 0`,
`bit_wait = m.sample_rate`, `line_idle = true`. -/
def mod_init (m : modemcfg) : mod_state :=
  { o := { freqhz := m.mark_freqhz, p := 0 }, out_shift := 2 ^ 32 - 1, bits_in_buffer := 0,
    bit_wait := m.sample_rate, line_idle := true }

/-- The block `if( bits_in_buffer < 1 ) { if(read(0, &c_in, 1) > 0) { ... } }` of the loop.
The input is the list of outcomes of the successive non-blocking `read` calls: `some c_in` for
a byte, `none` when nothing is available; an exhausted list gives nothing either. The state
and the outcomes not yet consumed are returned. -/
def modulate_poll (f : framefmt) (s : mod_state) (input : List (Option Nat)) :
    mod_state × List (Option Nat) :=
  if s.bits_in_buffer < 1 then
    match input with
    | some c_in :: rest =>
      ({ s with out_shift := modulate_load f c_in, bits_in_buffer := f.frame_size }, rest)
    | none :: rest => (s, rest)
    | [] => (s, [])
  else (s, input)

/-- The block `if( bits_in_buffer > 0 ) { ... } else o.freqhz = m.mark_freqhz;` of the loop:
the top bit of `out_shift` selects the frequency, the register moves left and the count goes
down; with no bit pending the frequency is the mark frequency. -/
def modulate_select (m : modemcfg) (s : mod_state) : mod_state :=
  if s.bits_in_buffer > 0 then
    { s with
      o := { s.o with
        freqhz := if s.out_shift &&& 0x80000000 ≠ 0 then m.mark_freqhz else m.space_freqhz }
      out_shift := shl32 s.out_shift 1
      bits_in_buffer := s.bits_in_buffer - 1 }
  else { s with o := { s.o with freqhz := m.mark_freqhz } }

/-- One iteration of the `while(!quit)` loop of `v23_modulate`: the state after it, the `read`
outcomes left, and what it sends, namely the frequency in force and the
`N = m.samples_per_bit` samples handed to `output_buf`. -/
def modulate_iter (sinebuf : List Int) (m : modemcfg) (s : mod_state)
    (input : List (Option Nat)) : mod_state × List (Option Nat) × (Int × List Int) :=
  let s1 := modulate_select m (modulate_poll m.ff s input).1
  let r := osc_get_samples sinebuf s1.o (m.samples_per_bit % 2 ^ 64).toNat
  ({ s1 with o := r.1 }, (modulate_poll m.ff s input).2, (s1.o.freqhz, r.2))

/-- The first `n` iterations of the loop of `v23_modulate` from the state `s`: the final
state, the `read` outcomes left, and the frequency and samples of each iteration in order. -/
def modulate_run (sinebuf : List Int) (m : modemcfg) :
    Nat → mod_state → List (Option Nat) → mod_state × List (Option Nat) × List (Int × List Int)
  | 0, s, input => (s, input, [])
  | n + 1, s, input =>
    ((modulate_run sinebuf m n (modulate_iter sinebuf m s input).1
        (modulate_iter sinebuf m s input).2.1).1,
      (modulate_run sinebuf m n (modulate_iter sinebuf m s input).1
        (modulate_iter sinebuf m s input).2.1).2.1,
      (modulate_iter sinebuf m s input).2.2 ::
        (modulate_run sinebuf m n (modulate_iter sinebuf m s input).1
          (modulate_iter sinebuf m s input).2.1).2.2)

/-- The configuration `main` builds for the forward channel at the default sample rate of
44100 Hz: mark 1300 Hz, space 2100 Hz, first null 1280 Hz, 1200 baud (36 samples per bit, skew
limit 7 samples), the default frame format and no error character. -/
def forward_cfg : modemcfg :=
  { sample_rate := 44100, first_null := 1280, mark_freqhz := 1300, space_freqhz := 2100,
    ff := (init_framefmt DEF_FRAME_FORMAT 1).1, samples_per_bit := 36, max_skew := 7,
    errchar := 0 }

/-! ## Notions used to state the filter properties -/

/-- A sequence of calls of `maf_process` on the same filter, each with its block of input
samples and its `nodivide` flag: the filter afterwards. -/
def maf_calls : maf → List (List Int × Bool) → maf
  | m, [] => m
  | m, c :: cs => maf_calls (maf_process c.2 m c.1).1 cs

/-- The input received `k` samples before the latest one of `xs` (index 0 is the latest), or
zero when fewer than `k + 1` samples were received. -/
def recent (xs : List Int) (k : Nat) : Int := xs.reverse.getD k 0

/-- What holds of a filter of length `N` that has received the inputs `xs`. -/
structure MafInv (N : Nat) (m : maf) (xs : List Int) : Prop where
  hN : m.N = N
  len : m.buf.length = N
  p : m.p < N
  sum : m.sum = m.buf.sum
  win : m.sum = Finset.sum (Finset.range N) (fun k => recent xs k)
  slot : ∀ k, k < N → m.buf.getD ((m.p + N - 1 - k) % N) 0 = recent xs k
  bnd : ∀ e ∈ m.buf, -32768 ≤ e ∧ e ≤ 32767

/-- What holds of a filter of length `N` after an impulse `a` and further zeros, `j` samples
in all. -/
structure ImpulseInv (N : Nat) (a : Int) (j : Nat) (m : maf) : Prop where
  hN : m.N = N
  p : m.p < N
  early : j ≤ N → m.buf = (List.replicate N 0).set 0 a ∧ m.sum = a ∧
    m.p = (if j = N then 0 else j)
  late : N < j → m.buf = List.replicate N 0 ∧ m.sum = 0

/-! ## `v23_demodulate`: the blocks of the per-sample loop -/

/-- The raw adjustment `adj` computed on an edge: `m.samples_per_bit - bit_wait` when
`bit_wait > m.samples_per_bit / 2` ("ahead"), `-bit_wait` otherwise ("behind"). -/
def demod_adj (m : modemcfg) (s : demod_state) : Int :=
  if s.bit_wait > Int.tdiv m.samples_per_bit 2 then m.samples_per_bit - s.bit_wait
  else -s.bit_wait

/-- The value of `adj` after the block `if(adj > 0) { adj /= SKEW_CORRECT_FACTOR; adj += 1; }
else if(adj < 0) { adj /= SKEW_CORRECT_FACTOR; adj -= 1; }`, which is added to `bit_wait` on
an edge while the line is not idle. -/
def skew_correction (adj : Int) : Int :=
  if adj > 0 then Int.tdiv adj SKEW_CORRECT_FACTOR + 1
  else if adj < 0 then Int.tdiv adj SKEW_CORRECT_FACTOR - 1
  else adj

/-- The locals when `if(--bit_wait <= 0)` is tested: `state` is set from `bufTiming[i]`, an
edge is handled, and `bit_wait` is decremented. -/
def demod_pre (m : modemcfg) (s : demod_state) (timing : Int) : demod_state :=
  let last := s.state
  let s := { s with state := if timing > 0 then 1 else 0 }
  let s := if last ≠ s.state then demod_edge m s else s
  { s with bit_wait := s.bit_wait - 1 }

/-- The locals after `out_shift <<= 1; out_shift += outbit;` and the idle test
`if(!line_idle && out_shift == -1 || out_shift == 0) line_idle = true;`. -/
def demod_shift (s : demod_state) (outbit : Nat) : demod_state :=
  let s := { s with out_shift := wrap32 (wrap32 (s.out_shift <<< 1) + outbit) }
  if (!s.line_idle && s.out_shift == 0xFFFFFFFF) || s.out_shift == 0 then
    { s with line_idle := true }
  else s

/-- The locals after the condition `--frame_hold > 0` has been evaluated, which happens only
when the line is not idle. -/
def demod_hold (s : demod_state) : demod_state :=
  if s.line_idle then s else { s with frame_hold := s.frame_hold - 1 }

/-- Whether the comparison `(out_shift & f.frame_mask) == f.frame_pattern` is evaluated for
this latched bit: the line is not idle and `--frame_hold > 0` was false. -/
def demod_compares (s : demod_state) : Bool :=
  !s.line_idle && decide (s.frame_hold ≤ 0)

/-- The chain `else if(--frame_hold > 0) ... else if((out_shift & f.frame_mask) ==
f.frame_pattern) { ... } else if(!line_idle) ...` applied to the locals left by the hold-off
test: the frame branch runs when the comparison is evaluated and succeeds. -/
def demod_stage (m : modemcfg) (s : demod_state) : demod_state × List Nat :=
  if demod_compares s && frame_match m.ff s.out_shift then demod_frame m s else (s, [])

/-! ## Notions used to state the properties of the per-sample loop -/

/-- The raw adjustments counted into `total_skew` since the last reseed, once the edge test
of the sample with timing value `timing` is done: an edge met while the line is not idle adds
its adjustment. -/
def skew_log_edge (m : modemcfg) (s : demod_state) (log : List Int) (timing : Int) :
    List Int :=
  if s.state ≠ (if timing > 0 then 1 else 0) ∧ s.line_idle = false then log ++ [demod_adj m s]
  else log

/-- The raw adjustments counted since the last reseed, after the whole sample: a latched bit
that ends with the line idle runs the reseed block, which empties the list. -/
def skew_log_step (m : modemcfg) (phase_pos phase_neg : Nat) (s : demod_state)
    (log : List Int) (x : Int × Int) : List Int :=
  if (demod_pre m s x.1).bit_wait ≤ 0 ∧
      (demod_sample m phase_pos phase_neg s x.1 x.2).1.line_idle = true then []
  else skew_log_edge m s log x.1

/-- The raw adjustments counted since the last reseed after the samples `xs`, starting from
the locals `s` and the list `log`. -/
def skew_log (m : modemcfg) (phase_pos phase_neg : Nat) :
    demod_state → List Int → List (Int × Int) → List Int
  | _, log, [] => log
  | s, log, x :: xs =>
    skew_log m phase_pos phase_neg (demod_sample m phase_pos phase_neg s x.1 x.2).1
      (skew_log_step m phase_pos phase_neg s log x) xs

/-- The locals at each latched bit of a sample stream, taken right after the idle test, in
order. -/
def demod_latches (m : modemcfg) (phase_pos phase_neg : Nat) :
    demod_state → List (Int × Int) → List demod_state
  | _, [] => []
  | s, x :: xs =>
    (if (demod_pre m s x.1).bit_wait ≤ 0 then
        [demod_shift (demod_pre m s x.1) (if x.2 > 0 then phase_pos else phase_neg)]
      else []) ++
      demod_latches m phase_pos phase_neg (demod_sample m phase_pos phase_neg s x.1 x.2).1 xs

/-- The locals with which the frame branch is entered while the sample `x` is handled, when
it is: the countdown expires, the comparison is evaluated and it succeeds. -/
def demod_candidate (m : modemcfg) (phase_pos phase_neg : Nat) (s : demod_state)
    (x : Int × Int) : Option demod_state :=
  if (demod_pre m s x.1).bit_wait ≤ 0 ∧
      demod_compares (demod_hold (demod_shift (demod_pre m s x.1)
        (if x.2 > 0 then phase_pos else phase_neg))) = true ∧
      frame_match m.ff (demod_hold (demod_shift (demod_pre m s x.1)
        (if x.2 > 0 then phase_pos else phase_neg))).out_shift = true then
    some (demod_hold (demod_shift (demod_pre m s x.1)
      (if x.2 > 0 then phase_pos else phase_neg)))
  else none

/-- The forward-channel configuration with the frame pattern `111`, made of stop bits only. -/
def all_stop_cfg : modemcfg :=
  { forward_cfg with ff := (init_framefmt ['1', '1', '1'] 1).1 }

/-- A configuration with the default frame format and only 4 samples per bit (skew limit 1),
small enough to follow a stream sample by sample. -/
def short_bit_cfg : modemcfg := { forward_cfg with samples_per_bit := 4, max_skew := 1 }

/-- Forty samples, at 4 samples per bit, of the frame bits `0 1 0 0 0 0 0 1 0 1`; the timing
signal is positive for 13 samples, negative for 12 and positive again, so that its first edge
after the start of the frame comes one sample late. -/
def skewed_frame_samples : List (Int × Int) :=
  List.zip (List.replicate 13 1 ++ List.replicate 12 (-1) ++ List.replicate 15 1)
    ((bit_samples 4 0 [0, 1, 0, 0, 0, 0, 0, 1, 0, 1]).map Prod.snd)

/-- The locals with which the frame branch is entered on the sample `(1, 1000)` that follows
`skewed_frame_samples`: two edges were counted, with skews 1 and 0. -/
def skewed_frame_candidate : demod_state :=
  { errcount := 0, errtimeout := 0, out_shift := 4294966539, frame_hold := 0,
    num_transitions := 2, total_skew := 1, bit_wait := 0, state := 1, line_idle := false }

/-- The locals once the latched bit whose frame branch was entered with the locals `c` is
done: the frame is handled, the idle block has run and `bit_wait` is reloaded. -/
def demod_after_frame (m : modemcfg) (c : demod_state) : demod_state :=
  { demod_reseed m.ff (demod_frame m c).1 with
    bit_wait := (demod_reseed m.ff (demod_frame m c).1).bit_wait + m.samples_per_bit }

/-- The locals of the demodulator at 4 samples per bit after one idle bit period: the idle
block has just run, so `frame_hold = frame_size - 1 = 9`. -/
def hold_off_start : demod_state :=
  (demod_run short_bit_cfg 1 0 (demod_init short_bit_cfg) (bit_samples 4 (-1) [1])).1

/-- The first 35 of the 36 samples of the frame bits `0 1 0 0 0 0 0 1 1`, with a positive
timing signal: eight bits are latched, the ninth is latched by the sample that follows. -/
def hold_off_samples : List (Int × Int) :=
  (bit_samples 4 1 [0, 1, 0, 0, 0, 0, 0, 1, 1]).take 35

/-! ## The idle test in its clearer form -/

/-- The shift of the latched bit into `out_shift` followed by the idle test in the clearer
form `if(!line_idle && (out_shift == -1 || out_shift == 0)) line_idle = true;`, where the
source has `if(!line_idle && out_shift == -1 || out_shift == 0)`. -/
def demod_shift_clear (s : demod_state) (outbit : Nat) : demod_state :=
  let s := { s with out_shift := wrap32 (wrap32 (s.out_shift <<< 1) + outbit) }
  if !s.line_idle && (s.out_shift == 0xFFFFFFFF || s.out_shift == 0) then
    { s with line_idle := true }
  else s

/-- The body of `if(--bit_wait <= 0)` with the clearer idle test: the hold-off test, the
frame branch, the idle block and the reload of `bit_wait` follow it unchanged. -/
def demod_latch_clear (m : modemcfg) (s : demod_state) (outbit : Nat) :
    demod_state × List Nat :=
  ({ demod_reseed m.ff (demod_stage m (demod_hold (demod_shift_clear s outbit))).1 with
      bit_wait :=
        (demod_reseed m.ff (demod_stage m (demod_hold (demod_shift_clear s outbit))).1).bit_wait +
          m.samples_per_bit },
    (demod_stage m (demod_hold (demod_shift_clear s outbit))).2)

/-- One iteration of the per-sample loop with the clearer idle test: `demod_sample` with
`demod_latch_clear` in the place of `demod_latch`. -/
def demod_sample_clear (m : modemcfg) (phase_pos phase_neg : Nat) (s : demod_state)
    (timing out : Int) : demod_state × List Nat :=
  let last := s.state
  let s := { s with state := if timing > 0 then 1 else 0 }
  let s := if last ≠ s.state then demod_edge m s else s
  let s := { s with bit_wait := s.bit_wait - 1 }
  if s.bit_wait ≤ 0 then
    demod_latch_clear m s (if out > 0 then phase_pos else phase_neg)
  else (s, [])

/-- The per-sample loop with the clearer idle test. -/
def demod_run_clear (m : modemcfg) (phase_pos phase_neg : Nat) :
    demod_state → List (Int × Int) → demod_state × List Nat
  | s, [] => (s, [])
  | s, x :: xs =>
    ((demod_run_clear m phase_pos phase_neg
        (demod_sample_clear m phase_pos phase_neg s x.1 x.2).1 xs).1,
      (demod_sample_clear m phase_pos phase_neg s x.1 x.2).2 ++
        (demod_run_clear m phase_pos phase_neg
          (demod_sample_clear m phase_pos phase_neg s x.1 x.2).1 xs).2)

/-! ## `v23_demodulate`: one block of samples -/

/-- The struct `differentiator`: the last input sample. -/
structure differentiator where
  last : Int
deriving DecidableEq, Repr

/-- The function `deriv_samples(d, samples_in, samples_out, n_samples)`: each output is
`samples_in[i] - last` stored in 16 bits, and `last` becomes `samples_in[i]`. -/
def deriv_samples : differentiator → List Int → differentiator × List Int
  | d, [] => (d, [])
  | d, x :: xs =>
    ((deriv_samples { last := x } xs).1,
      int16_wrap (x - d.last) :: (deriv_samples { last := x } xs).2)

/-- One output of `sgn_samples`: `( samples_in[i] > 0 ) - ( samples_in[i] < 0 )`. -/
def sgn_sample (x : Int) : Int :=
  (if x > 0 then 1 else 0) - (if x < 0 then 1 else 0)

/-- The function `sgn_samples(samples_in, samples_out, n_samples)`. -/
def sgn_samples (samples_in : List Int) : List Int := samples_in.map sgn_sample

/-- The locals of `v23_demodulate` that live across iterations of its `while(!quit)` loop:
the local oscillator, the differentiator, the four filters that are initialised, and the
locals of the per-sample loop. -/
structure demod_full where
  o : osc
  diffAng : differentiator
  mafI : maf
  mafQ : maf
  mafOut : maf
  mafBit : maf
  s : demod_state
deriving DecidableEq, Repr

/-- The locals of `v23_demodulate` when its loop is entered: `o.p = 0`,
`o.freqhz = (m.mark_freqhz + m.space_freqhz) / 2`, `diffAng.last = 0`, `mafI` and `mafQ` of
length `m.sample_rate / m.first_null`, `mafOut` and `mafBit` of length `m.samples_per_bit`
(the `int` lengths are converted to `size_t`), and the initial locals of the sample loop. -/
def demod_full_init (m : modemcfg) : demod_full :=
  { o := { freqhz := Int.tdiv (int32_wrap (m.mark_freqhz + m.space_freqhz)) 2, p := 0 }
    diffAng := { last := 0 }
    mafI := maf_init ((Int.tdiv m.sample_rate m.first_null) % 2 ^ 64).toNat
    mafQ := maf_init ((Int.tdiv m.sample_rate m.first_null) % 2 ^ 64).toNat
    mafOut := maf_init (m.samples_per_bit % 2 ^ 64).toNat
    mafBit := maf_init (m.samples_per_bit % 2 ^ 64).toNat
    s := demod_init m }

/-- The bit values `phase_pos` and `phase_neg` chosen by `v23_demodulate`: `(0, 1)` when the
mark frequency is above the space frequency, `(1, 0)` otherwise. -/
def demod_phase (m : modemcfg) : Nat × Nat :=
  if m.mark_freqhz > m.space_freqhz then (0, 1) else (1, 0)

/-- One iteration of the `while(!quit)` loop of `v23_demodulate` on the block `bufIn` that
`get_input_samples` returned: mixing with the local oscillator and filtering, phase, phase
change and its filtering, sign and its filtering, then the per-sample loop over
`bufTiming` and `bufOut`. The locals afterwards and the bytes written. -/
def demod_block (sinebuf : List Int) (m : modemcfg) (st : demod_full) (bufIn : List Int) :
    demod_full × List Nat :=
  let r := osc_get_complex_samples sinebuf st.o bufIn.length
  let rI := maf_process false st.mafI (mul_samples bufIn r.2.1)
  let rQ := maf_process false st.mafQ (mul_samples bufIn r.2.2)
  let bufAng := ang_complex_samples rI.2 rQ.2
  let rD := deriv_samples st.diffAng bufAng
  let rOut := maf_process false st.mafOut rD.2
  let rBit := maf_process true st.mafBit (sgn_samples rOut.2)
  let rS := demod_run m (demod_phase m).1 (demod_phase m).2 st.s (List.zip rBit.2 rOut.2)
  ({ o := r.1, diffAng := rD.1, mafI := rI.1, mafQ := rQ.1, mafOut := rOut.1,
     mafBit := rBit.1, s := rS.1 }, rS.2)

/-- The `while(!quit)` loop of `v23_demodulate` over the successive blocks returned by
`get_input_samples`; a block of no sample ends the loop (`if(n == 0) break;`). -/
def demod_blocks (sinebuf : List Int) (m : modemcfg) :
    demod_full → List (List Int) → demod_full × List Nat
  | st, [] => (st, [])
  | st, b :: bs =>
    if b.length = 0 then (st, [])
    else
      ((demod_blocks sinebuf m (demod_block sinebuf m st b).1 bs).1,
        (demod_block sinebuf m st b).2 ++
          (demod_blocks sinebuf m (demod_block sinebuf m st b).1 bs).2)

/-! # Theorems -/

theorem testBit_wrap32 (x j : Nat) : (wrap32 x).testBit j = (decide (j < 32) && x.testBit j) :=
  Nat.testBit_mod_two_pow x 32 j

theorem testBit_shl32 (x : Nat) (n : Int) (j : Nat) :
    (shl32 x n).testBit j = (decide (j < 32) && (decide (n.toNat ≤ j) && x.testBit (j - n.toNat))) := by
  simp only [shl32, testBit_wrap32, Nat.testBit_shiftLeft, ge_iff_le]

theorem testBit_small (b j : Nat) (hb : b < 2) : b.testBit j = (decide (j = 0) && decide (b = 1)) := by
  have h : b = 0 ∨ b = 1 := by omega
  rcases h with rfl | rfl
  · simp
  · cases j with
    | zero => simp
    | succ k => simp [Nat.testBit_succ]

theorem testBit_shl1_or_zero (x b : Nat) (hb : b < 2) :
    (shl32 x 1 ||| b).testBit 0 = decide (b = 1) := by
  rw [Nat.testBit_or, testBit_shl32, testBit_small b 0 hb]; simp

theorem testBit_shl1_or_succ (x b k : Nat) (hb : b < 2) :
    (shl32 x 1 ||| b).testBit (k + 1) = (decide (k + 1 < 32) && x.testBit k) := by
  rw [Nat.testBit_or, testBit_shl32, testBit_small b (k + 1) hb]; simp

theorem bit_at_cons_zero (p : Char → Bool) (c : Char) (acc : List Char) :
    bit_at p (c :: acc) 0 = p c := by simp [bit_at]

theorem bit_at_cons_succ (p : Char → Bool) (c : Char) (acc : List Char) (k : Nat) :
    bit_at p (c :: acc) (k + 1) = (decide (k + 1 < 32) && bit_at p acc k) := by
  simp only [bit_at, List.getElem?_cons_succ]
  by_cases h : k + 1 < 32
  · have : k < 32 := by omega
    simp [h, this]
  · simp [h]

theorem Rep_init (overlap : Int) : Rep overlap (framefmt_init overlap) [] := by
  constructor <;> simp [framefmt_init, bit_at]

theorem is_spec_cases {c : Char} (h : is_spec c = true) :
    c = '0' ∨ c = '1' ∨ c = 'd' ∨ c = 'D' ∨ c = 'p' ∨ c = 'P' := by
  simp only [is_spec, is_fixed, is_data, is_parity, Bool.or_eq_true, beq_iff_eq] at h
  tauto

theorem bit_at_step (p : Char → Bool) (c : Char) (acc : List Char) (x b : Nat) (hb : b < 2)
    (hx : ∀ j, x.testBit j = bit_at p acc j) (hc : decide (b = 1) = p c) (j : Nat) :
    (shl32 x 1 ||| b).testBit j = bit_at p (c :: acc) j := by
  cases j with
  | zero => rw [testBit_shl1_or_zero x b hb, bit_at_cons_zero]; exact hc
  | succ k => rw [testBit_shl1_or_succ x b k hb, bit_at_cons_succ, hx]

theorem bit_at_step0 (p : Char → Bool) (c : Char) (acc : List Char) (x : Nat)
    (hx : ∀ j, x.testBit j = bit_at p acc j) (hc : p c = false) (j : Nat) :
    (shl32 x 1).testBit j = bit_at p (c :: acc) j := by
  have := bit_at_step p c acc x 0 (by omega) hx (by simp [hc]) j
  simpa using this

theorem Rep_step (overlap : Int) (ff : framefmt) (acc : List Char) (c : Char)
    (hc : is_spec c = true) (h : Rep overlap ff acc) :
    Rep overlap (init_framefmt_step ff c).1 (c :: acc) ∧ (init_framefmt_step ff c).2 = true := by
  rcases is_spec_cases hc with rfl | rfl | rfl | rfl | rfl | rfl
  all_goals
    refine ⟨⟨?_, ?_, ?_, ?_, ?_, ?_, ?_, ?_, ?_, ?_⟩, ?_⟩
  all_goals first
    | (intro j
       first
        | exact bit_at_step _ _ acc _ 1 (by omega) (by first | exact h.mask | exact h.pattern | exact h.data | exact h.par) (by decide) j
        | (simp only [init_framefmt_step, Nat.or_zero]
           simp only [Char.reduceEq, if_true, if_false, false_or, or_false, or_true, true_or, or_self]
           exact bit_at_step0 _ _ acc _ (by first | exact h.mask | exact h.pattern | exact h.data | exact h.par) (by decide) j))
    | (simp [init_framefmt_step, h.size, h.dsize, h.doff, h.lsb, h.pen, h.pev, is_data, is_parity, List.find?, List.countP_cons]; done)
    | (simp [init_framefmt_step, h.size, h.dsize, h.doff, h.lsb, h.pen, h.pev, is_data, is_parity, List.find?, List.countP_cons]; omega)

theorem Rep_loop (overlap : Int) (cs : List Char) :
    ∀ (ff : framefmt) (acc : List Char), (∀ c ∈ cs, is_spec c = true) → Rep overlap ff acc →
      Rep overlap (init_framefmt_loop ff cs).1 (cs.reverse ++ acc) ∧
        (init_framefmt_loop ff cs).2 = true := by
  induction cs with
  | nil => intro ff acc _ h; simpa [init_framefmt_loop] using h
  | cons c cs ih =>
    intro ff acc hcs h
    have hc : is_spec c = true := hcs c (List.mem_cons_self _ _)
    obtain ⟨h1, h2⟩ := Rep_step overlap ff acc c hc h
    have ih1 := ih (init_framefmt_step ff c).1 (c :: acc)
      (fun d hd => hcs d (List.mem_cons_of_mem _ hd)) h1
    have e : init_framefmt_loop ff (c :: cs) = init_framefmt_loop (init_framefmt_step ff c).1 cs := by
      rw [init_framefmt_loop]
      split
      · next ff1 heq => rw [heq]
      · next ff1 heq => rw [heq] at h2; simp at h2
    rw [e]
    simpa using ih1

theorem Rep_init_framefmt (overlap : Int) (fmt : List Char) (h : ∀ c ∈ fmt, is_spec c = true) :
    Rep overlap (init_framefmt fmt overlap).1 fmt.reverse := by
  have := (Rep_loop overlap fmt (framefmt_init overlap) [] h (Rep_init overlap)).1
  simpa [init_framefmt] using this

theorem init_framefmt_step_snd (ff : framefmt) (c : Char) :
    (init_framefmt_step ff c).2 = is_spec c := by
  unfold init_framefmt_step
  simp only [is_spec, is_fixed, is_data, is_parity]
  split_ifs <;> simp_all

theorem init_framefmt_loop_snd (cs : List Char) :
    ∀ ff : framefmt, (init_framefmt_loop ff cs).2 = cs.all is_spec := by
  induction cs with
  | nil => intro ff; simp [init_framefmt_loop]
  | cons c cs ih =>
    intro ff
    have hs := init_framefmt_step_snd ff c
    rw [init_framefmt_loop]
    split
    · next ff1 heq =>
      rw [heq] at hs
      simp only [List.all_cons, ← hs, ih, Bool.true_and]
    · next ff1 heq =>
      rw [heq] at hs
      simp only [List.all_cons, ← hs, Bool.false_and]

/-- C10: `init_framefmt` returns `false` exactly when the pattern contains a character other
than `0`, `1`, `d`, `D`, `p`, `P`, and `true` exactly when all its characters are among
those six. -/
theorem init_framefmt_false_iff (fmt : List Char) (overlap : Int) :
    ((init_framefmt fmt overlap).2 = false ↔
        ∃ c ∈ fmt, ¬ (c = '0' ∨ c = '1' ∨ c = 'd' ∨ c = 'D' ∨ c = 'p' ∨ c = 'P')) ∧
    ((init_framefmt fmt overlap).2 = true ↔
        ∀ c ∈ fmt, c = '0' ∨ c = '1' ∨ c = 'd' ∨ c = 'D' ∨ c = 'p' ∨ c = 'P') := by
  have key : (init_framefmt fmt overlap).2 = true ↔
      ∀ c ∈ fmt, c = '0' ∨ c = '1' ∨ c = 'd' ∨ c = 'D' ∨ c = 'p' ∨ c = 'P' := by
    rw [init_framefmt, init_framefmt_loop_snd, List.all_eq_true]
    constructor
    · intro h c hc; exact is_spec_cases (h c hc)
    · intro h c hc
      rcases h c hc with rfl | rfl | rfl | rfl | rfl | rfl <;> decide
  refine ⟨?_, key⟩
  rw [← Bool.not_eq_true, key]
  push_neg
  rfl

theorem bit_at_reverse (p : Char → Bool) (fmt : List Char) (hlen : fmt.length ≤ 32) (i : Nat)
    (hi : i < fmt.length) :
    bit_at p fmt.reverse (fmt.length - 1 - i) = p (fmt.get ⟨i, hi⟩) := by
  have h1 : fmt.length - 1 - i < fmt.reverse.length := by simp; omega
  have h2 : fmt.length - 1 - (fmt.length - 1 - i) = i := by omega
  have h3 : fmt.length - 1 - i < 32 := by omega
  simp only [bit_at, List.getElem?_reverse (by omega : fmt.length - 1 - i < fmt.length), h2,
    List.getElem?_eq_getElem hi, h3, decide_True, Bool.true_and, List.get_eq_getElem]

theorem bit_at_ge (p : Char → Bool) (acc : List Char) (j : Nat) (hj : acc.length ≤ j) :
    bit_at p acc j = false := by
  simp [bit_at, List.getElem?_eq_none hj]

/-- C8: for a pattern of at most 31 characters over `0`, `1`, `d`, `D`, `p`, `P`, the
character at index `i` is represented at bit `len - 1 - i` of the compiled masks (set in
`frame_mask` iff it is `0` or `1`, in `frame_pattern` iff it is `1`, in `data_mask` iff it is
`d` or `D`, in `parity_mask` iff it is `p` or `P`), and no mask has a bit set at position
`len` or above. -/
theorem init_framefmt_mask_bits (fmt : List Char)
    (hspec : ∀ c ∈ fmt, c = '0' ∨ c = '1' ∨ c = 'd' ∨ c = 'D' ∨ c = 'p' ∨ c = 'P')
    (hlen : fmt.length ≤ 31) :
    (∀ (i : Nat) (hi : i < fmt.length),
      ((init_framefmt fmt 1).1.frame_mask.testBit (fmt.length - 1 - i) = true ↔
        (fmt.get ⟨i, hi⟩ = '0' ∨ fmt.get ⟨i, hi⟩ = '1')) ∧
      ((init_framefmt fmt 1).1.frame_pattern.testBit (fmt.length - 1 - i) = true ↔
        fmt.get ⟨i, hi⟩ = '1') ∧
      ((init_framefmt fmt 1).1.data_mask.testBit (fmt.length - 1 - i) = true ↔
        (fmt.get ⟨i, hi⟩ = 'd' ∨ fmt.get ⟨i, hi⟩ = 'D')) ∧
      ((init_framefmt fmt 1).1.parity_mask.testBit (fmt.length - 1 - i) = true ↔
        (fmt.get ⟨i, hi⟩ = 'p' ∨ fmt.get ⟨i, hi⟩ = 'P'))) ∧
    (∀ j : Nat, fmt.length ≤ j →
      (init_framefmt fmt 1).1.frame_mask.testBit j = false ∧
      (init_framefmt fmt 1).1.frame_pattern.testBit j = false ∧
      (init_framefmt fmt 1).1.data_mask.testBit j = false ∧
      (init_framefmt fmt 1).1.parity_mask.testBit j = false) := by
  have hs : ∀ c ∈ fmt, is_spec c = true := by
    intro c hc
    rcases hspec c hc with rfl | rfl | rfl | rfl | rfl | rfl <;> decide
  have R := Rep_init_framefmt 1 fmt hs
  refine ⟨fun i hi => ⟨?_, ?_, ?_, ?_⟩, fun j hj => ?_⟩
  · rw [R.mask, bit_at_reverse _ fmt (by omega) i hi]; simp [is_fixed]
  · rw [R.pattern, bit_at_reverse _ fmt (by omega) i hi]; simp [is_one]
  · rw [R.data, bit_at_reverse _ fmt (by omega) i hi]; simp [is_data]
  · rw [R.par, bit_at_reverse _ fmt (by omega) i hi]; simp [is_parity]
  · have hj' : fmt.reverse.length ≤ j := by simpa using hj
    exact ⟨by rw [R.mask, bit_at_ge _ _ _ hj'], by rw [R.pattern, bit_at_ge _ _ _ hj'],
      by rw [R.data, bit_at_ge _ _ _ hj'], by rw [R.par, bit_at_ge _ _ _ hj']⟩

theorem init_framefmt_mask_bits_witness :
    ((∀ c ∈ DEF_FRAME_FORMAT, c = '0' ∨ c = '1' ∨ c = 'd' ∨ c = 'D' ∨ c = 'p' ∨ c = 'P') ∧
      DEF_FRAME_FORMAT.length ≤ 31) ∧
    ((∀ (i : Nat) (hi : i < DEF_FRAME_FORMAT.length),
      ((init_framefmt DEF_FRAME_FORMAT 1).1.frame_mask.testBit
          (DEF_FRAME_FORMAT.length - 1 - i) = true ↔
        (DEF_FRAME_FORMAT.get ⟨i, hi⟩ = '0' ∨ DEF_FRAME_FORMAT.get ⟨i, hi⟩ = '1')) ∧
      ((init_framefmt DEF_FRAME_FORMAT 1).1.frame_pattern.testBit
          (DEF_FRAME_FORMAT.length - 1 - i) = true ↔
        DEF_FRAME_FORMAT.get ⟨i, hi⟩ = '1') ∧
      ((init_framefmt DEF_FRAME_FORMAT 1).1.data_mask.testBit
          (DEF_FRAME_FORMAT.length - 1 - i) = true ↔
        (DEF_FRAME_FORMAT.get ⟨i, hi⟩ = 'd' ∨ DEF_FRAME_FORMAT.get ⟨i, hi⟩ = 'D')) ∧
      ((init_framefmt DEF_FRAME_FORMAT 1).1.parity_mask.testBit
          (DEF_FRAME_FORMAT.length - 1 - i) = true ↔
        (DEF_FRAME_FORMAT.get ⟨i, hi⟩ = 'p' ∨ DEF_FRAME_FORMAT.get ⟨i, hi⟩ = 'P'))) ∧
    (∀ j : Nat, DEF_FRAME_FORMAT.length ≤ j →
      (init_framefmt DEF_FRAME_FORMAT 1).1.frame_mask.testBit j = false ∧
      (init_framefmt DEF_FRAME_FORMAT 1).1.frame_pattern.testBit j = false ∧
      (init_framefmt DEF_FRAME_FORMAT 1).1.data_mask.testBit j = false ∧
      (init_framefmt DEF_FRAME_FORMAT 1).1.parity_mask.testBit j = false)) :=
  ⟨⟨by decide, by decide⟩, init_framefmt_mask_bits DEF_FRAME_FORMAT (by decide) (by decide)⟩

theorem parity_eq (v : Nat) :
    parity v = decide (((wrap32 ((xor_fold (wrap32 v) &&& 0x11111111) * 0x11111111)) >>> 28) % 2 = 1) := by
  simp [parity, xor_fold]

theorem and_nibble_mask (x m : Nat) :
    x &&& (1 + 16 * m) = x % 2 + 16 * ((x / 16) &&& m) := by
  apply Nat.eq_of_testBit_eq
  intro j
  have e1 : 1 + 16 * m = 2 ^ 4 * m + 1 := by omega
  have e2 : x % 2 + 16 * ((x / 16) &&& m) = 2 ^ 4 * ((x / 16) &&& m) + x % 2 := by omega
  have e3 : x / 16 = x >>> 4 := by rw [Nat.shiftRight_eq_div_pow]
  rw [Nat.testBit_and, e1, e2, Nat.testBit_mul_pow_two_add m (by omega : 1 < 2 ^ 4),
    Nat.testBit_mul_pow_two_add _ (by omega : x % 2 < 2 ^ 4), Nat.testBit_and, e3,
    Nat.testBit_shiftRight]
  by_cases h : j < 4
  · simp only [h, if_true]
    rw [testBit_small 1 j (by omega), testBit_small (x % 2) j (by omega)]
    by_cases h0 : j = 0
    · subst h0; simp
    · simp [h0]
  · simp only [h, if_false]
    have : 4 + (j - 4) = j := by omega
    rw [this]

theorem xor_fold_div16 (x : Nat) : xor_fold x / 16 = xor_fold (x / 16) := by
  apply Nat.eq_of_testBit_eq
  intro j
  have e : ∀ z : Nat, z / 16 = z >>> 4 := fun z => by rw [Nat.shiftRight_eq_div_pow]
  simp only [e, xor_fold, Nat.testBit_xor, Nat.testBit_shiftRight]
  have a1 : 4 + (1 + j) = 1 + (4 + j) := by omega
  have a2 : 4 + (2 + j) = 2 + (4 + j) := by omega
  have a3 : 4 + (1 + (2 + j)) = 1 + (2 + (4 + j)) := by omega
  rw [a1, a2, a3]

theorem xor_fold_mod2 (x : Nat) :
    xor_fold x % 2 = (x % 2 + x / 2 % 2 + x / 4 % 2 + x / 8 % 2) % 2 := by
  have h1 := Nat.xor_mod_two_eq_one (a := x ^^^ x >>> 1) (b := (x ^^^ x >>> 1) >>> 2)
  have h2 := Nat.xor_mod_two_eq_one (a := x) (b := x >>> 1)
  have e : (x ^^^ x >>> 1) >>> 2 = (x >>> 2) ^^^ (x >>> 3) := by
    apply Nat.eq_of_testBit_eq
    intro j
    simp only [Nat.testBit_xor, Nat.testBit_shiftRight]
    have : 1 + (2 + j) = 3 + j := by omega
    rw [this]
  have h3 := Nat.xor_mod_two_eq_one (a := x >>> 2) (b := x >>> 3)
  rw [e] at h1
  simp only [Nat.shiftRight_eq_div_pow] at h1 h2 h3 e
  simp only [xor_fold, Nat.shiftRight_eq_div_pow, e]
  omega

theorem bitcount_nibble (w x : Nat) :
    bitcount (w + 4) x = (x % 2 + x / 2 % 2 + x / 4 % 2 + x / 8 % 2) + bitcount w (x / 16) := by
  have e2 : x / 2 / 2 = x / 4 := by omega
  have e3 : x / 4 / 2 = x / 8 := by omega
  have e4 : x / 8 / 2 = x / 16 := by omega
  simp only [bitcount, e2, e3, e4]
  omega

set_option maxRecDepth 100000 in
theorem nibble_mul_decide :
    ∀ n0 n1 n2 n3 n4 n5 n6 n7 : Fin 2,
      (wrap32 ((n0.val + 16 * (n1.val + 16 * (n2.val + 16 * (n3.val + 16 * (n4.val +
          16 * (n5.val + 16 * (n6.val + 16 * n7.val))))))) * 0x11111111) >>> 28) % 2 =
        (n0.val + n1.val + n2.val + n3.val + n4.val + n5.val + n6.val + n7.val) % 2 := by
  decide

theorem parity_eq_odd (v : Nat) (hv : v < 2 ^ 32) :
    parity v = decide (bitcount 32 v % 2 = 1) := by
  rw [Bool.eq_iff_iff, decide_eq_true_eq]
  have hw : wrap32 v = v := Nat.mod_eq_of_lt hv
  rw [parity_eq, hw]
  have hm : (0x11111111 : Nat) =
      1 + 16 * (1 + 16 * (1 + 16 * (1 + 16 * (1 + 16 * (1 + 16 * (1 + 16 * (1 + 16 * 0))))))) := by
    norm_num
  have hX : xor_fold v &&& 0x11111111 =
      xor_fold v % 2 + 16 * (xor_fold (v / 16) % 2 + 16 * (xor_fold (v / 16 / 16) % 2 +
        16 * (xor_fold (v / 16 / 16 / 16) % 2 + 16 * (xor_fold (v / 16 / 16 / 16 / 16) % 2 +
        16 * (xor_fold (v / 16 / 16 / 16 / 16 / 16) % 2 +
        16 * (xor_fold (v / 16 / 16 / 16 / 16 / 16 / 16) % 2 +
        16 * (xor_fold (v / 16 / 16 / 16 / 16 / 16 / 16 / 16) % 2))))))) := by
    rw [hm]
    simp only [and_nibble_mask, xor_fold_div16, Nat.and_zero, Nat.mul_zero, Nat.add_zero,
      Nat.and_one_is_mod]
  have hd := nibble_mul_decide ⟨_, Nat.mod_lt (xor_fold v) (by omega)⟩
    ⟨_, Nat.mod_lt (xor_fold (v / 16)) (by omega)⟩
    ⟨_, Nat.mod_lt (xor_fold (v / 16 / 16)) (by omega)⟩
    ⟨_, Nat.mod_lt (xor_fold (v / 16 / 16 / 16)) (by omega)⟩
    ⟨_, Nat.mod_lt (xor_fold (v / 16 / 16 / 16 / 16)) (by omega)⟩
    ⟨_, Nat.mod_lt (xor_fold (v / 16 / 16 / 16 / 16 / 16)) (by omega)⟩
    ⟨_, Nat.mod_lt (xor_fold (v / 16 / 16 / 16 / 16 / 16 / 16)) (by omega)⟩
    ⟨_, Nat.mod_lt (xor_fold (v / 16 / 16 / 16 / 16 / 16 / 16 / 16)) (by omega)⟩
  simp only [] at hd
  rw [hX, hd]
  have hb : bitcount 32 v = bitcount (0 + 4 + 4 + 4 + 4 + 4 + 4 + 4 + 4) v := rfl
  have hz : ∀ x, bitcount 0 x = 0 := fun _ => rfl
  rw [hb]
  simp only [bitcount_nibble, xor_fold_mod2, hz, decide_eq_true_eq]
  clear hX hd hb hz hm hw hv
  omega

/-- C6: for every 32-bit unsigned value `v`, `parity v` is true iff `v` has an odd number of
set bits: the XOR-fold, the multiplication by `0x11111111` modulo `2 ^ 32` and the final
`(v >> 28) & (1 != 0)` together compute the bit count modulo 2. -/
theorem parity_iff_bitcount_odd (v : Nat) (hv : v < 2 ^ 32) :
    parity v = true ↔ bitcount 32 v % 2 = 1 := by
  rw [parity_eq_odd v hv, decide_eq_true_eq]

set_option maxRecDepth 1000000 in
theorem order_data_decide :
    ∀ (n : Fin 9) (d : Fin 256), d.val < 2 ^ n.val →
      order_data (n.val : Int) true d.val < 2 ^ n.val ∧
      parity (order_data (n.val : Int) true d.val) = parity d.val ∧
      order_data (n.val : Int) true (order_data (n.val : Int) true d.val) &&& 0xff = d.val := by
  decide

theorem bit_at_imp (p q : Char → Bool) (acc : List Char) (j : Nat) (b : Bool)
    (hpq : ∀ c, p c = true → q c = b) (h : bit_at p acc j = true) :
    bit_at q acc j = (b && true) := by
  unfold bit_at at h ⊢
  cases hj : acc[j]? with
  | none => simp [hj] at h
  | some c =>
    simp only [hj, Bool.and_eq_true, decide_eq_true_eq] at h ⊢
    simp [h.1, hpq c h.2]

theorem bit_at_const (p : Char → Bool) (l : List Char) (b : Bool) (h : ∀ c ∈ l, p c = b) (j : Nat) :
    bit_at p l j = (decide (j < 32) && (decide (j < l.length) && b)) := by
  unfold bit_at
  by_cases hj : j < l.length
  · rw [List.getElem?_eq_getElem hj]
    simp [hj, h _ (List.getElem_mem hj)]
  · rw [List.getElem?_eq_none (by omega)]
    simp [hj]

theorem bit_at_append (p : Char → Bool) (l1 l2 : List Char) (j : Nat) :
    bit_at p (l1 ++ l2) j =
      if j < l1.length then bit_at p l1 j else (decide (j < 32) && bit_at p l2 (j - l1.length)) := by
  unfold bit_at
  by_cases hj : j < l1.length
  · simp only [hj, if_true, List.getElem?_append_left hj]
  · simp only [hj, if_false, List.getElem?_append_right (by omega : l1.length ≤ j)]
    by_cases h32 : j < 32
    · have : j - l1.length < 32 := by omega
      simp [h32, this]
    · simp [h32]

theorem any_bit_at (p : Char → Bool) (acc : List Char) (hlen : acc.length ≤ 32)
    (h : acc.any p = true) : ∃ j, bit_at p acc j = true := by
  rw [List.any_eq_true] at h
  obtain ⟨x, hx, hpx⟩ := h
  obtain ⟨i, hi, rfl⟩ := List.getElem_of_mem hx
  refine ⟨i, ?_⟩
  unfold bit_at
  rw [List.getElem?_eq_getElem hi]
  simp [hpx]; omega

theorem not_data_of_side {l : List Char}
    (h : ∀ ch ∈ l, ch = '0' ∨ ch = '1' ∨ ch = 'p' ∨ ch = 'P') :
    ∀ ch ∈ l.reverse, is_data ch = false := by
  intro ch hch
  rcases h ch (List.mem_reverse.mp hch) with rfl | rfl | rfl | rfl <;> decide

theorem is_data_of_data {l : List Char} (h : ∀ ch ∈ l, ch = 'd' ∨ ch = 'D') :
    ∀ ch ∈ l.reverse, is_data ch = true := by
  intro ch hch
  rcases h ch (List.mem_reverse.mp hch) with rfl | rfl <;> decide

theorem is_spec_of_parts {pre dat suf : List Char}
    (hpre : ∀ ch ∈ pre, ch = '0' ∨ ch = '1' ∨ ch = 'p' ∨ ch = 'P')
    (hdat : ∀ ch ∈ dat, ch = 'd' ∨ ch = 'D')
    (hsuf : ∀ ch ∈ suf, ch = '0' ∨ ch = '1' ∨ ch = 'p' ∨ ch = 'P') :
    ∀ ch ∈ pre ++ dat ++ suf, is_spec ch = true := by
  intro ch hch
  simp only [List.mem_append] at hch
  rcases hch with (h | h) | h
  · rcases hpre ch h with rfl | rfl | rfl | rfl <;> decide
  · rcases hdat ch h with rfl | rfl <;> decide
  · rcases hsuf ch h with rfl | rfl | rfl | rfl <;> decide

theorem FrameOK_of_Rep (f : framefmt) (fmt : List Char) (hlen : fmt.length ≤ 31)
    (R : Rep 1 f fmt.reverse) (n off : Nat) (hn : n ≤ 8) (hfit : off + n ≤ fmt.length)
    (hds : f.data_size = n) (hdo : f.data_offset = off)
    (hdata : ∀ j, f.data_mask.testBit j = decide (off ≤ j ∧ j < off + n)) :
    FrameOK f fmt.length n off := by
  have hl : fmt.reverse.length = fmt.length := List.length_reverse fmt
  refine
    { size := by rw [R.size, hl]; omega
      len_le := hlen
      dsize := hds
      n_le := hn
      doff := hdo
      fit := hfit
      data := hdata
      pat_sub := ?_
      mask_par := ?_
      mask_data := ?_
      par_data := ?_
      mask_lt := ?_
      par_lt := ?_
      par_ne := ?_ }
  · intro j hj
    rw [R.pattern] at hj
    rw [R.mask, bit_at_imp is_one is_fixed _ j true (by intro c; simp [is_one, is_fixed]; intro h; simp [h]) hj]
    rfl
  · intro j hj
    rw [R.mask] at hj
    rw [R.par, bit_at_imp is_fixed is_parity _ j false
      (by intro c; simp only [is_fixed, is_parity, Bool.or_eq_true, beq_iff_eq]; rintro (rfl | rfl) <;> decide) hj]
    rfl
  · intro j hj
    rw [R.mask] at hj
    rw [R.data, bit_at_imp is_fixed is_data _ j false
      (by intro c; simp only [is_fixed, is_data, Bool.or_eq_true, beq_iff_eq]; rintro (rfl | rfl) <;> decide) hj]
    rfl
  · intro j hj
    rw [R.par] at hj
    rw [R.data, bit_at_imp is_parity is_data _ j false
      (by intro c; simp only [is_parity, is_data, Bool.or_eq_true, beq_iff_eq]; rintro (rfl | rfl) <;> decide) hj]
    rfl
  · intro j hj
    rw [R.mask, bit_at_ge _ _ _ (by omega)]
  · intro j hj
    rw [R.par, bit_at_ge _ _ _ (by omega)]
  · intro hpe
    rw [R.pen] at hpe
    obtain ⟨j, hj⟩ := any_bit_at is_parity _ (by omega) hpe
    exact ⟨j, by rw [R.par, hj]⟩

theorem FrameOK_of_pattern (pre dat suf : List Char)
    (hpre : ∀ ch ∈ pre, ch = '0' ∨ ch = '1' ∨ ch = 'p' ∨ ch = 'P')
    (hdat : ∀ ch ∈ dat, ch = 'd' ∨ ch = 'D')
    (hsuf : ∀ ch ∈ suf, ch = '0' ∨ ch = '1' ∨ ch = 'p' ∨ ch = 'P')
    (hn1 : 1 ≤ dat.length) (hn8 : dat.length ≤ 8) (hlen : (pre ++ dat ++ suf).length ≤ 31) :
    FrameOK (init_framefmt (pre ++ dat ++ suf) 1).1 (pre ++ dat ++ suf).length dat.length
      suf.length := by
  have R := Rep_init_framefmt 1 (pre ++ dat ++ suf) (is_spec_of_parts hpre hdat hsuf)
  have hrev : (pre ++ dat ++ suf).reverse = suf.reverse ++ (dat.reverse ++ pre.reverse) := by
    simp
  have hL : (pre ++ dat ++ suf).length = pre.length + dat.length + suf.length := by
    simp only [List.length_append]
  have hs := not_data_of_side hsuf
  have hp := not_data_of_side hpre
  have hd := is_data_of_data hdat
  apply FrameOK_of_Rep _ _ hlen R _ _ hn8 (by rw [hL]; omega)
  · rw [R.dsize, hrev]
    have c1 : suf.reverse.countP is_data = 0 :=
      List.countP_eq_zero.mpr (fun c hc => by simp [hs c hc])
    have c2 : pre.reverse.countP is_data = 0 :=
      List.countP_eq_zero.mpr (fun c hc => by simp [hp c hc])
    have c3 : dat.reverse.countP is_data = dat.reverse.length :=
      List.countP_eq_length.mpr (fun c hc => hd c hc)
    simp only [List.countP_append, c1, c2, c3, List.length_reverse]
    simp
  · rw [R.doff, hrev]
    rw [List.takeWhile_append_of_pos (fun c hc => by simp [hs c hc])]
    have hdl : dat.reverse.length = dat.length := List.length_reverse dat
    cases hdr : dat.reverse with
    | nil =>
      rw [hdr] at hdl
      simp at hdl; omega
    | cons d ds =>
      have hdd : is_data d = true := hd d (by rw [hdr]; exact List.mem_cons_self _ _)
      simp [List.takeWhile, hdd]
  · intro j
    rw [R.data, hrev, bit_at_append, bit_at_append, bit_at_const _ _ false hs,
      bit_at_const _ _ true hd, bit_at_const _ _ false hp]
    simp only [List.length_reverse]
    rw [hL] at hlen
    by_cases h1 : j < suf.length
    · simp [h1]
    · by_cases h2 : j - suf.length < dat.length
      · have h3 : j < 32 := by omega
        have h4 : j - suf.length < 32 := by omega
        simp [h1, h2, h3, h4]; omega
      · simp [h1, h2]; omega

theorem dec32_shl32_one (len : Nat) (h : len ≤ 31) :
    dec32 (shl32 1 (len : Int)) = 2 ^ len - 1 := by
  have h1 : 1 ≤ 2 ^ len := Nat.one_le_two_pow
  have h2 : 2 ^ len ≤ 2 ^ 31 := Nat.pow_le_pow_right (by omega) h
  simp only [dec32, shl32, wrap32, Int.toNat_ofNat, Nat.one_shiftLeft]
  omega

theorem demod_frame_data_eq (f : framefmt) (len n off : Nat) (h : FrameOK f len n off)
    (out_shift : Nat) : demod_frame_data f out_shift = out_shift % 2 ^ len := by
  have hs : f.frame_size + 1 = (len : Int) := h.size
  rw [demod_frame_data, hs, dec32_shl32_one len h.len_le, Nat.and_pow_two_sub_one_eq_mod]

theorem truncate_data_eq (n : Nat) (hn : n ≤ 8) (c : Nat) (hc : c < 256) :
    truncate_data (n : Int) c = c % 2 ^ n := by
  have h1 : wrap32 (c % 256) = c := by
    rw [wrap32, Nat.mod_eq_of_lt hc, Nat.mod_eq_of_lt (by omega)]
  rw [truncate_data, h1, dec32_shl32_one n (by omega), Nat.and_pow_two_sub_one_eq_mod]

theorem data_order_facts (n : Nat) (hn : n ≤ 8) (lsb : Bool) (c : Nat) (hc : c < 256) :
    truncate_data (n : Int) c = c % 2 ^ n ∧
    order_data (n : Int) lsb (truncate_data (n : Int) c) < 2 ^ n ∧
    parity (order_data (n : Int) lsb (truncate_data (n : Int) c)) =
      parity (truncate_data (n : Int) c) ∧
    order_data (n : Int) lsb (order_data (n : Int) lsb (truncate_data (n : Int) c)) &&& 0xff =
      c % 2 ^ n := by
  have ht := truncate_data_eq n hn c hc
  have hlt : c % 2 ^ n < 2 ^ n := Nat.mod_lt _ (Nat.two_pow_pos n)
  have h256 : c % 2 ^ n < 256 := lt_of_le_of_lt (Nat.mod_le _ _) hc
  rw [ht]
  cases lsb with
  | false =>
    refine ⟨rfl, hlt, rfl, ?_⟩
    simp only [order_data, Bool.false_eq_true, if_false]
    exact Nat.and_pow_two_sub_one_of_lt_two_pow (n := 8) h256
  | true =>
    exact ⟨rfl, order_data_decide ⟨n, by omega⟩ ⟨c % 2 ^ n, h256⟩ hlt⟩

theorem modulate_frame_testBit (f : framefmt) (len n off : Nat) (h : FrameOK f len n off)
    (c : Nat) (hc : c < 256) (j : Nat) :
    (modulate_frame f c).testBit j =
      ((f.frame_pattern.testBit j ||
        ((f.parity_enable && (parity (truncate_data f.data_size c) == f.parity_even)) &&
          f.parity_mask.testBit j)) ||
        (decide (off ≤ j ∧ j < off + n) &&
          (order_data f.data_size f.lsb_first (truncate_data f.data_size c)).testBit (j - off))) := by
  have hlt := (data_order_facts n h.n_le f.lsb_first c hc).2.1
  have hfit := h.fit
  have hlen := h.len_le
  simp only [modulate_frame]
  rw [h.dsize] at *
  rw [Nat.testBit_or, Nat.testBit_and, testBit_shl32, h.data, h.doff, Int.toNat_ofNat]
  congr 1
  · split <;> rename_i hP
    · simp [Nat.testBit_or, hP]
    · simp only [Bool.not_eq_true] at hP
      simp [hP]
  · by_cases hj : off ≤ j ∧ j < off + n
    · have : j < 32 := by omega
      simp [hj, this]
    · simp [hj]

theorem low_testBit {x y len : Nat} (h : x % 2 ^ len = y) (j : Nat) :
    y.testBit j = (decide (j < len) && x.testBit j) := by
  rw [← h, Nat.testBit_mod_two_pow]

theorem frame_match_of_low (f : framefmt) (len n off : Nat) (h : FrameOK f len n off)
    (c : Nat) (hc : c < 256) (E out_shift : Nat)
    (hE : ∀ j, E.testBit j = true → f.parity_mask.testBit j = true)
    (hX : out_shift % 2 ^ len = modulate_frame f c ^^^ E) :
    frame_match f out_shift = true := by
  rw [frame_match, beq_iff_eq]
  apply Nat.eq_of_testBit_eq
  intro j
  rw [Nat.testBit_and]
  have hY := low_testBit hX j
  rw [Nat.testBit_xor, modulate_frame_testBit f len n off h c hc j] at hY
  have hd := h.data j
  by_cases hm : f.frame_mask.testBit j = true
  · have hjl : j < len := by
      by_contra hge
      have := h.mask_lt j (by omega)
      rw [this] at hm; exact Bool.false_ne_true hm
    have hp := h.mask_par j hm
    have hdm := h.mask_data j hm
    have hEj : E.testBit j = false := by
      cases hEv : E.testBit j with
      | false => rfl
      | true => rw [hE j hEv] at hp; exact absurd hp (by decide)
    rw [hdm] at hd
    rw [hp, hEj, ← hd] at hY
    simp only [hjl, decide_True, Bool.true_and, Bool.and_false, Bool.or_false, Bool.false_and,
      Bool.xor_false] at hY
    rw [← hY, hm, Bool.and_true]
  · simp only [Bool.not_eq_true] at hm
    have hfp : f.frame_pattern.testBit j = false := by
      cases hv : f.frame_pattern.testBit j with
      | false => rfl
      | true => rw [h.pat_sub j hv] at hm; exact absurd hm (by decide)
    rw [hm, hfp, Bool.and_false]

theorem demod_raw_data_of_low (f : framefmt) (len n off : Nat) (h : FrameOK f len n off)
    (c : Nat) (hc : c < 256) (E out_shift : Nat)
    (hE : ∀ j, E.testBit j = true → f.parity_mask.testBit j = true)
    (hX : out_shift % 2 ^ len = modulate_frame f c ^^^ E) :
    demod_raw_data f out_shift =
      order_data f.data_size f.lsb_first (truncate_data f.data_size c) := by
  have hlt := (data_order_facts n h.n_le f.lsb_first c hc).2.1
  rw [← h.dsize] at hlt
  rw [demod_raw_data, demod_frame_data_eq f len n off h, hX, h.doff, Int.toNat_ofNat]
  apply Nat.eq_of_testBit_eq
  intro j
  rw [Nat.testBit_shiftRight, Nat.testBit_and, Nat.testBit_xor,
    modulate_frame_testBit f len n off h c hc, h.data]
  have e : off + j - off = j := by omega
  rw [e]
  by_cases hj : j < n
  · have hdj : f.data_mask.testBit (off + j) = true := by rw [h.data]; simp; omega
    have hfm : f.frame_mask.testBit (off + j) = false := by
      cases hv : f.frame_mask.testBit (off + j) with
      | false => rfl
      | true => rw [h.mask_data _ hv] at hdj; exact absurd hdj (by decide)
    have hfp : f.frame_pattern.testBit (off + j) = false := by
      cases hv : f.frame_pattern.testBit (off + j) with
      | false => rfl
      | true => rw [h.pat_sub _ hv] at hfm; exact absurd hfm (by decide)
    have hpm : f.parity_mask.testBit (off + j) = false := by
      cases hv : f.parity_mask.testBit (off + j) with
      | false => rfl
      | true => rw [h.par_data _ hv] at hdj; exact absurd hdj (by decide)
    have hEj : E.testBit (off + j) = false := by
      cases hv : E.testBit (off + j) with
      | false => rfl
      | true => rw [hE _ hv] at hpm; exact absurd hpm (by decide)
    have hd : decide (off ≤ off + j ∧ off + j < off + n) = true := by simp; omega
    simp [hfp, hpm, hEj, hj]
  · have hd : decide (off ≤ off + j ∧ off + j < off + n) = false := by simp; omega
    have hr : (order_data f.data_size f.lsb_first (truncate_data f.data_size c)).testBit j = false := by
      apply Nat.testBit_lt_two_pow
      calc _ < 2 ^ n := hlt
        _ ≤ 2 ^ j := Nat.pow_le_pow_right (by omega) (by omega)
    have hnj : n ≤ j := by omega
    simp [hr, hnj]

theorem demod_parity_bit_of_low (f : framefmt) (len n off : Nat) (h : FrameOK f len n off)
    (c : Nat) (hc : c < 256) (flip : Bool) (out_shift : Nat) (hpe : f.parity_enable = true)
    (hX : out_shift % 2 ^ len =
      modulate_frame f c ^^^ (if flip then f.parity_mask else 0)) :
    demod_parity_bit f out_shift =
      ((parity (truncate_data f.data_size c) == f.parity_even) != flip) := by
  obtain ⟨k, hk⟩ := h.par_ne hpe
  have hbit : ∀ j, (demod_frame_data f out_shift &&& f.parity_mask).testBit j =
      (((parity (truncate_data f.data_size c) == f.parity_even) != flip) &&
        f.parity_mask.testBit j) := by
    intro j
    rw [demod_frame_data_eq f len n off h, hX, Nat.testBit_and, Nat.testBit_xor,
      modulate_frame_testBit f len n off h c hc]
    by_cases hp : f.parity_mask.testBit j = true
    · have hdj := h.par_data j hp
      have hd := h.data j
      rw [hdj] at hd
      have hfm : f.frame_mask.testBit j = false := by
        cases hv : f.frame_mask.testBit j with
        | false => rfl
        | true => rw [h.mask_par _ hv] at hp; exact absurd hp (by decide)
      have hfp : f.frame_pattern.testBit j = false := by
        cases hv : f.frame_pattern.testBit j with
        | false => rfl
        | true => rw [h.pat_sub _ hv] at hfm; exact absurd hfm (by decide)
      rw [← hd, hfp, hpe, hp]
      cases flip <;> simp [hp]
    · simp only [Bool.not_eq_true] at hp
      rw [hp, Bool.and_false, Bool.and_false]
  rw [demod_parity_bit]
  cases hv : ((parity (truncate_data f.data_size c) == f.parity_even) != flip) with
  | false =>
    rw [hv] at hbit
    have : demod_frame_data f out_shift &&& f.parity_mask = 0 := by
      apply Nat.eq_of_testBit_eq
      intro j
      rw [hbit j]; simp
    rw [this]; rfl
  | true =>
    rw [hv] at hbit
    have hne : demod_frame_data f out_shift &&& f.parity_mask ≠ 0 := by
      intro h0
      have := hbit k
      rw [h0, hk] at this
      simp at this
    simpa using hne

/-- C1: frame-level round trip. For a frame format compiled by `init_framefmt` with overlap 1
from a pattern `pre ++ dat ++ suf` of at most 31 characters, whose data characters `dat` are
contiguous and number between 1 and 8, and for every input byte `c`: if the low
`frame_size + 1` bits of the demodulator's shift register equal the word `modulate_frame`
builds for `c`, then the frame test succeeds, the parity check passes and the decoded byte is
`c` truncated to `data_size` bits; with 8 data bits the decoded byte is `c` itself. -/
theorem frame_round_trip (pre dat suf : List Char) (c out_shift : Nat)
    (hpre : ∀ ch ∈ pre, ch = '0' ∨ ch = '1' ∨ ch = 'p' ∨ ch = 'P')
    (hdat : ∀ ch ∈ dat, ch = 'd' ∨ ch = 'D')
    (hsuf : ∀ ch ∈ suf, ch = '0' ∨ ch = '1' ∨ ch = 'p' ∨ ch = 'P')
    (hn1 : 1 ≤ dat.length) (hn8 : dat.length ≤ 8) (hlen : (pre ++ dat ++ suf).length ≤ 31)
    (hc : c < 256)
    (hW : out_shift % 2 ^ ((init_framefmt (pre ++ dat ++ suf) 1).1.frame_size + 1).toNat =
      modulate_frame (init_framefmt (pre ++ dat ++ suf) 1).1 c) :
    frame_match (init_framefmt (pre ++ dat ++ suf) 1).1 out_shift = true ∧
    demod_parity_ok (init_framefmt (pre ++ dat ++ suf) 1).1 out_shift = true ∧
    demod_data (init_framefmt (pre ++ dat ++ suf) 1).1 out_shift =
      c % 2 ^ (init_framefmt (pre ++ dat ++ suf) 1).1.data_size.toNat ∧
    ((init_framefmt (pre ++ dat ++ suf) 1).1.data_size = 8 →
      demod_data (init_framefmt (pre ++ dat ++ suf) 1).1 out_shift = c) := by
  have h := FrameOK_of_pattern pre dat suf hpre hdat hsuf hn1 hn8 hlen
  generalize (init_framefmt (pre ++ dat ++ suf) 1).1 = f at h hW
  generalize (pre ++ dat ++ suf).length = len at h hW
  have hsz : (f.frame_size + 1).toNat = len := by rw [h.size]; rfl
  rw [hsz] at hW
  have hX : out_shift % 2 ^ len = modulate_frame f c ^^^ 0 := by rw [Nat.xor_zero]; exact hW
  have hraw := demod_raw_data_of_low f len _ _ h c hc 0 out_shift (by simp) hX
  obtain ⟨f1, f2, f3, f4⟩ := data_order_facts dat.length hn8 f.lsb_first c hc
  rw [← h.dsize] at f1 f2 f3 f4
  have hdata : demod_data f out_shift = c % 2 ^ f.data_size.toNat := by
    rw [demod_data, hraw, f4, h.dsize]; rfl
  refine ⟨frame_match_of_low f len _ _ h c hc 0 out_shift (by simp) hX, ?_, hdata, ?_⟩
  · rw [demod_parity_ok, hraw, f3]
    cases hpe : f.parity_enable with
    | false => rfl
    | true =>
      have hpb := demod_parity_bit_of_low f len _ _ h c hc false out_shift hpe
        (by simpa using hW)
      rw [hpb]
      cases parity (truncate_data f.data_size c) <;> cases f.parity_even <;> rfl
  · intro h8
    rw [hdata, h8]
    exact Nat.mod_eq_of_lt hc

theorem frame_round_trip_witness :
    (1 ≤ ['d', 'd', 'd', 'd', 'd', 'd', 'd', 'd'].length ∧
      ['d', 'd', 'd', 'd', 'd', 'd', 'd', 'd'].length ≤ 8 ∧
      (['1', '0'] ++ ['d', 'd', 'd', 'd', 'd', 'd', 'd', 'd'] ++ ['1']).length ≤ 31 ∧
      0xA5 < 256 ∧
      0xFFFFFD4B % 2 ^ ((init_framefmt
          (['1', '0'] ++ ['d', 'd', 'd', 'd', 'd', 'd', 'd', 'd'] ++ ['1']) 1).1.frame_size + 1).toNat =
        modulate_frame (init_framefmt
          (['1', '0'] ++ ['d', 'd', 'd', 'd', 'd', 'd', 'd', 'd'] ++ ['1']) 1).1 0xA5) ∧
    (frame_match (init_framefmt
        (['1', '0'] ++ ['d', 'd', 'd', 'd', 'd', 'd', 'd', 'd'] ++ ['1']) 1).1 0xFFFFFD4B = true ∧
      demod_parity_ok (init_framefmt
        (['1', '0'] ++ ['d', 'd', 'd', 'd', 'd', 'd', 'd', 'd'] ++ ['1']) 1).1 0xFFFFFD4B = true ∧
      demod_data (init_framefmt
        (['1', '0'] ++ ['d', 'd', 'd', 'd', 'd', 'd', 'd', 'd'] ++ ['1']) 1).1 0xFFFFFD4B =
        0xA5 % 2 ^ (init_framefmt
          (['1', '0'] ++ ['d', 'd', 'd', 'd', 'd', 'd', 'd', 'd'] ++ ['1']) 1).1.data_size.toNat ∧
      ((init_framefmt
          (['1', '0'] ++ ['d', 'd', 'd', 'd', 'd', 'd', 'd', 'd'] ++ ['1']) 1).1.data_size = 8 →
        demod_data (init_framefmt
          (['1', '0'] ++ ['d', 'd', 'd', 'd', 'd', 'd', 'd', 'd'] ++ ['1']) 1).1 0xFFFFFD4B = 0xA5)) :=
  ⟨⟨by decide, by decide, by decide, by decide, by decide⟩,
    frame_round_trip ['1', '0'] ['d', 'd', 'd', 'd', 'd', 'd', 'd', 'd'] ['1'] 0xA5 0xFFFFFD4B
      (by decide) (by decide) (by decide) (by decide) (by decide) (by decide) (by decide)
      (by decide)⟩

theorem parity_enable_of_count (fmt : List Char) (f : framefmt) (R : Rep 1 f fmt.reverse)
    (hpar : fmt.countP (fun ch => decide (ch = 'p' ∨ ch = 'P')) = 1) :
    f.parity_enable = true := by
  rw [R.pen, List.any_eq_true]
  have hpos : 0 < fmt.countP (fun ch => decide (ch = 'p' ∨ ch = 'P')) := by omega
  obtain ⟨a, ha, hpa⟩ := List.countP_pos_iff.mp hpos
  refine ⟨a, List.mem_reverse.mpr ha, ?_⟩
  simp only [decide_eq_true_eq] at hpa
  rcases hpa with rfl | rfl <;> decide

/-- C2: a flipped parity bit is rejected. For a frame format compiled from a pattern
`pre ++ dat ++ suf` of at most 31 characters with 1 to 8 contiguous data characters and
exactly one parity character, and every byte `c`: if the low `frame_size + 1` bits of the
shift register hold the modulator's frame word for `c` with the parity bit inverted and the
average skew is within `max_skew`, then the frame test succeeds, the bytes written are the
error character alone when it is non-zero and the incremented `errcount` is below 3 and
nothing otherwise (no data byte), and `errcount` is incremented by one, also after the
reseed that closes the handling of the bit. -/
theorem parity_flip_rejected (pre dat suf : List Char) (m : modemcfg) (s : demod_state)
    (c : Nat)
    (hpre : ∀ ch ∈ pre, ch = '0' ∨ ch = '1' ∨ ch = 'p' ∨ ch = 'P')
    (hdat : ∀ ch ∈ dat, ch = 'd' ∨ ch = 'D')
    (hsuf : ∀ ch ∈ suf, ch = '0' ∨ ch = '1' ∨ ch = 'p' ∨ ch = 'P')
    (hn1 : 1 ≤ dat.length) (hn8 : dat.length ≤ 8) (hlen : (pre ++ dat ++ suf).length ≤ 31)
    (hpar : (pre ++ dat ++ suf).countP (fun ch => decide (ch = 'p' ∨ ch = 'P')) = 1)
    (hm : m.ff = (init_framefmt (pre ++ dat ++ suf) 1).1)
    (hc : c < 256)
    (hW : s.out_shift % 2 ^ (m.ff.frame_size + 1).toNat =
      modulate_frame m.ff c ^^^ m.ff.parity_mask)
    (hskew : demod_avg_skew s ≤ m.max_skew) :
    frame_match m.ff s.out_shift = true ∧
    (demod_frame m s).2 = (if m.errchar ≠ 0 ∧ s.errcount + 1 < 3 then [m.errchar] else []) ∧
    (demod_frame m s).1.errcount = s.errcount + 1 ∧
    (demod_reseed m.ff (demod_frame m s).1).errcount = s.errcount + 1 := by
  have h := FrameOK_of_pattern pre dat suf hpre hdat hsuf hn1 hn8 hlen
  have R := Rep_init_framefmt 1 (pre ++ dat ++ suf) (is_spec_of_parts hpre hdat hsuf)
  have hpe := parity_enable_of_count _ _ R hpar
  have hlen1 : 2 ≤ (pre ++ dat ++ suf).length := by
    have hpos : 0 < (pre ++ dat ++ suf).countP (fun ch => decide (ch = 'p' ∨ ch = 'P')) := by
      omega
    have h1 : (pre ++ suf).countP (fun ch => decide (ch = 'p' ∨ ch = 'P')) = 1 := by
      have hd0 : dat.countP (fun ch => decide (ch = 'p' ∨ ch = 'P')) = 0 := by
        rw [List.countP_eq_zero]
        intro a ha
        rcases hdat a ha with rfl | rfl <;> decide
      simp only [List.countP_append] at hpar ⊢
      omega
    have h2 := List.countP_le_length (fun ch => decide (ch = 'p' ∨ ch = 'P')) (l := pre ++ suf)
    simp only [List.length_append] at h2 ⊢
    omega
  clear R hpar
  rw [← hm] at h hpe
  generalize (pre ++ dat ++ suf).length = len at h hlen1
  generalize hf : m.ff = f at *
  have hsz : (f.frame_size + 1).toNat = len := by rw [h.size]; rfl
  have hfs : f.frame_size = (len : Int) - 1 := by have := h.size; omega
  rw [hsz] at hW
  have hraw := demod_raw_data_of_low f len _ _ h c hc f.parity_mask s.out_shift
    (fun _ hj => hj) hW
  have hmatch := frame_match_of_low f len _ _ h c hc f.parity_mask s.out_shift
    (fun _ hj => hj) hW
  have hpb := demod_parity_bit_of_low f len _ _ h c hc true s.out_shift hpe (by simpa using hW)
  obtain ⟨_, _, f3, _⟩ := data_order_facts dat.length hn8 f.lsb_first c hc
  rw [← h.dsize] at f3
  have hok : demod_parity_ok f s.out_shift = false := by
    rw [demod_parity_ok, hraw, f3, hpb, hpe]
    cases parity (truncate_data f.data_size c) <;> cases f.parity_even <;> rfl
  have hns : ¬ (demod_avg_skew s > m.max_skew) := by omega
  refine ⟨hmatch, ?_, ?_, ?_⟩
  · simp only [demod_frame, hf, hns, if_false, hok, ERROR_LIMIT, Bool.false_eq_true]
    by_cases hcond : s.errcount + 1 < 3 ∧ m.errchar ≠ 0
    · rw [if_pos hcond, if_pos ⟨hcond.2, hcond.1⟩]
    · rw [if_neg hcond, if_neg (fun hh => hcond ⟨hh.2, hh.1⟩)]
  · simp only [demod_frame, hf, hns, if_false, hok, ERROR_LIMIT, Bool.false_eq_true]
    split <;> rfl
  · have hto : (10 : Int) * f.frame_size > 0 := by omega
    simp only [demod_frame, hf, hns, if_false, hok, ERROR_LIMIT, Bool.false_eq_true]
    split <;> simp [demod_reseed, hto]

theorem parity_flip_rejected_witness :
    (1 ≤ ['d', 'd', 'd', 'd', 'd', 'd', 'd'].length ∧
      ['d', 'd', 'd', 'd', 'd', 'd', 'd'].length ≤ 8 ∧
      (['1', '0'] ++ ['d', 'd', 'd', 'd', 'd', 'd', 'd'] ++ ['p', '1']).length ≤ 31 ∧
      (['1', '0'] ++ ['d', 'd', 'd', 'd', 'd', 'd', 'd'] ++ ['p', '1']).countP
        (fun ch => decide (ch = 'p' ∨ ch = 'P')) = 1 ∧
      0x41 < 256 ∧
      ({ demod_init backward_cfg_X with out_shift := 0x505, line_idle := false } :
          demod_state).out_shift % 2 ^ (backward_cfg_X.ff.frame_size + 1).toNat =
        modulate_frame backward_cfg_X.ff 0x41 ^^^ backward_cfg_X.ff.parity_mask ∧
      demod_avg_skew { demod_init backward_cfg_X with out_shift := 0x505, line_idle := false } ≤
        backward_cfg_X.max_skew) ∧
    (frame_match backward_cfg_X.ff 0x505 = true ∧
      (demod_frame backward_cfg_X
        { demod_init backward_cfg_X with out_shift := 0x505, line_idle := false }).2 = [88] ∧
      (demod_frame backward_cfg_X
        { demod_init backward_cfg_X with out_shift := 0x505, line_idle := false }).1.errcount = 1 ∧
      (demod_reseed backward_cfg_X.ff (demod_frame backward_cfg_X
        { demod_init backward_cfg_X with out_shift := 0x505, line_idle := false }).1).errcount = 1) :=
  ⟨⟨by decide, by decide, by decide, by decide, by decide, by decide, by decide⟩,
    parity_flip_rejected ['1', '0'] ['d', 'd', 'd', 'd', 'd', 'd', 'd'] ['p', '1'] backward_cfg_X
      { demod_init backward_cfg_X with out_shift := 0x505, line_idle := false } 0x41
      (by decide) (by decide) (by decide) (by decide) (by decide) (by decide) (by decide)
      (by decide) (by decide) (by decide) (by decide)⟩

theorem demod_run_append (m : modemcfg) (pp pn : Nat) (xs ys : List (Int × Int)) :
    ∀ s, demod_run m pp pn s (xs ++ ys) =
      ((demod_run m pp pn (demod_run m pp pn s xs).1 ys).1,
        (demod_run m pp pn s xs).2 ++ (demod_run m pp pn (demod_run m pp pn s xs).1 ys).2) := by
  induction xs with
  | nil => intro s; simp [demod_run]
  | cons x xs ih => intro s; simp [demod_run, ih]

theorem demod_run_countdown (m : modemcfg) (pp pn : Nat) (t o : Int) (n : Nat) :
    ∀ s : demod_state, (n : Int) < s.bit_wait → (if t > 0 then 1 else 0) = s.state →
      demod_run m pp pn s (List.replicate n (t, o)) = ({ s with bit_wait := s.bit_wait - n }, []) := by
  induction n with
  | zero => intro s _ _; simp [demod_run]
  | succ n ih =>
    intro s hw hst
    have h1 : demod_sample m pp pn s t o = ({ s with bit_wait := s.bit_wait - 1 }, []) := by
      have hgt : ¬ (s.bit_wait - 1 ≤ 0) := by push_cast at hw; omega
      simp [demod_sample, hst, hgt]
    have h2 := ih { s with bit_wait := s.bit_wait - 1 } (by push_cast at hw; simp only []; omega) hst
    simp only [List.replicate_succ, demod_run, h1, h2, List.nil_append, Prod.mk.injEq, and_true]
    congr 1
    push_cast; omega

theorem demod_run_bit (m : modemcfg) (t : Int) (b : Nat) (n : Nat) (s : demod_state)
    (hw : s.bit_wait = n + 1) (hst : (if t > 0 then 1 else 0) = s.state) :
    demod_run m 1 0 s (List.replicate (n + 1) (t, if b = 1 then 1000 else -1000)) =
      demod_latch m { s with bit_wait := 0 } (if b = 1 then 1 else 0) := by
  have e : List.replicate (n + 1) (t, (if b = 1 then (1000 : Int) else -1000)) =
      List.replicate n (t, if b = 1 then 1000 else -1000) ++ [(t, if b = 1 then 1000 else -1000)] := by
    rw [List.replicate_succ']
  rw [e, demod_run_append, demod_run_countdown m 1 0 t _ n s (by omega) hst]
  have hz : s.bit_wait - (n : Int) - 1 ≤ 0 := by omega
  have hz' : s.bit_wait - (n : Int) - 1 = 0 := by omega
  by_cases hb : b = 1
  · simp [demod_run, demod_sample, hst, hz, hz', hb]
  · simp [demod_run, demod_sample, hst, hz, hz', hb]

theorem demod_frame_keeps (m : modemcfg) (s : demod_state) :
    (demod_frame m s).1.bit_wait = s.bit_wait ∧ (demod_frame m s).1.state = s.state := by
  unfold demod_frame
  simp only []
  split_ifs <;> exact ⟨rfl, rfl⟩

theorem demod_reseed_keeps (f : framefmt) (s : demod_state) :
    (demod_reseed f s).bit_wait = s.bit_wait ∧ (demod_reseed f s).state = s.state := by
  unfold demod_reseed
  simp only []
  split_ifs <;> exact ⟨rfl, rfl⟩

theorem demod_latch_bit_wait (m : modemcfg) (s : demod_state) (b : Nat) :
    (demod_latch m s b).1.bit_wait = s.bit_wait + m.samples_per_bit ∧
      (demod_latch m s b).1.state = s.state := by
  unfold demod_latch
  simp only []
  rw [(demod_reseed_keeps _ _).1, (demod_reseed_keeps _ _).2]
  split_ifs <;>
    first
      | exact ⟨rfl, rfl⟩
      | exact ⟨by rw [(demod_frame_keeps _ _).1], by rw [(demod_frame_keeps _ _).2]⟩

theorem demod_run_bits (m : modemcfg) (t : Int) (n : Nat) (hm : m.samples_per_bit = n + 1)
    (bits : List Nat) :
    ∀ s : demod_state, s.bit_wait = n + 1 → (if t > 0 then 1 else 0) = s.state →
      demod_run m 1 0 s (bit_samples (n + 1) t bits) =
        demod_bits m s (bits.map (fun b => if b = 1 then 1 else 0)) := by
  induction bits with
  | nil => intro s _ _; rfl
  | cons b bits ih =>
    intro s hw hst
    have hb := demod_run_bit m t b n s hw hst
    have hl := demod_latch_bit_wait m { s with bit_wait := 0 } (if b = 1 then 1 else 0)
    simp only [hm, zero_add] at hl
    have e : bit_samples (n + 1) t (b :: bits) =
        List.replicate (n + 1) (t, if b = 1 then 1000 else -1000) ++ bit_samples (n + 1) t bits := by
      simp [bit_samples]
    rw [e, demod_run_append, hb, ih _ hl.1 (by rw [hl.2]; exact hst)]
    simp only [List.map_cons, demod_bits]

theorem demod_run_bits_edge (m : modemcfg) (t : Int) (n : Nat)
    (hm : m.samples_per_bit = n + 2) (b : Nat) (bits : List Nat) (s : demod_state)
    (hw : s.bit_wait = n + 2) (hst : (if t > 0 then 1 else 0) ≠ s.state)
    (hidle : s.line_idle = true) :
    demod_run m 1 0 s (bit_samples (n + 2) t (b :: bits)) =
      demod_bits m (demod_edge m { s with state := if t > 0 then 1 else 0 })
        ((b :: bits).map (fun b => if b = 1 then 1 else 0)) := by
  have hedge : demod_edge m { s with state := if t > 0 then 1 else 0 } =
      { s with state := if t > 0 then 1 else 0, line_idle := false } := by
    have h2 : Int.tdiv ((n : Int) + 2) 2 < (n : Int) + 2 := by
      rw [Int.tdiv_eq_ediv (by omega) (by omega)]
      omega
    simp [demod_edge, hidle, hm, hw, h2]
  have h1 : demod_sample m 1 0 s t (if b = 1 then 1000 else -1000) =
      ({ s with state := (if t > 0 then 1 else 0), line_idle := false, bit_wait := n + 1 }, []) := by
    have hne : s.state ≠ (if t > 0 then 1 else 0) := fun h => hst h.symm
    have hgt : ¬ ((n : Int) + 2 - 1 ≤ 0) := by omega
    have e1 : (n : Int) + 2 - 1 = n + 1 := by omega
    simp only [demod_sample, ne_eq, hne, not_false_eq_true, if_true, hedge]
    have hgt2 : ¬ ((n : Int) + 1 ≤ 0) := by omega
    simp only [hw, e1, hgt2, if_false]
  have e : bit_samples (n + 2) t (b :: bits) =
      (t, if b = 1 then 1000 else -1000) ::
        (List.replicate (n + 1) (t, if b = 1 then 1000 else -1000) ++
          bit_samples (n + 2) t bits) := by
    simp [bit_samples, List.replicate_succ]
  rw [e, demod_run, h1]
  simp only [List.nil_append]
  rw [demod_run_append,
    demod_run_bit m t b n
      { s with state := (if t > 0 then 1 else 0), line_idle := false, bit_wait := n + 1 } rfl rfl]
  have hl := demod_latch_bit_wait m
    { s with state := (if t > 0 then 1 else 0), line_idle := false, bit_wait := 0 }
    (if b = 1 then 1 else 0)
  simp only [hm, zero_add] at hl
  rw [demod_run_bits m t (n + 1) hm bits _ (by rw [hl.1]; push_cast; ring) (by rw [hl.2])]
  simp only [List.map_cons, demod_bits, hedge]

theorem broken_frame_bits_0x41 :
    broken_frame_bits backward_cfg_X.ff 0x41 = [0, 1, 0, 0, 0, 0, 0, 1, 0, 1] := by decide

set_option maxRecDepth 1000000 in
theorem idle_family_decide :
    ∀ (i : Fin 3) (g : Fin 99),
      demod_bits backward_cfg_X (after_frames (i.val + 1) g.val ((i.val + 1) % 2)) [1] =
        (after_frames (i.val + 1) (g.val + 1) ((i.val + 1) % 2), []) := by
  decide

set_option maxRecDepth 1000000 in
theorem frame_family_decide :
    ∀ (i : Fin 3) (g : Fin 100),
      demod_bits backward_cfg_X
          (demod_edge backward_cfg_X
            { after_frames (i.val + 1) g.val ((i.val + 1) % 2) with
              state := 1 - (i.val + 1) % 2 })
          [0, 1, 0, 0, 0, 0, 0, 1, 0, 1] =
        (after_frames (i.val + 2) 0 (1 - (i.val + 1) % 2),
          if i.val + 2 < 3 then [88] else []) := by
  decide

theorem first_frame_decide :
    demod_bits backward_cfg_X
        (demod_edge backward_cfg_X { demod_init backward_cfg_X with state := 1 })
        [0, 1, 0, 0, 0, 0, 0, 1, 0, 1] = (after_frames 1 0 1, [88]) := by
  decide

theorem idle_bits_run (i : Fin 3) (g : Nat) :
    ∀ g0 : Nat, g0 + g ≤ 99 →
      demod_bits backward_cfg_X (after_frames (i.val + 1) g0 ((i.val + 1) % 2))
          (List.replicate g 1) =
        (after_frames (i.val + 1) (g0 + g) ((i.val + 1) % 2), []) := by
  induction g with
  | zero => intro g0 _; rfl
  | succ g ih =>
    intro g0 hg
    have h1 := idle_family_decide i ⟨g0, by omega⟩
    simp only [demod_bits] at h1
    have h1a := congrArg Prod.fst h1
    have h1b := congrArg Prod.snd h1
    simp only [List.append_nil] at h1a h1b
    simp only [List.replicate_succ, demod_bits, h1a, h1b, ih (g0 + 1) (by omega), List.nil_append]
    rw [show g0 + 1 + g = g0 + (g + 1) by omega]

theorem idle_samples_run (i : Fin 3) (g : Nat) (hg : g ≤ 99) (t : Int)
    (ht : (if t > 0 then 1 else 0) = ((i.val : Int) + 1) % 2) :
    demod_run backward_cfg_X 1 0 (after_frames (i.val + 1) 0 ((i.val + 1) % 2))
        (bit_samples 588 t (List.replicate g 1)) =
      (after_frames (i.val + 1) g ((i.val + 1) % 2), []) := by
  rw [demod_run_bits backward_cfg_X t 587 rfl _ _ rfl ht]
  have := idle_bits_run i g 0 (by omega)
  simpa using this

theorem frame_samples_run (i : Fin 3) (g : Nat) (hg : g ≤ 99) (t : Int)
    (ht : (if t > 0 then 1 else 0) = 1 - ((i.val : Int) + 1) % 2) :
    demod_run backward_cfg_X 1 0 (after_frames (i.val + 1) g ((i.val + 1) % 2))
        (bit_samples 588 t (broken_frame_bits backward_cfg_X.ff 0x41)) =
      (after_frames (i.val + 2) 0 (1 - (i.val + 1) % 2),
        if i.val + 2 < 3 then [88] else []) := by
  have hne : (if t > 0 then 1 else 0) ≠
      (after_frames (i.val + 1) g ((i.val + 1) % 2)).state := by
    rw [ht]; simp only [after_frames]; omega
  rw [broken_frame_bits_0x41,
    demod_run_bits_edge backward_cfg_X t 586 rfl _ _ _ rfl hne rfl, ht]
  exact frame_family_decide i ⟨g, by omega⟩

theorem first_frame_run :
    demod_run backward_cfg_X 1 0 (demod_init backward_cfg_X)
        (bit_samples 588 1 (broken_frame_bits backward_cfg_X.ff 0x41)) =
      (after_frames 1 0 1, [88]) := by
  rw [broken_frame_bits_0x41,
    demod_run_bits_edge backward_cfg_X 1 586 rfl _ _ _ rfl (by decide) rfl]
  exact first_frame_decide

theorem four_broken_frames_run (g1 g2 g3 : Nat) (h1 : g1 < 100) (h2 : g2 < 100)
    (h3 : g3 < 100) :
    demod_segments backward_cfg_X 1 0 (demod_init backward_cfg_X) (four_broken_frames g1 g2 g3) =
      [(after_frames 1 0 1, [88]), (after_frames 1 g1 1, []),
       (after_frames 2 0 0, [88]), (after_frames 2 g2 0, []),
       (after_frames 3 0 1, []), (after_frames 3 g3 1, []),
       (after_frames 4 0 0, [])] := by
  have a1 := first_frame_run
  have b1 : demod_run backward_cfg_X 1 0 (after_frames 1 0 1)
      (bit_samples 588 1 (List.replicate g1 1)) = (after_frames 1 g1 1, []) :=
    idle_samples_run (0 : Fin 3) g1 (by omega) 1 (by decide)
  have a2 : demod_run backward_cfg_X 1 0 (after_frames 1 g1 1)
      (bit_samples 588 (-1) (broken_frame_bits backward_cfg_X.ff 0x41)) =
      (after_frames 2 0 0, [88]) :=
    frame_samples_run (0 : Fin 3) g1 (by omega) (-1) (by decide)
  have b2 : demod_run backward_cfg_X 1 0 (after_frames 2 0 0)
      (bit_samples 588 (-1) (List.replicate g2 1)) = (after_frames 2 g2 0, []) :=
    idle_samples_run (1 : Fin 3) g2 (by omega) (-1) (by decide)
  have a3 : demod_run backward_cfg_X 1 0 (after_frames 2 g2 0)
      (bit_samples 588 1 (broken_frame_bits backward_cfg_X.ff 0x41)) =
      (after_frames 3 0 1, []) :=
    frame_samples_run (1 : Fin 3) g2 (by omega) 1 (by decide)
  have b3 : demod_run backward_cfg_X 1 0 (after_frames 3 0 1)
      (bit_samples 588 1 (List.replicate g3 1)) = (after_frames 3 g3 1, []) :=
    idle_samples_run (2 : Fin 3) g3 (by omega) 1 (by decide)
  have a4 : demod_run backward_cfg_X 1 0 (after_frames 3 g3 1)
      (bit_samples 588 (-1) (broken_frame_bits backward_cfg_X.ff 0x41)) =
      (after_frames 4 0 0, []) :=
    frame_samples_run (2 : Fin 3) g3 (by omega) (-1) (by decide)
  simp only [four_broken_frames, demod_segments, a1, b1, a2, b2, a3, b3, a4]


theorem parity_iff_bitcount_odd_witness :
    0xDEADBEEF < 2 ^ 32 ∧ (parity 0xDEADBEEF = true ↔ bitcount 32 0xDEADBEEF % 2 = 1) :=
  ⟨by decide, parity_iff_bitcount_odd 0xDEADBEEF (by decide)⟩

/-- C3 (as stated, refuted): with four back-to-back parity-broken frames of `0x41` the third
frame does not emit `X`; the per-segment outputs are `X`, `X`, nothing, nothing. -/
theorem error_limit_third_frame_silent :
    (demod_segments backward_cfg_X 1 0 (demod_init backward_cfg_X)
        (four_broken_frames 0 0 0)).map Prod.snd = [[88], [], [88], [], [], [], []] ∧
    (demod_segments backward_cfg_X 1 0 (demod_init backward_cfg_X)
        (four_broken_frames 0 0 0)).map Prod.snd ≠ [[88], [], [88], [], [88], [], []] := by
  have h := four_broken_frames_run 0 0 0 (by omega) (by omega) (by omega)
  rw [h]
  exact ⟨rfl, by decide⟩

/-- C3 (amended): starting from the initial locals (`errcount = 0`) with error character `X`,
four parity-broken frames of `0x41` in the default format, separated by fewer than
`10 * frame_size = 100` idle bits, make the demodulator write `X` for the first and for the
second frame and nothing for the third and the fourth; `errcount` is 1, 2, 3, 4 after the four
frames and is not cleared in the gaps. -/
theorem error_limit_suppression (g1 g2 g3 : Nat) (h1 : g1 < 100) (h2 : g2 < 100)
    (h3 : g3 < 100) :
    (demod_segments backward_cfg_X 1 0 (demod_init backward_cfg_X)
        (four_broken_frames g1 g2 g3)).map Prod.snd = [[88], [], [88], [], [], [], []] ∧
    (demod_segments backward_cfg_X 1 0 (demod_init backward_cfg_X)
        (four_broken_frames g1 g2 g3)).map (fun r => r.1.errcount) = [1, 1, 2, 2, 3, 3, 4] := by
  rw [four_broken_frames_run g1 g2 g3 h1 h2 h3]
  exact ⟨rfl, rfl⟩

theorem error_limit_suppression_witness :
    (2 < 100 ∧ 0 < 100 ∧ 99 < 100) ∧
    ((demod_segments backward_cfg_X 1 0 (demod_init backward_cfg_X)
        (four_broken_frames 2 0 99)).map Prod.snd = [[88], [], [88], [], [], [], []] ∧
    (demod_segments backward_cfg_X 1 0 (demod_init backward_cfg_X)
        (four_broken_frames 2 0 99)).map (fun r => r.1.errcount) = [1, 1, 2, 2, 3, 3, 4]) :=
  ⟨⟨by decide, by decide, by decide⟩,
    error_limit_suppression 2 0 99 (by decide) (by decide) (by decide)⟩

set_option maxRecDepth 1000000 in
theorem rb_fin : ∀ b : Fin 256, ∀ i : Fin 8,
    reverse_byte b.val = ((b.val * 0x0202020202) &&& 0x010884422010) % 1023 ∧
    (reverse_byte b.val).testBit i.val = b.val.testBit (7 - i.val) ∧
    reverse_byte b.val < 256 ∧ reverse_byte (reverse_byte b.val) = b.val := by
  decide

/-- C7: for every 8-bit value `b`, the reversal `((b * 0x0202020202) & 0x010884422010) % 1023`
is the bit mirror of `b` (bit `i` of the result is bit `7 - i` of `b`, the result is below
256), and applying it twice gives `b` back. -/
theorem reverse_byte_mirror (b i : Nat) (hb : b < 256) (hi : i < 8) :
    reverse_byte b = ((b * 0x0202020202) &&& 0x010884422010) % 1023 ∧
    (reverse_byte b).testBit i = b.testBit (7 - i) ∧
    reverse_byte b < 256 ∧ reverse_byte (reverse_byte b) = b :=
  rb_fin ⟨b, hb⟩ ⟨i, hi⟩

theorem reverse_byte_mirror_witness :
    (0x41 < 256 ∧ 1 < 8) ∧
    (reverse_byte 0x41 = ((0x41 * 0x0202020202) &&& 0x010884422010) % 1023 ∧
      (reverse_byte 0x41).testBit 1 = (0x41).testBit (7 - 1) ∧
      reverse_byte 0x41 < 256 ∧ reverse_byte (reverse_byte 0x41) = 0x41) :=
  ⟨⟨by decide, by decide⟩, reverse_byte_mirror 0x41 1 (by decide) (by decide)⟩

/-- C9: `init_framefmt` on the default pattern `10dddddddp1` with overlap 1 succeeds and
yields `frame_size = 10`, `frame_mask = 0x601`, `frame_pattern = 0x401`, `data_mask = 0x1FC`,
`data_offset = 2`, `data_size = 7`, `lsb_first = true`, `parity_mask = 0x002`,
`parity_enable = true`, `parity_even = false`. -/
theorem init_framefmt_default :
    init_framefmt DEF_FRAME_FORMAT 1 =
      ({ frame_size := 10, frame_pattern := 0x401, frame_mask := 0x601, parity_mask := 0x002,
         parity_enable := true, parity_even := false, data_offset := 2, data_mask := 0x1FC,
         data_size := 7, lsb_first := true }, true) := by
  decide

theorem bitcount_zero_arg (w : Nat) : bitcount w 0 = 0 := by
  induction w with
  | zero => rfl
  | succ w ih => simp [bitcount, ih]

theorem bitcount_of_lt (n : Nat) : ∀ (w x : Nat), x < 2 ^ n → n ≤ w →
    bitcount w x = bitcount n x := by
  induction n with
  | zero =>
    intro w x hx _
    have : x = 0 := by simpa using hx
    subst this
    rw [bitcount_zero_arg, bitcount_zero_arg]
  | succ n ih =>
    intro w x hx hw
    obtain ⟨w', rfl⟩ : ∃ w', w = w' + 1 := ⟨w - 1, by omega⟩
    have hx2 : x / 2 < 2 ^ n := by
      rw [Nat.pow_succ] at hx
      omega
    simp only [bitcount, ih w' (x / 2) hx2 (by omega)]

theorem bitcount_shl (k : Nat) : ∀ (w x : Nat), bitcount (k + w) (x <<< k) = bitcount w x := by
  induction k with
  | zero => intro w x; simp
  | succ k ih =>
    intro w x
    have e : x <<< (k + 1) = 2 * (x <<< k) := by
      rw [Nat.shiftLeft_eq, Nat.shiftLeft_eq, Nat.pow_succ]; ring
    have e2 : k + 1 + w = (k + w) + 1 := by omega
    rw [e, e2, bitcount]
    have h1 : 2 * (x <<< k) % 2 = 0 := by omega
    have h2 : 2 * (x <<< k) / 2 = x <<< k := by omega
    rw [h1, h2, ih]; omega

theorem bitcount_two_pow (j : Nat) : ∀ w, j < w → bitcount w (2 ^ j) = 1 := by
  induction j with
  | zero =>
    intro w hw
    obtain ⟨w', rfl⟩ : ∃ w', w = w' + 1 := ⟨w - 1, by omega⟩
    simp [bitcount, bitcount_zero_arg]
  | succ j ih =>
    intro w hw
    obtain ⟨w', rfl⟩ : ∃ w', w = w' + 1 := ⟨w - 1, by omega⟩
    have h1 : 2 ^ (j + 1) % 2 = 0 := by rw [Nat.pow_succ]; omega
    have h2 : 2 ^ (j + 1) / 2 = 2 ^ j := by rw [Nat.pow_succ]; omega
    rw [bitcount, h1, h2, ih w' (by omega)]

theorem bitcount_or_disjoint : ∀ (w a b : Nat), a &&& b = 0 →
    bitcount w (a ||| b) = bitcount w a + bitcount w b := by
  intro w
  induction w with
  | zero => intro a b _; rfl
  | succ w ih =>
    intro a b hab
    have h2 : a / 2 &&& b / 2 = 0 := by
      have := congrArg (fun x => x / 2) hab
      simpa [Nat.and_div_two] using this
    have hd : (a ||| b) / 2 = a / 2 ||| b / 2 := by
      apply Nat.eq_of_testBit_eq
      intro j
      simp [Nat.testBit_or, Nat.testBit_div_two]
    have h0 := congrArg (fun x => x.testBit 0) hab
    simp only [Nat.testBit_and, Nat.testBit_zero, Nat.zero_mod] at h0
    have hm : (a ||| b) % 2 = a % 2 + b % 2 := by
      have ho : (a ||| b).testBit 0 = (a.testBit 0 || b.testBit 0) := Nat.testBit_or a b 0
      simp only [Nat.testBit_zero] at ho
      have ha := Nat.mod_two_eq_zero_or_one a
      have hb := Nat.mod_two_eq_zero_or_one b
      have hc := Nat.mod_two_eq_zero_or_one (a ||| b)
      rcases ha with ha | ha <;> rcases hb with hb | hb <;> rcases hc with hc | hc <;>
        simp [ha, hb, hc] at ho h0 ⊢
    simp only [bitcount]
    rw [hd, ih _ _ h2, hm]
    omega

theorem one_bit_of_countP (p : Char → Bool) (l : List Char) (h : l.countP p = 1) :
    ∃ j0, j0 < l.length ∧
      ∀ j, (match l[j]? with | some c => p c | none => false) = decide (j = j0) := by
  induction l with
  | nil => simp at h
  | cons a l ih =>
    by_cases ha : p a = true
    · have h0 : l.countP p = 0 := by
        rw [List.countP_cons_of_pos _ _ ha] at h; omega
      rw [List.countP_eq_zero] at h0
      refine ⟨0, by simp, ?_⟩
      intro j
      cases j with
      | zero => simp [ha]
      | succ j =>
        simp only [List.getElem?_cons_succ]
        cases hj : l[j]? with
        | none => simp
        | some c =>
          have hc : c ∈ l := List.getElem?_mem hj
          have := h0 c hc
          simp [this]
    · have h1 : l.countP p = 1 := by
        rw [List.countP_cons_of_neg _ _ ha] at h; exact h
      obtain ⟨j0, hj0, hall⟩ := ih h1
      refine ⟨j0 + 1, by simp; omega, ?_⟩
      intro j
      cases j with
      | zero => simp [ha]
      | succ j => simp only [List.getElem?_cons_succ, hall j]; simp

theorem parity_mask_two_pow (fmt : List Char) (f : framefmt) (hlen : fmt.length ≤ 31)
    (R : Rep 1 f fmt.reverse)
    (hpar : fmt.countP (fun ch => decide (ch = 'p' ∨ ch = 'P')) = 1) :
    ∃ j0, j0 < fmt.length ∧ f.parity_mask = 2 ^ j0 := by
  have hfun : (fun ch => decide (ch = 'p' ∨ ch = 'P')) = is_parity := by
    funext ch
    by_cases h1 : ch = 'p' <;> by_cases h2 : ch = 'P' <;> simp [is_parity, h1, h2]
  rw [hfun, ← List.countP_reverse] at hpar
  obtain ⟨j0, hj0, hall⟩ := one_bit_of_countP is_parity fmt.reverse hpar
  rw [List.length_reverse] at hj0
  refine ⟨j0, hj0, ?_⟩
  apply Nat.eq_of_testBit_eq
  intro j
  rw [R.par, bit_at, hall j, Nat.testBit_two_pow]
  by_cases hj : j = j0
  · subst hj
    have : j < 32 := by omega
    simp [this]
  · have : ¬ j0 = j := fun h => hj h.symm
    simp [hj, this]

theorem modulate_frame_and_data (f : framefmt) (len n off : Nat) (h : FrameOK f len n off)
    (c : Nat) (hc : c < 256) :
    modulate_frame f c &&& f.data_mask =
      order_data f.data_size f.lsb_first (truncate_data f.data_size c) <<< off := by
  have hlt := (data_order_facts n h.n_le f.lsb_first c hc).2.1
  rw [← h.dsize] at hlt
  apply Nat.eq_of_testBit_eq
  intro j
  rw [Nat.testBit_and, modulate_frame_testBit f len n off h c hc, h.data, Nat.testBit_shiftLeft]
  by_cases hj : off ≤ j ∧ j < off + n
  · have hdj : f.data_mask.testBit j = true := by rw [h.data]; simpa using hj
    have hpm : f.parity_mask.testBit j = false := by
      cases hv : f.parity_mask.testBit j with
      | false => rfl
      | true => rw [h.par_data _ hv] at hdj; exact absurd hdj (by decide)
    have hfm : f.frame_mask.testBit j = false := by
      cases hv : f.frame_mask.testBit j with
      | false => rfl
      | true => rw [h.mask_data _ hv] at hdj; exact absurd hdj (by decide)
    have hfp : f.frame_pattern.testBit j = false := by
      cases hv : f.frame_pattern.testBit j with
      | false => rfl
      | true => rw [h.pat_sub _ hv] at hfm; exact absurd hfm (by decide)
    have hge : j ≥ off := hj.1
    simp [hfp, hpm, hj, hge]
  · have hd : decide (off ≤ j ∧ j < off + n) = false := by simpa using hj
    rw [hd]
    by_cases hge : off ≤ j
    · have hr : (order_data f.data_size f.lsb_first (truncate_data f.data_size c)).testBit
          (j - off) = false := by
        apply Nat.testBit_lt_two_pow
        calc _ < 2 ^ n := hlt
          _ ≤ 2 ^ (j - off) := Nat.pow_le_pow_right (by omega) (by omega)
      simp [hr]
    · simp [hge]

theorem modulate_frame_and_parity (f : framefmt) (len n off : Nat) (h : FrameOK f len n off)
    (c : Nat) (hc : c < 256) :
    modulate_frame f c &&& f.parity_mask =
      if (f.parity_enable && (parity (truncate_data f.data_size c) == f.parity_even)) = true
      then f.parity_mask else 0 := by
  apply Nat.eq_of_testBit_eq
  intro j
  rw [Nat.testBit_and, modulate_frame_testBit f len n off h c hc]
  by_cases hp : f.parity_mask.testBit j = true
  · have hdj := h.par_data j hp
    have hd := h.data j
    rw [hdj] at hd
    have hfm : f.frame_mask.testBit j = false := by
      cases hv : f.frame_mask.testBit j with
      | false => rfl
      | true => rw [h.mask_par _ hv] at hp; exact absurd hp (by decide)
    have hfp : f.frame_pattern.testBit j = false := by
      cases hv : f.frame_pattern.testBit j with
      | false => rfl
      | true => rw [h.pat_sub _ hv] at hfm; exact absurd hfm (by decide)
    rw [← hd, hfp, hp]
    split <;> rename_i hP
    · simp [hP, hp]
    · simp only [Bool.not_eq_true] at hP
      simp [hP]
  · simp only [Bool.not_eq_true] at hp
    rw [hp, Bool.and_false]
    split
    · rw [hp]
    · simp

theorem modulate_frame_ones (f : framefmt) (len n off j0 : Nat) (h : FrameOK f len n off)
    (hpe : f.parity_enable = true) (hj0 : j0 < 32) (hpm : f.parity_mask = 2 ^ j0)
    (c : Nat) (hc : c < 256) :
    (bitcount 32 (modulate_frame f c &&& f.data_mask) +
      bitcount 32 (modulate_frame f c &&& f.parity_mask)) % 2 =
      if f.parity_even = true then 0 else 1 := by
  obtain ⟨_, f2, f3, _⟩ := data_order_facts n h.n_le f.lsb_first c hc
  rw [← h.dsize] at f2 f3
  have hfit := h.fit
  have hlen := h.len_le
  rw [modulate_frame_and_data f len _ _ h c hc, modulate_frame_and_parity f len _ _ h c hc, hpe]
  generalize order_data f.data_size f.lsb_first (truncate_data f.data_size c) = r at f2 f3
  have e32 : 32 = off + (32 - off) := by omega
  have hb1 : bitcount 32 (r <<< off) = bitcount 32 r := by
    conv_lhs => rw [e32]
    rw [bitcount_shl, bitcount_of_lt n _ r f2 (by omega), bitcount_of_lt n 32 r f2 (by omega)]
  have hr32 : r < 2 ^ 32 :=
    lt_of_lt_of_le f2 (Nat.pow_le_pow_right (by omega) (by omega))
  have hpar := parity_eq_odd r hr32
  rw [f3] at hpar
  rw [hb1]
  have hone : bitcount 32 f.parity_mask = 1 := by rw [hpm]; exact bitcount_two_pow j0 32 hj0
  cases hd : parity (truncate_data f.data_size c) <;> cases hev : f.parity_even <;>
    simp only [hd, hev, Bool.false_eq, Bool.true_eq, decide_eq_true_eq, decide_eq_false_iff_not]
      at hpar <;>
    simp [hone, bitcount_zero_arg] <;> omega

theorem modulate_frame_parity_total (f : framefmt) (len n off j0 : Nat) (h : FrameOK f len n off)
    (hpe : f.parity_enable = true) (hj0 : j0 < 32) (hpm : f.parity_mask = 2 ^ j0)
    (c : Nat) (hc : c < 256) :
    parity (modulate_frame f c &&& (f.data_mask ||| f.parity_mask)) = !f.parity_even ∧
    bitcount 32 (modulate_frame f c &&& (f.data_mask ||| f.parity_mask)) % 2 =
      if f.parity_even = true then 0 else 1 := by
  have hsum := modulate_frame_ones f len n off j0 h hpe hj0 hpm c hc
  have hdis : (modulate_frame f c &&& f.data_mask) &&& (modulate_frame f c &&& f.parity_mask) =
      0 := by
    apply Nat.eq_of_testBit_eq
    intro j
    simp only [Nat.testBit_and, Nat.zero_testBit]
    cases hp : f.parity_mask.testBit j with
    | false => simp
    | true => rw [h.par_data j hp]; simp
  have hlt : modulate_frame f c &&& (f.data_mask ||| f.parity_mask) < 2 ^ 32 := by
    apply Nat.lt_pow_two_of_testBit
    intro j hj
    have hfit := h.fit
    have hlen := h.len_le
    have hd : f.data_mask.testBit j = false := by
      rw [h.data]
      simp only [decide_eq_false_iff_not]
      omega
    have hp : f.parity_mask.testBit j = false := h.par_lt j (by omega)
    simp [Nat.testBit_and, Nat.testBit_or, hd, hp]
  rw [parity_eq_odd _ hlt, Nat.and_or_distrib_left, bitcount_or_disjoint 32 _ _ hdis]
  cases hev : f.parity_even <;> simp only [hev] at hsum <;> simp at hsum ⊢ <;> omega

/-- C4 (as stated, refuted): the pattern `10d0dp1` has parity enabled, one parity bit and odd
parity, yet for the byte `1` the data bits and the parity bit of the frame word hold an even
number of ones (none at all): the second data bit is cut off by `data_mask`. -/
theorem parity_count_noncontiguous :
    (init_framefmt ['1', '0', 'd', '0', 'd', 'p', '1'] 1).2 = true ∧
    (init_framefmt ['1', '0', 'd', '0', 'd', 'p', '1'] 1).1.parity_enable = true ∧
    (init_framefmt ['1', '0', 'd', '0', 'd', 'p', '1'] 1).1.parity_mask = 2 ∧
    (init_framefmt ['1', '0', 'd', '0', 'd', 'p', '1'] 1).1.parity_even = false ∧
    (bitcount 32 (modulate_frame (init_framefmt ['1', '0', 'd', '0', 'd', 'p', '1'] 1).1 1 &&&
        (init_framefmt ['1', '0', 'd', '0', 'd', 'p', '1'] 1).1.data_mask) +
      bitcount 32 (modulate_frame (init_framefmt ['1', '0', 'd', '0', 'd', 'p', '1'] 1).1 1 &&&
        (init_framefmt ['1', '0', 'd', '0', 'd', 'p', '1'] 1).1.parity_mask)) % 2 = 0 := by
  decide

/-- C4 (amended): for a frame format compiled from a pattern `pre ++ dat ++ suf` of at most
31 characters with 1 to 8 contiguous data characters and exactly one parity character, and
every input byte, the number of ones among the data bits and the parity bit of the frame
word built by `v23_modulate` is even when `parity_even` is true and odd when it is false. -/
theorem modulate_frame_parity_count (pre dat suf : List Char) (c : Nat)
    (hpre : ∀ ch ∈ pre, ch = '0' ∨ ch = '1' ∨ ch = 'p' ∨ ch = 'P')
    (hdat : ∀ ch ∈ dat, ch = 'd' ∨ ch = 'D')
    (hsuf : ∀ ch ∈ suf, ch = '0' ∨ ch = '1' ∨ ch = 'p' ∨ ch = 'P')
    (hn1 : 1 ≤ dat.length) (hn8 : dat.length ≤ 8) (hlen : (pre ++ dat ++ suf).length ≤ 31)
    (hpar : (pre ++ dat ++ suf).countP (fun ch => decide (ch = 'p' ∨ ch = 'P')) = 1)
    (hc : c < 256) :
    (bitcount 32 (modulate_frame (init_framefmt (pre ++ dat ++ suf) 1).1 c &&&
        (init_framefmt (pre ++ dat ++ suf) 1).1.data_mask) +
      bitcount 32 (modulate_frame (init_framefmt (pre ++ dat ++ suf) 1).1 c &&&
        (init_framefmt (pre ++ dat ++ suf) 1).1.parity_mask)) % 2 =
      if (init_framefmt (pre ++ dat ++ suf) 1).1.parity_even = true then 0 else 1 := by
  have h := FrameOK_of_pattern pre dat suf hpre hdat hsuf hn1 hn8 hlen
  have R := Rep_init_framefmt 1 (pre ++ dat ++ suf) (is_spec_of_parts hpre hdat hsuf)
  have hpe := parity_enable_of_count _ _ R hpar
  obtain ⟨j0, hj0, hpm⟩ := parity_mask_two_pow _ _ hlen R hpar
  exact modulate_frame_ones _ _ _ _ j0 h hpe (by omega) hpm c hc

theorem modulate_frame_parity_count_witness :
    (1 ≤ ['d', 'd', 'd', 'd', 'd', 'd', 'd'].length ∧
      ['d', 'd', 'd', 'd', 'd', 'd', 'd'].length ≤ 8 ∧
      (['1', '0'] ++ ['d', 'd', 'd', 'd', 'd', 'd', 'd'] ++ ['p', '1']).length ≤ 31 ∧
      (['1', '0'] ++ ['d', 'd', 'd', 'd', 'd', 'd', 'd'] ++ ['p', '1']).countP
        (fun ch => decide (ch = 'p' ∨ ch = 'P')) = 1 ∧
      0x41 < 256) ∧
    (bitcount 32 (modulate_frame (init_framefmt
          (['1', '0'] ++ ['d', 'd', 'd', 'd', 'd', 'd', 'd'] ++ ['p', '1']) 1).1 0x41 &&&
        (init_framefmt
          (['1', '0'] ++ ['d', 'd', 'd', 'd', 'd', 'd', 'd'] ++ ['p', '1']) 1).1.data_mask) +
      bitcount 32 (modulate_frame (init_framefmt
          (['1', '0'] ++ ['d', 'd', 'd', 'd', 'd', 'd', 'd'] ++ ['p', '1']) 1).1 0x41 &&&
        (init_framefmt
          (['1', '0'] ++ ['d', 'd', 'd', 'd', 'd', 'd', 'd'] ++ ['p', '1']) 1).1.parity_mask)) % 2 =
      if (init_framefmt
          (['1', '0'] ++ ['d', 'd', 'd', 'd', 'd', 'd', 'd'] ++ ['p', '1']) 1).1.parity_even = true
      then 0 else 1 :=
  ⟨⟨by decide, by decide, by decide, by decide, by decide⟩,
    modulate_frame_parity_count ['1', '0'] ['d', 'd', 'd', 'd', 'd', 'd', 'd'] ['p', '1'] 0x41
      (by decide) (by decide) (by decide) (by decide) (by decide) (by decide) (by decide)
      (by decide)⟩

theorem modulate_frame_and_parity_of_Rep (f : framefmt) (acc : List Char) (R : Rep 1 f acc)
    (c : Nat) :
    modulate_frame f c &&& f.parity_mask =
      if (f.parity_enable && (parity (truncate_data f.data_size c) == f.parity_even)) = true
      then f.parity_mask else 0 := by
  apply Nat.eq_of_testBit_eq
  intro j
  simp only [modulate_frame]
  by_cases hp : f.parity_mask.testBit j = true
  · have hp' := hp
    rw [R.par] at hp'
    have hfp : f.frame_pattern.testBit j = false := by
      rw [R.pattern, bit_at_imp is_parity is_one _ j false
        (by intro c; simp only [is_parity, is_one, Bool.or_eq_true, beq_iff_eq]
            rintro (rfl | rfl) <;> decide) hp']
      rfl
    have hdm : f.data_mask.testBit j = false := by
      rw [R.data, bit_at_imp is_parity is_data _ j false
        (by intro c; simp only [is_parity, is_data, Bool.or_eq_true, beq_iff_eq]
            rintro (rfl | rfl) <;> decide) hp']
      rfl
    split <;> rename_i hP
    · simp [Nat.testBit_and, Nat.testBit_or, hp, hfp, hdm]
    · simp [Nat.testBit_and, Nat.testBit_or, hp, hfp, hdm]
  · simp only [Bool.not_eq_true] at hp
    rw [Nat.testBit_and, hp, Bool.and_false]
    split
    · rw [hp]
    · simp

/-- C5 (as stated, refuted): in the default format the byte `0` has even bit-parity, which
does not differ from `parity_even = false`, and yet the parity bit of its frame is set; the
data bits followed by the parity bit then have odd bit-parity, which is not `parity_even`.
The rule of the code, with the sense turned round, does not by itself give the second half
either: for the accepted pattern `10d0dp1` and the byte `1` (a data bit is cut off by
`data_mask`), and for the accepted pattern `10dddddddpp1` and the byte `0` (both parity bits
are set), the data bits followed by the parity bits have even bit-parity under odd parity. -/
theorem parity_bit_sense_counterexample :
    (¬ ((modulate_frame (init_framefmt DEF_FRAME_FORMAT 1).1 0 &&&
            (init_framefmt DEF_FRAME_FORMAT 1).1.parity_mask ≠ 0) ↔
          (parity (truncate_data (init_framefmt DEF_FRAME_FORMAT 1).1.data_size 0) ≠
            (init_framefmt DEF_FRAME_FORMAT 1).1.parity_even)) ∧
      parity (modulate_frame (init_framefmt DEF_FRAME_FORMAT 1).1 0 &&&
          ((init_framefmt DEF_FRAME_FORMAT 1).1.data_mask |||
            (init_framefmt DEF_FRAME_FORMAT 1).1.parity_mask)) ≠
        (init_framefmt DEF_FRAME_FORMAT 1).1.parity_even) ∧
    ((init_framefmt ['1', '0', 'd', '0', 'd', 'p', '1'] 1).2 = true ∧
      (init_framefmt ['1', '0', 'd', '0', 'd', 'p', '1'] 1).1.parity_enable = true ∧
      (init_framefmt ['1', '0', 'd', '0', 'd', 'p', '1'] 1).1.parity_even = false ∧
      parity (modulate_frame (init_framefmt ['1', '0', 'd', '0', 'd', 'p', '1'] 1).1 1 &&&
          ((init_framefmt ['1', '0', 'd', '0', 'd', 'p', '1'] 1).1.data_mask |||
            (init_framefmt ['1', '0', 'd', '0', 'd', 'p', '1'] 1).1.parity_mask)) = false ∧
      bitcount 32 (modulate_frame (init_framefmt ['1', '0', 'd', '0', 'd', 'p', '1'] 1).1 1 &&&
          ((init_framefmt ['1', '0', 'd', '0', 'd', 'p', '1'] 1).1.data_mask |||
            (init_framefmt ['1', '0', 'd', '0', 'd', 'p', '1'] 1).1.parity_mask)) = 0) ∧
    ((init_framefmt ['1', '0', 'd', 'd', 'd', 'd', 'd', 'd', 'd', 'p', 'p', '1'] 1).2 = true ∧
      (init_framefmt
        ['1', '0', 'd', 'd', 'd', 'd', 'd', 'd', 'd', 'p', 'p', '1'] 1).1.parity_enable = true ∧
      (init_framefmt
        ['1', '0', 'd', 'd', 'd', 'd', 'd', 'd', 'd', 'p', 'p', '1'] 1).1.parity_even = false ∧
      parity (modulate_frame (init_framefmt
            ['1', '0', 'd', 'd', 'd', 'd', 'd', 'd', 'd', 'p', 'p', '1'] 1).1 0 &&&
          ((init_framefmt
              ['1', '0', 'd', 'd', 'd', 'd', 'd', 'd', 'd', 'p', 'p', '1'] 1).1.data_mask |||
            (init_framefmt
              ['1', '0', 'd', 'd', 'd', 'd', 'd', 'd', 'd', 'p', 'p', '1'] 1).1.parity_mask)) =
        false ∧
      bitcount 32 (modulate_frame (init_framefmt
            ['1', '0', 'd', 'd', 'd', 'd', 'd', 'd', 'd', 'p', 'p', '1'] 1).1 0 &&&
          ((init_framefmt
              ['1', '0', 'd', 'd', 'd', 'd', 'd', 'd', 'd', 'p', 'p', '1'] 1).1.data_mask |||
            (init_framefmt
              ['1', '0', 'd', 'd', 'd', 'd', 'd', 'd', 'd', 'p', 'p', '1'] 1).1.parity_mask)) =
        2) := by
  decide

/-- C5 (amended): in every frame built by `v23_modulate` for a format compiled from a pattern
of at most 31 characters with parity enabled, the transmitted parity bit is set iff the
bit-parity of the truncated data byte, as computed by `parity` (true for an odd number of
ones), equals `parity_even`; and when the pattern has exactly one parity character and its
data characters are contiguous and number between 1 and 8, then for every input byte the
bit-parity of the data bits of the frame followed by its parity bit is the negation of
`parity_even`: the number of ones among them is even when `parity_even` is true and odd
when it is false. -/
theorem modulate_frame_parity_bit (fmt : List Char) (c : Nat)
    (hspec : ∀ ch ∈ fmt, ch = '0' ∨ ch = '1' ∨ ch = 'd' ∨ ch = 'D' ∨ ch = 'p' ∨ ch = 'P')
    (hlen : fmt.length ≤ 31)
    (hpe : (init_framefmt fmt 1).1.parity_enable = true) :
    ((modulate_frame (init_framefmt fmt 1).1 c &&& (init_framefmt fmt 1).1.parity_mask ≠ 0) ↔
      parity (truncate_data (init_framefmt fmt 1).1.data_size c) =
        (init_framefmt fmt 1).1.parity_even) ∧
    (∀ pre dat suf : List Char, fmt = pre ++ dat ++ suf →
      (∀ ch ∈ pre, ch = '0' ∨ ch = '1' ∨ ch = 'p' ∨ ch = 'P') →
      (∀ ch ∈ dat, ch = 'd' ∨ ch = 'D') →
      (∀ ch ∈ suf, ch = '0' ∨ ch = '1' ∨ ch = 'p' ∨ ch = 'P') →
      1 ≤ dat.length → dat.length ≤ 8 →
      fmt.countP (fun ch => decide (ch = 'p' ∨ ch = 'P')) = 1 →
      c < 256 →
      parity (modulate_frame (init_framefmt fmt 1).1 c &&&
          ((init_framefmt fmt 1).1.data_mask ||| (init_framefmt fmt 1).1.parity_mask)) =
        (!(init_framefmt fmt 1).1.parity_even) ∧
      bitcount 32 (modulate_frame (init_framefmt fmt 1).1 c &&&
          ((init_framefmt fmt 1).1.data_mask ||| (init_framefmt fmt 1).1.parity_mask)) % 2 =
        if (init_framefmt fmt 1).1.parity_even = true then 0 else 1) := by
  have hs : ∀ ch ∈ fmt, is_spec ch = true := by
    intro ch hch
    rcases hspec ch hch with rfl | rfl | rfl | rfl | rfl | rfl <;> decide
  have R := Rep_init_framefmt 1 fmt hs
  refine ⟨?_, ?_⟩
  · generalize (init_framefmt fmt 1).1 = f at R hpe
    have hne : f.parity_mask ≠ 0 := by
      have hany := R.pen
      rw [hpe] at hany
      obtain ⟨j, hj⟩ := any_bit_at is_parity fmt.reverse (by simp; omega) hany.symm
      intro h0
      have := R.par j
      rw [h0, hj] at this
      simp at this
    rw [modulate_frame_and_parity_of_Rep f _ R c, hpe]
    cases hd : parity (truncate_data f.data_size c) <;> cases hev : f.parity_even <;>
      simp [hne]
  · intro pre dat suf hfmt hpre hdat hsuf hn1 hn8 hpar hc
    subst hfmt
    have h := FrameOK_of_pattern pre dat suf hpre hdat hsuf hn1 hn8 hlen
    obtain ⟨j0, hj0, hpm⟩ := parity_mask_two_pow _ _ hlen R hpar
    exact modulate_frame_parity_total _ _ _ _ j0 h hpe (by omega) hpm c hc

theorem modulate_frame_parity_bit_witness :
    ((∀ ch ∈ DEF_FRAME_FORMAT,
        ch = '0' ∨ ch = '1' ∨ ch = 'd' ∨ ch = 'D' ∨ ch = 'p' ∨ ch = 'P') ∧
      DEF_FRAME_FORMAT.length ≤ 31 ∧
      (init_framefmt DEF_FRAME_FORMAT 1).1.parity_enable = true) ∧
    ((modulate_frame (init_framefmt DEF_FRAME_FORMAT 1).1 0x41 &&&
          (init_framefmt DEF_FRAME_FORMAT 1).1.parity_mask ≠ 0) ↔
        parity (truncate_data (init_framefmt DEF_FRAME_FORMAT 1).1.data_size 0x41) =
          (init_framefmt DEF_FRAME_FORMAT 1).1.parity_even) ∧
    (DEF_FRAME_FORMAT = ['1', '0'] ++ ['d', 'd', 'd', 'd', 'd', 'd', 'd'] ++ ['p', '1'] ∧
      DEF_FRAME_FORMAT.countP (fun ch => decide (ch = 'p' ∨ ch = 'P')) = 1 ∧
      0x41 < 256) ∧
    parity (modulate_frame (init_framefmt DEF_FRAME_FORMAT 1).1 0x41 &&&
        ((init_framefmt DEF_FRAME_FORMAT 1).1.data_mask |||
          (init_framefmt DEF_FRAME_FORMAT 1).1.parity_mask)) =
      (!(init_framefmt DEF_FRAME_FORMAT 1).1.parity_even) ∧
    bitcount 32 (modulate_frame (init_framefmt DEF_FRAME_FORMAT 1).1 0x41 &&&
        ((init_framefmt DEF_FRAME_FORMAT 1).1.data_mask |||
          (init_framefmt DEF_FRAME_FORMAT 1).1.parity_mask)) % 2 =
      if (init_framefmt DEF_FRAME_FORMAT 1).1.parity_even = true then 0 else 1 :=
  ⟨⟨by decide, by decide, by decide⟩,
    (modulate_frame_parity_bit DEF_FRAME_FORMAT 0x41 (by decide) (by decide) (by decide)).1,
    ⟨by decide, by decide, by decide⟩,
    (modulate_frame_parity_bit DEF_FRAME_FORMAT 0x41 (by decide) (by decide) (by decide)).2
      ['1', '0'] ['d', 'd', 'd', 'd', 'd', 'd', 'd'] ['p', '1'] (by decide) (by decide)
      (by decide) (by decide) (by decide) (by decide) (by decide) (by decide)⟩

/-! ## Accepted frame formats -/

/-- C11 (as stated, refuted): `init_framefmt` accepts the pattern `10ddddddddd1` with nine
data characters and returns `data_size = 9`, and it accepts a pattern of 33 ones and returns
`frame_size = 32`. -/
theorem init_framefmt_accepts_oversize :
    ((init_framefmt ['1', '0', 'd', 'd', 'd', 'd', 'd', 'd', 'd', 'd', 'd', '1'] 1).2 = true ∧
      ¬ (init_framefmt ['1', '0', 'd', 'd', 'd', 'd', 'd', 'd', 'd', 'd', 'd', '1'] 1).1.data_size
          ≤ 8) ∧
    ((init_framefmt (List.replicate 33 '1') 1).2 = true ∧
      ¬ (init_framefmt (List.replicate 33 '1') 1).1.frame_size ≤ 31) := by
  decide

/-- C11 (amended): a frame format that `init_framefmt` accepts with overlap 1 has
`frame_size` one less than the length of the pattern and `data_size` equal to the number of
`d`/`D` characters; hence it satisfies `frame_size ≤ 31` and `data_size ≤ 8` exactly when the
pattern has at most 32 characters, at most 8 of them data characters. -/
theorem init_framefmt_sizes (fmt : List Char) (hok : (init_framefmt fmt 1).2 = true) :
    (init_framefmt fmt 1).1.frame_size = (fmt.length : Int) - 1 ∧
    (init_framefmt fmt 1).1.data_size =
      (fmt.countP (fun ch => decide (ch = 'd' ∨ ch = 'D')) : Nat) ∧
    (((init_framefmt fmt 1).1.frame_size ≤ 31 ∧ (init_framefmt fmt 1).1.data_size ≤ 8) ↔
      (fmt.length ≤ 32 ∧ fmt.countP (fun ch => decide (ch = 'd' ∨ ch = 'D')) ≤ 8)) := by
  have hs : ∀ c ∈ fmt, is_spec c = true := by
    have := hok
    rw [init_framefmt, init_framefmt_loop_snd, List.all_eq_true] at this
    exact this
  have R := Rep_init_framefmt 1 fmt hs
  have hfun : (fun ch => decide (ch = 'd' ∨ ch = 'D')) = is_data := by
    funext ch
    by_cases h1 : ch = 'd' <;> by_cases h2 : ch = 'D' <;> simp [is_data, h1, h2]
  have h1 : (init_framefmt fmt 1).1.frame_size = (fmt.length : Int) - 1 := by
    rw [R.size, List.length_reverse]
  have h2 : (init_framefmt fmt 1).1.data_size =
      (fmt.countP (fun ch => decide (ch = 'd' ∨ ch = 'D')) : Nat) := by
    rw [R.dsize, List.countP_reverse, hfun]
  refine ⟨h1, h2, ?_⟩
  rw [h1, h2]
  omega

theorem init_framefmt_sizes_witness :
    (init_framefmt DEF_FRAME_FORMAT 1).2 = true ∧
    ((init_framefmt DEF_FRAME_FORMAT 1).1.frame_size = (DEF_FRAME_FORMAT.length : Int) - 1 ∧
    (init_framefmt DEF_FRAME_FORMAT 1).1.data_size =
      (DEF_FRAME_FORMAT.countP (fun ch => decide (ch = 'd' ∨ ch = 'D')) : Nat) ∧
    (((init_framefmt DEF_FRAME_FORMAT 1).1.frame_size ≤ 31 ∧
        (init_framefmt DEF_FRAME_FORMAT 1).1.data_size ≤ 8) ↔
      (DEF_FRAME_FORMAT.length ≤ 32 ∧
        DEF_FRAME_FORMAT.countP (fun ch => decide (ch = 'd' ∨ ch = 'D')) ≤ 8))) :=
  ⟨by decide, init_framefmt_sizes DEF_FRAME_FORMAT (by decide)⟩

/-! ## Moving-average filter -/

theorem int32_wrap_id (x : Int) (h1 : -2 ^ 31 ≤ x) (h2 : x < 2 ^ 31) : int32_wrap x = x := by
  unfold int32_wrap
  omega

theorem int16_wrap_id (x : Int) (h1 : -2 ^ 15 ≤ x) (h2 : x < 2 ^ 15) : int16_wrap x = x := by
  unfold int16_wrap
  omega

theorem list_sum_set (l : List Int) : ∀ (i : Nat) (x : Int), i < l.length →
    (l.set i x).sum = l.sum - l.getD i 0 + x := by
  induction l with
  | nil => intro i x h; simp at h
  | cons a l ih =>
    intro i x h
    cases i with
    | zero => simp; ring
    | succ i =>
      have := ih i x (by simpa using h)
      simp only [List.set_cons_succ, List.sum_cons, this, List.getD_cons_succ]
      ring

theorem list_sum_bounds (lo hi : Int) (l : List Int) (h : ∀ e ∈ l, lo ≤ e ∧ e ≤ hi) :
    lo * l.length ≤ l.sum ∧ l.sum ≤ hi * l.length := by
  induction l with
  | nil => simp
  | cons a l ih =>
    have ha := h a (List.mem_cons_self _ _)
    have := ih (fun e he => h e (List.mem_cons_of_mem _ he))
    simp only [List.sum_cons, List.length_cons, Nat.cast_add, Nat.cast_one]
    constructor <;> nlinarith [this.1, this.2, ha.1, ha.2]

theorem slot_eq (N p k : Nat) (hp : p < N) (hk : k < N) :
    (p + N - 1 - k) % N = if k < p then p - 1 - k else p + N - 1 - k := by
  split
  · rename_i h
    have e : p + N - 1 - k = (p - 1 - k) + N := by omega
    rw [e, Nat.add_mod_right, Nat.mod_eq_of_lt (by omega)]
  · rename_i h
    rw [Nat.mod_eq_of_lt (by omega)]

theorem recent_snoc_zero (xs : List Int) (x : Int) : recent (xs ++ [x]) 0 = x := by
  simp [recent]

theorem recent_snoc_succ (xs : List Int) (x : Int) (k : Nat) :
    recent (xs ++ [x]) (k + 1) = recent xs k := by
  simp [recent]

theorem maf_init_inv (N : Nat) (hN : 1 ≤ N) : MafInv N (maf_init N) [] := by
  refine ⟨rfl, by simp [maf_init], by simp [maf_init]; omega, by simp [maf_init], ?_, ?_, ?_⟩
  · simp [maf_init, recent]
  · intro k hk
    simp [maf_init, recent]
  · intro e he
    simp [maf_init] at he
    omega

theorem maf_step_inv (N : Nat) (hN1 : 1 ≤ N) (hN : N ≤ 65535) (m : maf) (xs : List Int)
    (x : Int) (nd : Bool) (hx : -32768 ≤ x ∧ x ≤ 32767) (h : MafInv N m xs) :
    MafInv N (maf_step m x nd).1 (xs ++ [x]) := by
  have hp := h.p
  have hlen := h.len
  have hpl : m.p < m.buf.length := by omega
  have hget : (m.buf.set m.p x).getD m.p 0 = x := by
    simp [List.getD_eq_getElem?_getD, hpl]
  have hbp : -32768 ≤ m.buf.getD m.p 0 ∧ m.buf.getD m.p 0 ≤ 32767 := by
    have : m.buf.getD m.p 0 = m.buf[m.p] := by simp [List.getD_eq_getElem?_getD, hpl]
    rw [this]
    exact h.bnd _ (List.getElem_mem hpl)
  have hsb := list_sum_bounds (-32768) 32767 m.buf h.bnd
  rw [hlen, ← h.sum] at hsb
  have hN' : (N : Int) ≤ 65535 := by exact_mod_cast hN
  have hN0 : (0 : Int) ≤ N := by exact_mod_cast Nat.zero_le N
  have hbnd' : ∀ e ∈ m.buf.set m.p x, -32768 ≤ e ∧ e ≤ 32767 := by
    intro e he
    rcases List.mem_or_eq_of_mem_set he with h1 | h1
    · exact h.bnd e h1
    · rw [h1]; exact hx
  have hsb' := list_sum_bounds (-32768) 32767 (m.buf.set m.p x) hbnd'
  rw [List.length_set, hlen, list_sum_set m.buf m.p x hpl, ← h.sum] at hsb'
  have hw1 : int32_wrap (m.sum - m.buf.getD m.p 0) = m.sum - m.buf.getD m.p 0 :=
    int32_wrap_id _ (by omega) (by omega)
  have hw2 : int32_wrap (m.sum - m.buf.getD m.p 0 + x) = m.sum - m.buf.getD m.p 0 + x :=
    int32_wrap_id _ (by omega) (by omega)
  have hsum : (maf_step m x nd).1.sum = m.sum - m.buf.getD m.p 0 + x := by
    simp only [maf_step, hget, hw1, hw2]
  have hbuf : (maf_step m x nd).1.buf = m.buf.set m.p x := rfl
  have hNN : (maf_step m x nd).1.N = m.N := rfl
  have hpp : (maf_step m x nd).1.p = if m.p + 1 ≥ m.N then m.p + 1 - m.N else m.p + 1 := rfl
  rw [h.hN] at hpp
  have hold : m.buf.getD m.p 0 = recent xs (N - 1) := by
    have := h.slot (N - 1) (by omega)
    rw [slot_eq N m.p (N - 1) hp (by omega)] at this
    rw [← this]
    split
    · omega
    · congr 1; omega
  refine ⟨by rw [hNN, h.hN], by rw [hbuf, List.length_set, hlen], ?_, ?_, ?_, ?_, ?_⟩
  · rw [hpp]; split <;> omega
  · rw [hsum, hbuf, list_sum_set m.buf m.p x hpl, h.sum]
  · rw [hsum, h.win, hold]
    obtain ⟨n, rfl⟩ : ∃ n, N = n + 1 := ⟨N - 1, by omega⟩
    rw [Finset.sum_range_succ, Finset.sum_range_succ']
    simp only [recent_snoc_zero, recent_snoc_succ, Nat.add_sub_cancel]
    ring
  · intro k hk
    rw [hbuf, hpp]
    cases k with
    | zero =>
      rw [recent_snoc_zero]
      have e : ((if m.p + 1 ≥ N then m.p + 1 - N else m.p + 1) + N - 1 - 0) % N = m.p := by
        split
        · have : m.p + 1 - N + N - 1 - 0 = m.p := by omega
          rw [this, Nat.mod_eq_of_lt hp]
        · have : m.p + 1 + N - 1 - 0 = m.p + N := by omega
          rw [this, Nat.add_mod_right, Nat.mod_eq_of_lt hp]
      rw [e, hget]
    | succ k =>
      rw [recent_snoc_succ, ← h.slot k (by omega)]
      have e : ((if m.p + 1 ≥ N then m.p + 1 - N else m.p + 1) + N - 1 - (k + 1)) % N =
          (m.p + N - 1 - k) % N := by
        split
        · rw [slot_eq N m.p k hp (by omega)]
          have hk' : k < m.p := by omega
          rw [if_pos hk', Nat.mod_eq_of_lt (by omega)]
          omega
        · congr 1; omega
      rw [e]
      have hne : (m.p + N - 1 - k) % N ≠ m.p := by
        rw [slot_eq N m.p k hp (by omega)]
        split <;> omega
      simp only [List.getD_eq_getElem?_getD]
      rw [List.getElem?_set_ne (fun hh => hne hh.symm)]
  · rw [hbuf]; exact hbnd'

theorem maf_process_inv (N : Nat) (hN1 : 1 ≤ N) (hN : N ≤ 65535) (nd : Bool) (ys : List Int) :
    ∀ (m : maf) (xs : List Int), (∀ x ∈ ys, -32768 ≤ x ∧ x ≤ 32767) → MafInv N m xs →
      MafInv N (maf_process nd m ys).1 (xs ++ ys) := by
  induction ys with
  | nil => intro m xs _ h; simpa [maf_process] using h
  | cons y ys ih =>
    intro m xs hys h
    have h1 := maf_step_inv N hN1 hN m xs y nd (hys y (List.mem_cons_self _ _)) h
    have h2 := ih _ _ (fun x hx => hys x (List.mem_cons_of_mem _ hx)) h1
    simpa [maf_process] using h2

theorem maf_calls_inv (N : Nat) (hN1 : 1 ≤ N) (hN : N ≤ 65535)
    (calls : List (List Int × Bool)) :
    ∀ (m : maf) (xs : List Int), (∀ c ∈ calls, ∀ x ∈ c.1, -32768 ≤ x ∧ x ≤ 32767) →
      MafInv N m xs → MafInv N (maf_calls m calls) (xs ++ (calls.map Prod.fst).flatten) := by
  induction calls with
  | nil => intro m xs _ h; simpa [maf_calls] using h
  | cons c calls ih =>
    intro m xs hc h
    have h1 := maf_process_inv N hN1 hN c.2 c.1 m xs (hc c (List.mem_cons_self _ _)) h
    have h2 := ih _ _ (fun d hd => hc d (List.mem_cons_of_mem _ hd)) h1
    simpa [maf_calls] using h2

/-- C12: for a moving-average filter created by `maf_init` with `1 ≤ N ≤ 65535`, after any
sequence of `maf_process` calls on `int16` samples, in either mode, the write index is below
`N`, `sum` equals the arithmetic sum of the `N` buffer entries (no 32-bit wrap occurs), and
the entries are the `N` most recent inputs, zero for inputs not yet received: the input
received `k` samples before the latest sits `k + 1` places behind the write index. -/
theorem maf_sum_invariant (N : Nat) (calls : List (List Int × Bool)) (hN1 : 1 ≤ N)
    (hN : N ≤ 65535) (hin : ∀ c ∈ calls, ∀ x ∈ c.1, -32768 ≤ x ∧ x ≤ 32767) :
    (maf_calls (maf_init N) calls).p < N ∧
    (maf_calls (maf_init N) calls).buf.length = N ∧
    (maf_calls (maf_init N) calls).sum = (maf_calls (maf_init N) calls).buf.sum ∧
    (∀ k, k < N →
      (maf_calls (maf_init N) calls).buf.getD
          (((maf_calls (maf_init N) calls).p + N - 1 - k) % N) 0 =
        recent (calls.map Prod.fst).flatten k) ∧
    (maf_calls (maf_init N) calls).sum =
      Finset.sum (Finset.range N) (fun k => recent (calls.map Prod.fst).flatten k) := by
  have h := maf_calls_inv N hN1 hN calls (maf_init N) [] hin (maf_init_inv N hN1)
  rw [List.nil_append] at h
  exact ⟨h.p, h.len, h.sum, h.slot, h.win⟩

theorem maf_sum_invariant_witness :
    (1 ≤ 3 ∧ 3 ≤ 65535 ∧
      ∀ c ∈ [([100, -200], false), ([300, 32767, -32768], true)],
        ∀ x ∈ c.1, (-32768 : Int) ≤ x ∧ x ≤ 32767) ∧
    ((maf_calls (maf_init 3) [([100, -200], false), ([300, 32767, -32768], true)]).p < 3 ∧
    (maf_calls (maf_init 3) [([100, -200], false), ([300, 32767, -32768], true)]).buf.length = 3 ∧
    (maf_calls (maf_init 3) [([100, -200], false), ([300, 32767, -32768], true)]).sum =
      (maf_calls (maf_init 3) [([100, -200], false), ([300, 32767, -32768], true)]).buf.sum ∧
    (∀ k, k < 3 →
      (maf_calls (maf_init 3) [([100, -200], false), ([300, 32767, -32768], true)]).buf.getD
          (((maf_calls (maf_init 3)
              [([100, -200], false), ([300, 32767, -32768], true)]).p + 3 - 1 - k) % 3) 0 =
        recent ([([100, -200], false), ([300, 32767, -32768], true)].map Prod.fst).flatten k) ∧
    (maf_calls (maf_init 3) [([100, -200], false), ([300, 32767, -32768], true)]).sum =
      Finset.sum (Finset.range 3)
        (fun k => recent
          ([([100, -200], false), ([300, 32767, -32768], true)].map Prod.fst).flatten k)) :=
  ⟨⟨by decide, by decide, by decide⟩,
    maf_sum_invariant 3 [([100, -200], false), ([300, 32767, -32768], true)] (by decide)
      (by decide) (by decide)⟩

/-- C13 (failing input): a fresh filter of length 4 fed the sample `-3` in divide mode has
`sum = -3` and writes `(-3 + 2) / 4 = 0`, since the division truncates toward zero; the
distance `|N * out - sum| = 3` exceeds `N / 2 = 2`. -/
theorem maf_divide_negative_sum :
    (maf_step (maf_init 4) (-3) false).1.sum = -3 ∧
    (maf_step (maf_init 4) (-3) false).2 = 0 ∧
    ¬ (Int.natAbs (4 * (maf_step (maf_init 4) (-3) false).2 -
        (maf_step (maf_init 4) (-3) false).1.sum) ≤ 4 / 2) := by
  decide

/-- For a sum that is not negative, `(sum + N/2) / N` is within `N/2` of `sum / N`. -/
theorem tdiv_round_nonneg (N s : Int) (hN : 1 ≤ N) (hs : 0 ≤ s) :
    Int.natAbs (N * Int.tdiv (s + Int.tdiv N 2) N - s) ≤ Int.natAbs (Int.tdiv N 2) := by
  have e2 : Int.tdiv N 2 = N / 2 := Int.tdiv_eq_ediv (by omega) (by omega)
  rw [e2]
  have e1 : Int.tdiv (s + N / 2) N = (s + N / 2) / N := Int.tdiv_eq_ediv (by omega) (by omega)
  rw [e1]
  have h1 := Int.ediv_add_emod (s + N / 2) N
  have h2 := Int.emod_nonneg (s + N / 2) (show N ≠ 0 by omega)
  have h3 := Int.emod_lt_of_pos (s + N / 2) (show 0 < N by omega)
  generalize (s + N / 2) / N = q at *
  generalize (s + N / 2) % N = r at *
  omega

theorem tdiv_half_self (N : Int) (hN : 1 ≤ N) : Int.tdiv (0 + Int.tdiv N 2) N = 0 := by
  have e2 : Int.tdiv N 2 = N / 2 := Int.tdiv_eq_ediv (by omega) (by omega)
  rw [e2, Int.tdiv_eq_ediv (by omega) (by omega)]
  exact Int.ediv_eq_zero_of_lt (by omega) (by omega)

theorem tdiv_round_int16 (N a : Int) (hN : 1 ≤ N) (ha : -32768 ≤ a ∧ a ≤ 32767) :
    -32768 ≤ Int.tdiv (a + Int.tdiv N 2) N ∧ Int.tdiv (a + Int.tdiv N 2) N ≤ 32767 := by
  have e2 : Int.tdiv N 2 = N / 2 := Int.tdiv_eq_ediv (by omega) (by omega)
  rw [e2]
  by_cases hy : 0 ≤ a + N / 2
  · rw [Int.tdiv_eq_ediv hy (by omega)]
    have h1 : 0 ≤ (a + N / 2) / N := Int.ediv_nonneg hy (by omega)
    have h2 : (a + N / 2) / N < 32768 := Int.ediv_lt_of_lt_mul (by omega) (by omega)
    omega
  · have e : a + N / 2 = -(-(a + N / 2)) := by omega
    rw [e, Int.neg_tdiv, Int.tdiv_eq_ediv (by omega) (by omega)]
    have h1 : 0 ≤ -(a + N / 2) / N := Int.ediv_nonneg (by omega) (by omega)
    have h2 : -(a + N / 2) / N ≤ -(a + N / 2) := Int.ediv_le_self _ (by omega)
    omega

theorem maf_divide_out (m : maf) (x : Int) :
    (maf_step m x false).2 =
      int16_wrap (Int.tdiv (int32_wrap ((maf_step m x false).1.sum +
        Int.tdiv (int32_wrap m.N) 2)) (int32_wrap m.N)) := by
  simp [maf_step]

theorem impulse_first (N : Nat) (a : Int) (hN1 : 1 ≤ N) (hN : N < 2 ^ 31)
    (ha : -32768 ≤ a ∧ a ≤ 32767) :
    ImpulseInv N a 1 (maf_step (maf_init N) a false).1 ∧
      (maf_step (maf_init N) a false).2 = Int.tdiv (a + Int.tdiv N 2) N := by
  have hNi : ((N : Nat) : Int) < 2 ^ 31 := by exact_mod_cast hN
  have hN0 : (1 : Int) ≤ N := by exact_mod_cast hN1
  have hwN : int32_wrap (N : Int) = N := int32_wrap_id _ (by omega) (by omega)
  have hg0 : (List.replicate N (0 : Int)).getD 0 0 = 0 := by simp
  have hl : 0 < (List.replicate N (0 : Int)).length := by simp; omega
  have hg1 : ((List.replicate N (0 : Int)).set 0 a).getD 0 0 = a := by
    clear hwN hN0 hNi hN hl hg0
    obtain ⟨n, rfl⟩ : ∃ n, N = n + 1 := ⟨N - 1, by omega⟩
    simp [List.replicate_succ]
  have hs : (maf_step (maf_init N) a false).1.sum = a := by
    simp only [maf_step, maf_init, hg0, hg1, sub_zero]
    rw [int32_wrap_id 0 (by omega) (by omega), zero_add, int32_wrap_id a (by omega) (by omega)]
  constructor
  · refine ⟨rfl, ?_, ?_, ?_⟩
    · simp only [maf_step, maf_init]; split <;> omega
    · intro _
      refine ⟨rfl, hs, ?_⟩
      simp only [maf_step, maf_init]
      split <;> split <;> omega
    · intro h
      omega
  · rw [maf_divide_out, hs]
    simp only [maf_init, hwN]
    have hh : Int.tdiv (N : Int) 2 = (N : Int) / 2 := Int.tdiv_eq_ediv (by omega) (by omega)
    have hb := tdiv_round_int16 N a hN0 ha
    rw [int32_wrap_id (a + Int.tdiv (N : Int) 2) (by rw [hh]; omega) (by rw [hh]; omega)]
    exact int16_wrap_id _ (by omega) (by omega)

theorem list_set_same (l : List Int) : ∀ (i : Nat) (x : Int),
    (i < l.length → l.getD i 0 = x) → l.set i x = l := by
  induction l with
  | nil => intro i x _; rfl
  | cons b l ih =>
    intro i x h
    cases i with
    | zero =>
      have := h (by simp)
      simp at this
      simp [this]
    | succ i =>
      simp only [List.set_cons_succ]
      rw [ih i x (fun hi => by simpa using h (by simpa using hi))]

theorem getD_set_zero_succ (l : List Int) (a : Int) (j : Nat) :
    (l.set 0 a).getD (j + 1) 0 = l.getD (j + 1) 0 := by
  cases l with
  | nil => rfl
  | cons b l => rfl

theorem getD_replicate_zero (N i : Nat) : (List.replicate N (0 : Int)).getD i 0 = 0 := by
  induction N generalizing i with
  | zero => rfl
  | succ n ih =>
    cases i with
    | zero => rfl
    | succ i => simp [List.replicate_succ]

theorem set_zero_set_zero (l : List Int) (a b : Int) : (l.set 0 a).set 0 b = l.set 0 b := by
  cases l <;> rfl

theorem impulse_next (N : Nat) (a : Int) (j : Nat) (m : maf) (hN1 : 1 ≤ N) (hN : N < 2 ^ 31)
    (ha : -32768 ≤ a ∧ a ≤ 32767) (hj : 1 ≤ j) (h : ImpulseInv N a j m) :
    ImpulseInv N a (j + 1) (maf_step m 0 false).1 ∧
      (maf_step m 0 false).2 = if j < N then Int.tdiv (a + Int.tdiv N 2) N else 0 := by
  have hNi : ((N : Nat) : Int) < 2 ^ 31 := by exact_mod_cast hN
  have hN0 : (1 : Int) ≤ N := by exact_mod_cast hN1
  have hwN : int32_wrap (N : Int) = N := int32_wrap_id _ (by omega) (by omega)
  have hh : Int.tdiv (N : Int) 2 = (N : Int) / 2 := Int.tdiv_eq_ediv (by omega) (by omega)
  have hp := h.p
  have hmN := h.hN
  have hpp : (maf_step m 0 false).1.p = if m.p + 1 ≥ N then m.p + 1 - N else m.p + 1 := by
    simp only [maf_step, hmN]
  have hbuf : (maf_step m 0 false).1.buf = m.buf.set m.p 0 := rfl
  have hsum : (maf_step m 0 false).1.sum =
      int32_wrap (int32_wrap (m.sum - m.buf.getD m.p 0) + (m.buf.set m.p 0).getD m.p 0) := rfl
  have hzero : int16_wrap (Int.tdiv (int32_wrap (0 + Int.tdiv (N : Int) 2)) N) = 0 := by
    rw [int32_wrap_id _ (by rw [hh]; omega) (by rw [hh]; omega), tdiv_half_self N hN0]
    rfl
  have hb := tdiv_round_int16 N a hN0 ha
  have hout : int16_wrap (Int.tdiv (int32_wrap (a + Int.tdiv (N : Int) 2)) N) =
      Int.tdiv (a + Int.tdiv (N : Int) 2) N := by
    rw [int32_wrap_id (a + Int.tdiv (N : Int) 2) (by rw [hh]; omega) (by rw [hh]; omega)]
    exact int16_wrap_id _ (by omega) (by omega)
  rcases Nat.lt_trichotomy j N with hlt | heq | hgt
  · obtain ⟨e1, e2, e3⟩ := h.early (by omega)
    rw [if_neg (by omega)] at e3
    obtain ⟨i, hi⟩ : ∃ i, j = i + 1 := ⟨j - 1, by omega⟩
    have hg : m.buf.getD m.p 0 = 0 := by
      rw [e1, e3, hi, getD_set_zero_succ, getD_replicate_zero]
    have hset : m.buf.set m.p 0 = m.buf := list_set_same _ _ _ (fun _ => hg)
    have hs : (maf_step m 0 false).1.sum = a := by
      rw [hsum, hset, hg, e2, sub_zero, add_zero, int32_wrap_id a (by omega) (by omega),
        int32_wrap_id a (by omega) (by omega)]
    refine ⟨⟨by rw [← hmN]; rfl, by rw [hpp]; split <;> omega, ?_, fun hh => by omega⟩, ?_⟩
    · intro _
      refine ⟨by rw [hbuf, hset, e1], hs, ?_⟩
      rw [hpp, e3]
      split <;> split <;> omega
    · rw [maf_divide_out, hs, hmN, hwN, hout, if_pos hlt]
  · obtain ⟨e1, e2, e3⟩ := h.early (by omega)
    rw [if_pos heq] at e3
    have hl : 0 < (List.replicate N (0 : Int)).length := by simp; omega
    have hg : m.buf.getD m.p 0 = a := by
      rw [e1, e3]
      clear hwN hN0 hNi hN hl hh hzero hout hb e1 hpp hp hmN h heq
      obtain ⟨n, rfl⟩ : ∃ n, N = n + 1 := ⟨N - 1, by omega⟩
      simp [List.replicate_succ]
    have hset : m.buf.set m.p 0 = List.replicate N 0 := by
      rw [e1, e3, set_zero_set_zero]
      exact list_set_same _ _ _ (fun _ => getD_replicate_zero N 0)
    have hs : (maf_step m 0 false).1.sum = 0 := by
      rw [hsum, hset, hg, e2, getD_replicate_zero, sub_self, add_zero]
      rfl
    refine ⟨⟨by rw [← hmN]; rfl, by rw [hpp]; split <;> omega, fun hh => by omega, ?_⟩, ?_⟩
    · intro _
      exact ⟨by rw [hbuf, hset], hs⟩
    · rw [maf_divide_out, hs, hmN, hwN, hzero, if_neg (by omega)]
  · obtain ⟨e1, e2⟩ := h.late hgt
    have hg : m.buf.getD m.p 0 = 0 := by rw [e1, getD_replicate_zero]
    have hset : m.buf.set m.p 0 = m.buf := list_set_same _ _ _ (fun _ => hg)
    have hs : (maf_step m 0 false).1.sum = 0 := by
      rw [hsum, hset, hg, e2, sub_zero, add_zero]
      rfl
    refine ⟨⟨by rw [← hmN]; rfl, by rw [hpp]; split <;> omega, fun hh => by omega, ?_⟩, ?_⟩
    · intro _
      exact ⟨by rw [hbuf, hset, e1], hs⟩
    · rw [maf_divide_out, hs, hmN, hwN, hzero, if_neg (by omega)]

theorem impulse_run (N : Nat) (a : Int) (hN1 : 1 ≤ N) (hN : N < 2 ^ 31)
    (ha : -32768 ≤ a ∧ a ≤ 32767) : ∀ (k j : Nat) (m : maf), 1 ≤ j → ImpulseInv N a j m →
      (maf_process false m (List.replicate k 0)).2 =
          (List.range k).map (fun i => if j + i < N then Int.tdiv (a + Int.tdiv N 2) N else 0) ∧
        ImpulseInv N a (j + k) (maf_process false m (List.replicate k 0)).1 := by
  intro k
  induction k with
  | zero => intro j m _ h; exact ⟨rfl, h⟩
  | succ k ih =>
    intro j m hj h
    obtain ⟨h1, h2⟩ := impulse_next N a j m hN1 hN ha hj h
    obtain ⟨h3, h4⟩ := ih (j + 1) (maf_step m 0 false).1 (by omega) h1
    refine ⟨?_, ?_⟩
    · show (maf_step m 0 false).2 ::
          (maf_process false (maf_step m 0 false).1 (List.replicate k 0)).2 = _
      rw [h2, h3, List.range_succ_eq_map, List.map_cons, List.map_map]
      refine congrArg₂ _ rfl (List.map_congr_left fun i _ => ?_)
      simp only [Function.comp, Nat.succ_eq_add_one]
      rw [show j + 1 + i = j + (i + 1) by omega]
    · have : j + (k + 1) = j + 1 + k := by omega
      rw [this]
      exact h4

/-- C14: impulse response of the moving-average filter in divide mode.  A freshly initialised
filter of length `N` (with `1 ≤ N`, and `N` within the range of the `int32_t` cast applied to
it) is fed the 16-bit sample `a` followed by `k` zeros.  The outputs are `(a + N/2) / N` (C
division) at the sample indices below `N` and `0` at every later index, and the running sum left
after the last of these samples is `a` while that sample is among the first `N` and `0`
afterwards. -/
theorem maf_impulse_response (N : Nat) (a : Int) (k : Nat) (hN1 : 1 ≤ N) (hN : N < 2 ^ 31)
    (ha : -32768 ≤ a ∧ a ≤ 32767) :
    (maf_process false (maf_init N) (a :: List.replicate k 0)).2 =
        (List.range (k + 1)).map
          (fun i => if i < N then Int.tdiv (a + Int.tdiv (N : Int) 2) N else 0) ∧
      (maf_process false (maf_init N) (a :: List.replicate k 0)).1.sum =
        (if k < N then a else 0) := by
  obtain ⟨h1, h2⟩ := impulse_first N a hN1 hN ha
  obtain ⟨h3, h4⟩ := impulse_run N a hN1 hN ha k 1 _ (le_refl 1) h1
  refine ⟨?_, ?_⟩
  · show (maf_step (maf_init N) a false).2 ::
        (maf_process false (maf_step (maf_init N) a false).1 (List.replicate k 0)).2 = _
    rw [h2, h3, List.range_succ_eq_map, List.map_cons, List.map_map, if_pos (by omega)]
    refine congrArg₂ _ rfl (List.map_congr_left fun i _ => ?_)
    simp only [Function.comp, Nat.succ_eq_add_one]
    rw [show 1 + i = i + 1 by omega]
  · show (maf_process false (maf_step (maf_init N) a false).1 (List.replicate k 0)).1.sum = _
    by_cases hk : k < N
    · rw [if_pos hk]
      exact (h4.early (by omega)).2.1
    · rw [if_neg hk]
      exact (h4.late (by omega)).2

theorem maf_impulse_response_witness :
    (1 ≤ 3 ∧ 3 < 2 ^ 31 ∧ ((-32768 : Int) ≤ 100 ∧ (100 : Int) ≤ 32767)) ∧
      ((maf_process false (maf_init 3) (100 :: List.replicate 4 0)).2 =
          (List.range (4 + 1)).map
            (fun i => if i < 3 then Int.tdiv (100 + Int.tdiv ((3 : Nat) : Int) 2) (3 : Nat) else 0) ∧
        (maf_process false (maf_init 3) (100 :: List.replicate 4 0)).1.sum =
          (if 4 < 3 then 100 else 0)) :=
  ⟨⟨by decide, by decide, by decide, by decide⟩,
    maf_impulse_response 3 100 4 (by decide) (by decide) ⟨by decide, by decide⟩⟩

/-! ## Oscillator -/

theorem sub_self_emod (t L : Int) : (t - L) % L = t % L := by
  have h : t = (t - L) + 1 * L := by ring
  conv_rhs => rw [h, Int.add_mul_emod_self]

/-- The loop of `sin_get_samples` reduces the phase modulo the table length and stops by its
own condition: `t` is the sum `p + freqhz` before its conversion to `int`. -/
theorem phase_loop_spec (L : Nat) (hL : 1 ≤ L) : ∀ (fuel : Nat) (t : Int), 0 ≤ t → t < 2 ^ 32 →
    (t < 2 ^ 31 ∨ (L : Int) ≤ 2 ^ 31) → t < ((fuel : Int) + 1) * L →
    phase_loop fuel L (int32_wrap t) = t % L := by
  have hL0 : (1 : Int) ≤ L := by exact_mod_cast hL
  intro fuel
  induction fuel with
  | zero =>
    intro t h0 _ hc hf
    have htL : t < L := by simpa using hf
    rw [Int.emod_eq_of_lt h0 htL, int32_wrap_id t (by omega) (by omega)]
    rfl
  | succ fuel ih =>
    intro t h0 h32 hc hf
    by_cases hlt : t < L
    · rw [Int.emod_eq_of_lt h0 hlt, int32_wrap_id t (by omega) (by omega)]
      unfold phase_loop
      rw [if_neg (by omega)]
    · have hge : (L : Int) ≤ t := by omega
      have hrec : int32_wrap ((int32_wrap t % 2 ^ 64 - L) % 2 ^ 64) = int32_wrap (t - L) := by
        unfold int32_wrap
        omega
      have hcond : (L : Int) ≤ int32_wrap t % 2 ^ 64 := by
        unfold int32_wrap
        omega
      have hf2 : t - L < ((fuel : Int) + 1) * L := by
        have : (((fuel + 1 : Nat) : Int) + 1) * L = ((fuel : Int) + 1) * L + L := by
          push_cast; ring
        rw [this] at hf
        omega
      have := ih (t - L) (by omega) (by omega) (by omega) hf2
      rw [sub_self_emod] at this
      rw [← this]
      conv_lhs => unfold phase_loop
      rw [if_pos hcond, hrec]

theorem range_succ_map {α : Type} (g : Nat → α) (n : Nat) :
    (List.range (n + 1)).map g = g 0 :: (List.range n).map (fun k => g (k + 1)) := by
  rw [List.range_succ_eq_map, List.map_cons, List.map_map]
  rfl

/-- What `sin_get_samples` writes and where it leaves the phase, when every sum
`p + freqhz` it forms is below `2 ^ 32` and either does not overflow `int` or meets a table
of at most `2 ^ 31` entries. -/
theorem sin_get_samples_spec (table : List Int) (f : Int) (hL : 1 ≤ table.length)
    (hf : 0 ≤ f) : ∀ (n : Nat) (p : Int), 0 ≤ p → p < table.length →
    (∀ k, k < n → (p + k * f) % table.length + f < 2 ^ 32 ∧
      ((p + k * f) % table.length + f < 2 ^ 31 ∨ (table.length : Int) ≤ 2 ^ 31)) →
    sin_get_samples table f n p =
      ((List.range n).map (fun (k : Nat) => table.getD ((p + (k : Int) * f) % table.length).toNat 0),
        (p + n * f) % table.length) := by
  have hL0 : (1 : Int) ≤ table.length := by exact_mod_cast hL
  intro n
  induction n with
  | zero =>
    intro p h0 h1 _
    simp [sin_get_samples, Int.emod_eq_of_lt h0 h1]
  | succ n ih =>
    intro p h0 h1 hov
    have hp : p % (table.length : Int) = p := Int.emod_eq_of_lt h0 h1
    have h0' := hov 0 (by omega)
    simp only [Nat.cast_zero, zero_mul, add_zero, hp] at h0'
    have hstep : phase_loop (2 ^ 32) table.length (int32_wrap (p + f)) =
        (p + f) % table.length := by
      refine phase_loop_spec table.length hL (2 ^ 32) (p + f) (by omega) h0'.1 h0'.2 ?_
      have : (((2 ^ 32 : Nat) : Int) + 1) * (table.length : Int) ≥ (((2 ^ 32 : Nat) : Int) + 1) * 1 :=
        Int.mul_le_mul_of_nonneg_left hL0 (by positivity)
      push_cast at this ⊢
      omega
    have hmod : ∀ k : Nat, ((p + f) % (table.length : Int) + k * f) % table.length =
        (p + ((k + 1 : Nat) : Int) * f) % table.length := by
      intro k
      rw [Int.emod_add_emod]
      congr 1
      push_cast
      ring
    have hrec := ih ((p + f) % table.length) (Int.emod_nonneg _ (by omega))
      (Int.emod_lt_of_pos _ (by omega)) (fun k hk => by
        rw [hmod k]
        exact hov (k + 1) (by omega))
    show (table.getD p.toNat 0 :: (sin_get_samples table f n
        (phase_loop (2 ^ 32) table.length (int32_wrap (p + f)))).1,
      (sin_get_samples table f n
        (phase_loop (2 ^ 32) table.length (int32_wrap (p + f)))).2) = _
    rw [hstep, hrec, range_succ_map]
    simp only [Nat.cast_zero, zero_mul, add_zero, hp, hmod]

theorem getD_map_range (g : Nat → Int) (n k : Nat) (hk : k < n) :
    ((List.range n).map g).getD k 0 = g k := by
  simp [List.getD_eq_getElem?_getD, List.getElem?_map, List.getElem?_range, hk]

/-- C15: phase advance and periodicity of the oscillator.  For a table of length `L ≥ 1`, a
phase `0 ≤ p < L` and a frequency `f ≥ 0` such that no sum of a reached phase and `f`
overflows `int`, `osc_get_samples` (that is `sin_get_samples` on the oscillator's phase) with
`n` samples writes `table[(p + k * f) mod L]` for `k = 0 .. n - 1` and leaves the phase
`(p + n * f) mod L`, the frequency being unchanged; after exactly `L` samples the phase is the
initial phase, and the samples written repeat with period `L`. -/
theorem nco_phase_advance (table : List Int) (o : osc) (n : Nat) (hL : 1 ≤ table.length)
    (hp : 0 ≤ o.p ∧ o.p < table.length) (hf : 0 ≤ o.freqhz)
    (hov : ∀ k : Nat, k < n → (o.p + (k : Int) * o.freqhz) % table.length + o.freqhz < 2 ^ 31) :
    (osc_get_samples table o n).2 =
        (List.range n).map
          (fun (k : Nat) => table.getD ((o.p + (k : Int) * o.freqhz) % table.length).toNat 0) ∧
      (osc_get_samples table o n).1.p = (o.p + (n : Int) * o.freqhz) % table.length ∧
      (osc_get_samples table o n).1.freqhz = o.freqhz ∧
      (n = table.length → (osc_get_samples table o n).1.p = o.p) ∧
      (∀ k : Nat, k + table.length < n →
        (osc_get_samples table o n).2.getD (k + table.length) 0 =
          (osc_get_samples table o n).2.getD k 0) := by
  have hspec := sin_get_samples_spec table o.freqhz hL hf n o.p hp.1 hp.2
    (fun k hk => ⟨by have := hov k hk; omega, Or.inl (hov k hk)⟩)
  have h1 : (osc_get_samples table o n).2 = (sin_get_samples table o.freqhz n o.p).1 := rfl
  have h2 : (osc_get_samples table o n).1.p = (sin_get_samples table o.freqhz n o.p).2 := rfl
  rw [h1, h2, hspec]
  refine ⟨rfl, rfl, rfl, ?_, ?_⟩
  · intro hn
    show (o.p + (n : Int) * o.freqhz) % table.length = o.p
    rw [hn, Int.add_mul_emod_self_left, Int.emod_eq_of_lt hp.1 hp.2]
  · intro k hk
    show ((List.range n).map _).getD (k + table.length) 0 = ((List.range n).map _).getD k 0
    rw [getD_map_range _ n _ hk, getD_map_range _ n k (by omega)]
    have : o.p + ((k + table.length : Nat) : Int) * o.freqhz =
        o.p + (k : Int) * o.freqhz + (table.length : Int) * o.freqhz := by
      push_cast
      ring
    rw [this, Int.add_mul_emod_self_left]

theorem nco_phase_advance_witness :
    (1 ≤ [(0 : Int), 100, 0, -100].length ∧
      ((0 : Int) ≤ (osc.mk 3 1).p ∧ (osc.mk 3 1).p < [(0 : Int), 100, 0, -100].length) ∧
      (0 : Int) ≤ (osc.mk 3 1).freqhz ∧
      ∀ k : Nat, k < 6 → ((osc.mk 3 1).p + (k : Int) * (osc.mk 3 1).freqhz) %
        [(0 : Int), 100, 0, -100].length + (osc.mk 3 1).freqhz < 2 ^ 31) ∧
    ((osc_get_samples [0, 100, 0, -100] (osc.mk 3 1) 6).2 =
        (List.range 6).map
          (fun (k : Nat) => [(0 : Int), 100, 0, -100].getD
            (((osc.mk 3 1).p + (k : Int) * (osc.mk 3 1).freqhz) %
              [(0 : Int), 100, 0, -100].length).toNat 0) ∧
      (osc_get_samples [0, 100, 0, -100] (osc.mk 3 1) 6).1.p =
        ((osc.mk 3 1).p + ((6 : Nat) : Int) * (osc.mk 3 1).freqhz) %
          [(0 : Int), 100, 0, -100].length ∧
      (osc_get_samples [0, 100, 0, -100] (osc.mk 3 1) 6).1.freqhz = (osc.mk 3 1).freqhz ∧
      (6 = [(0 : Int), 100, 0, -100].length →
        (osc_get_samples [0, 100, 0, -100] (osc.mk 3 1) 6).1.p = (osc.mk 3 1).p) ∧
      (∀ k : Nat, k + [(0 : Int), 100, 0, -100].length < 6 →
        (osc_get_samples [0, 100, 0, -100] (osc.mk 3 1) 6).2.getD
            (k + [(0 : Int), 100, 0, -100].length) 0 =
          (osc_get_samples [0, 100, 0, -100] (osc.mk 3 1) 6).2.getD k 0)) :=
  ⟨⟨by decide, ⟨by decide, by decide⟩, by decide, by decide⟩,
    nco_phase_advance [0, 100, 0, -100] (osc.mk 3 1) 6 (by decide) ⟨by decide, by decide⟩
      (by decide) (by decide)⟩

theorem quarter_phase_eq (L : Nat) (p : Int) (hL1 : 1 ≤ L) (hL : L < 2 ^ 31) (h0 : 0 ≤ p)
    (h1 : p < L) : quarter_phase L p = (p + ((L / 4 : Nat) : Int)) % L := by
  have hL0 : (1 : Int) ≤ L := by exact_mod_cast hL1
  have hLi : (L : Int) < 2 ^ 31 := by exact_mod_cast hL
  have hq : ((L / 4 : Nat) : Int) ≤ L := by
    have : L / 4 ≤ L := Nat.div_le_self _ _
    exact_mod_cast this
  have hq0 : (0 : Int) ≤ ((L / 4 : Nat) : Int) := by positivity
  unfold quarter_phase
  have e1 : (p % 2 ^ 64 + ((L / 4 : Nat) : Int)) % 2 ^ 64 = p + ((L / 4 : Nat) : Int) := by
    omega
  rw [e1]
  have := Int.emod_nonneg (p + ((L / 4 : Nat) : Int)) (show (L : Int) ≠ 0 by omega)
  have := Int.emod_lt_of_pos (p + ((L / 4 : Nat) : Int)) (show (0 : Int) < L by omega)
  exact int32_wrap_id _ (by omega) (by omega)

/-- What `osc_get_complex_samples` writes and stores, for a table shorter than `2 ^ 31`. -/
theorem osc_get_complex_samples_spec (table : List Int) (o : osc) (n : Nat)
    (hL1 : 1 ≤ table.length) (hL : table.length < 2 ^ 31)
    (hp : 0 ≤ o.p ∧ o.p < table.length) (hf : 0 ≤ o.freqhz ∧ o.freqhz < 2 ^ 31) :
    osc_get_complex_samples table o n =
      ({ o with p := (o.p + (n : Int) * o.freqhz) % table.length },
        (List.range n).map (fun (k : Nat) => table.getD
          ((o.p + ((table.length / 4 : Nat) : Int) + (k : Int) * o.freqhz) %
            table.length).toNat 0),
        (List.range n).map (fun (k : Nat) => table.getD
          ((o.p + (k : Int) * o.freqhz) % table.length).toNat 0)) := by
  have hL0 : (1 : Int) ≤ table.length := by exact_mod_cast hL1
  have hLi : (table.length : Int) < 2 ^ 31 := by exact_mod_cast hL
  have hov : ∀ (q : Int) (k : Nat), k < n →
      (q + (k : Int) * o.freqhz) % table.length + o.freqhz < 2 ^ 32 ∧
        ((q + (k : Int) * o.freqhz) % table.length + o.freqhz < 2 ^ 31 ∨
          (table.length : Int) ≤ 2 ^ 31) := by
    intro q k _
    have := Int.emod_lt_of_pos (q + (k : Int) * o.freqhz) (show (0 : Int) < table.length by omega)
    exact ⟨by omega, Or.inr (by omega)⟩
  have hQ := sin_get_samples_spec table o.freqhz hL1 hf.1 n o.p hp.1 hp.2 (hov o.p)
  have hI := sin_get_samples_spec table o.freqhz hL1 hf.1 n
    ((o.p + ((table.length / 4 : Nat) : Int)) % table.length)
    (Int.emod_nonneg _ (by omega)) (Int.emod_lt_of_pos _ (by omega)) (hov _)
  unfold osc_get_complex_samples
  rw [quarter_phase_eq table.length o.p hL1 hL hp.1 hp.2, hQ, hI]
  simp only [Int.emod_add_emod]

/-- C16: for a table of length `L ≥ 4` (shorter than `2 ^ 31`, the table being indexed by an
`int`), a stored phase `0 ≤ p < L` and an `int` frequency `f ≥ 0`, `osc_get_complex_samples`
with `n` samples writes `Q[k] = table[(p + k * f) mod L]` and
`I[k] = table[(p + L / 4 + k * f) mod L]` for `k = 0 .. n - 1`, every table index lying in
`[0, L)`, and afterwards the stored phase is `(p + n * f) mod L`: only the sine phase is kept. -/
theorem osc_complex_samples_phases (table : List Int) (o : osc) (n : Nat)
    (hL4 : 4 ≤ table.length) (hL : table.length < 2 ^ 31)
    (hp : 0 ≤ o.p ∧ o.p < table.length) (hf : 0 ≤ o.freqhz ∧ o.freqhz < 2 ^ 31) :
    (osc_get_complex_samples table o n).2.2 =
        (List.range n).map (fun (k : Nat) => table.getD
          ((o.p + (k : Int) * o.freqhz) % table.length).toNat 0) ∧
      (osc_get_complex_samples table o n).2.1 =
        (List.range n).map (fun (k : Nat) => table.getD
          ((o.p + ((table.length / 4 : Nat) : Int) + (k : Int) * o.freqhz) %
            table.length).toNat 0) ∧
      (∀ k : Nat, ((o.p + (k : Int) * o.freqhz) % table.length).toNat < table.length ∧
        ((o.p + ((table.length / 4 : Nat) : Int) + (k : Int) * o.freqhz) %
          table.length).toNat < table.length ∧
        0 ≤ (o.p + (k : Int) * o.freqhz) % table.length ∧
        0 ≤ (o.p + ((table.length / 4 : Nat) : Int) + (k : Int) * o.freqhz) % table.length) ∧
      (osc_get_complex_samples table o n).1 =
        { o with p := (o.p + (n : Int) * o.freqhz) % table.length } := by
  have hL0 : (4 : Int) ≤ table.length := by exact_mod_cast hL4
  rw [osc_get_complex_samples_spec table o n (by omega) hL hp hf]
  refine ⟨rfl, rfl, ?_, rfl⟩
  intro k
  have a1 := Int.emod_nonneg (o.p + (k : Int) * o.freqhz) (show (table.length : Int) ≠ 0 by omega)
  have a2 := Int.emod_lt_of_pos (o.p + (k : Int) * o.freqhz)
    (show (0 : Int) < table.length by omega)
  have b1 := Int.emod_nonneg (o.p + ((table.length / 4 : Nat) : Int) + (k : Int) * o.freqhz)
    (show (table.length : Int) ≠ 0 by omega)
  have b2 := Int.emod_lt_of_pos (o.p + ((table.length / 4 : Nat) : Int) + (k : Int) * o.freqhz)
    (show (0 : Int) < table.length by omega)
  refine ⟨by omega, by omega, a1, b1⟩

theorem osc_complex_samples_phases_witness :
    (4 ≤ [(0 : Int), 70, 100, 70, 0, -70, -100, -70].length ∧
      [(0 : Int), 70, 100, 70, 0, -70, -100, -70].length < 2 ^ 31 ∧
      ((0 : Int) ≤ (osc.mk 3 5).p ∧
        (osc.mk 3 5).p < [(0 : Int), 70, 100, 70, 0, -70, -100, -70].length) ∧
      ((0 : Int) ≤ (osc.mk 3 5).freqhz ∧ (osc.mk 3 5).freqhz < 2 ^ 31)) ∧
    (osc_get_complex_samples [0, 70, 100, 70, 0, -70, -100, -70] (osc.mk 3 5) 4).2.2 =
      [-70, 0, 70, -100] ∧
    (osc_get_complex_samples [0, 70, 100, 70, 0, -70, -100, -70] (osc.mk 3 5) 4).2.1 =
      [-70, 100, -70, 0] ∧
    (osc_get_complex_samples [0, 70, 100, 70, 0, -70, -100, -70] (osc.mk 3 5) 4).1 =
      osc.mk 3 1 :=
  have h := osc_complex_samples_phases [0, 70, 100, 70, 0, -70, -100, -70] (osc.mk 3 5) 4
    (by decide) (by decide) ⟨by decide, by decide⟩ ⟨by decide, by decide⟩
  ⟨⟨by decide, by decide, ⟨by decide, by decide⟩, by decide, by decide⟩,
    h.1.trans (by decide), h.2.1.trans (by decide), h.2.2.2.trans (by decide)⟩

/-- C17: continuity across call boundaries.  For a table of length `L ≥ 4` (shorter than
`2 ^ 31`), a stored phase `0 ≤ p < L` and an `int` frequency `f ≥ 0`, calling
`osc_get_complex_samples` for `n1` samples and then, on the oscillator it leaves, for `n2`
samples gives, concatenated, exactly the I and Q sequences of one call for `n1 + n2` samples,
and the same final oscillator state, although the cosine phase is recomputed from the stored
sine phase at each call. -/
theorem osc_complex_samples_continuity (table : List Int) (o : osc) (n1 n2 : Nat)
    (hL4 : 4 ≤ table.length) (hL : table.length < 2 ^ 31)
    (hp : 0 ≤ o.p ∧ o.p < table.length) (hf : 0 ≤ o.freqhz ∧ o.freqhz < 2 ^ 31) :
    (osc_get_complex_samples table o (n1 + n2)).2.1 =
        (osc_get_complex_samples table o n1).2.1 ++
          (osc_get_complex_samples table (osc_get_complex_samples table o n1).1 n2).2.1 ∧
      (osc_get_complex_samples table o (n1 + n2)).2.2 =
        (osc_get_complex_samples table o n1).2.2 ++
          (osc_get_complex_samples table (osc_get_complex_samples table o n1).1 n2).2.2 ∧
      (osc_get_complex_samples table o (n1 + n2)).1 =
        (osc_get_complex_samples table (osc_get_complex_samples table o n1).1 n2).1 := by
  have hL0 : (4 : Int) ≤ table.length := by exact_mod_cast hL4
  have hL1 : 1 ≤ table.length := by omega
  have e1 := osc_get_complex_samples_spec table o n1 hL1 hL hp hf
  have e := osc_get_complex_samples_spec table o (n1 + n2) hL1 hL hp hf
  have e2 := osc_get_complex_samples_spec table
    { o with p := (o.p + (n1 : Int) * o.freqhz) % table.length } n2 hL1 hL
    ⟨Int.emod_nonneg _ (by omega), Int.emod_lt_of_pos _ (by omega)⟩ hf
  rw [e1, e2, e]
  have hmap : ∀ (g : Nat → Int), (List.range (n1 + n2)).map g =
      (List.range n1).map g ++ (List.range n2).map (fun k => g (n1 + k)) := by
    intro g
    rw [List.range_add, List.map_append, List.map_map]
    rfl
  have hI : ∀ k : Nat,
      ((o.p + (n1 : Int) * o.freqhz) % table.length + ((table.length / 4 : Nat) : Int) +
          (k : Int) * o.freqhz) % table.length =
        (o.p + ((table.length / 4 : Nat) : Int) + ((n1 + k : Nat) : Int) * o.freqhz) %
          table.length := by
    intro k
    rw [add_assoc, Int.emod_add_emod]
    congr 1
    push_cast
    ring
  have hQ : ∀ k : Nat,
      ((o.p + (n1 : Int) * o.freqhz) % table.length + (k : Int) * o.freqhz) % table.length =
        (o.p + ((n1 + k : Nat) : Int) * o.freqhz) % table.length := by
    intro k
    rw [Int.emod_add_emod]
    congr 1
    push_cast
    ring
  refine ⟨?_, ?_, ?_⟩
  · simp only [hmap, hI]
  · simp only [hmap, hQ]
  · have := hQ n2
    simp only [this]

theorem osc_complex_samples_continuity_witness :
    (4 ≤ [(0 : Int), 70, 100, 70, 0, -70, -100, -70].length ∧
      [(0 : Int), 70, 100, 70, 0, -70, -100, -70].length < 2 ^ 31 ∧
      ((0 : Int) ≤ (osc.mk 3 5).p ∧
        (osc.mk 3 5).p < [(0 : Int), 70, 100, 70, 0, -70, -100, -70].length) ∧
      ((0 : Int) ≤ (osc.mk 3 5).freqhz ∧ (osc.mk 3 5).freqhz < 2 ^ 31)) ∧
    ((osc_get_complex_samples [0, 70, 100, 70, 0, -70, -100, -70] (osc.mk 3 5) (3 + 2)).2.1 =
        (osc_get_complex_samples [0, 70, 100, 70, 0, -70, -100, -70] (osc.mk 3 5) 3).2.1 ++
          (osc_get_complex_samples [0, 70, 100, 70, 0, -70, -100, -70]
            (osc_get_complex_samples [0, 70, 100, 70, 0, -70, -100, -70]
              (osc.mk 3 5) 3).1 2).2.1 ∧
      (osc_get_complex_samples [0, 70, 100, 70, 0, -70, -100, -70] (osc.mk 3 5) (3 + 2)).2.2 =
        (osc_get_complex_samples [0, 70, 100, 70, 0, -70, -100, -70] (osc.mk 3 5) 3).2.2 ++
          (osc_get_complex_samples [0, 70, 100, 70, 0, -70, -100, -70]
            (osc_get_complex_samples [0, 70, 100, 70, 0, -70, -100, -70]
              (osc.mk 3 5) 3).1 2).2.2 ∧
      (osc_get_complex_samples [0, 70, 100, 70, 0, -70, -100, -70] (osc.mk 3 5) (3 + 2)).1 =
        (osc_get_complex_samples [0, 70, 100, 70, 0, -70, -100, -70]
          (osc_get_complex_samples [0, 70, 100, 70, 0, -70, -100, -70]
            (osc.mk 3 5) 3).1 2).1) :=
  ⟨⟨by decide, by decide, ⟨by decide, by decide⟩, by decide, by decide⟩,
    osc_complex_samples_continuity [0, 70, 100, 70, 0, -70, -100, -70] (osc.mk 3 5) 3 2
      (by decide) (by decide) ⟨by decide, by decide⟩ ⟨by decide, by decide⟩⟩

/-! ## Sample primitives -/

theorem tdiv_literal (x : Int) :
    Int.tdiv x 32768 = if 0 ≤ x then x / 32768 else -((-x) / 32768) := by
  split
  · exact Int.tdiv_eq_ediv (by assumption) (by omega)
  · have h : x = -(-x) := by omega
    conv_lhs => rw [h, Int.neg_tdiv, Int.tdiv_eq_ediv (show 0 ≤ -x by omega) (by omega)]

theorem int16_mul_bounds (a b : Int) (ha : -32768 ≤ a ∧ a ≤ 32767)
    (hb : -32768 ≤ b ∧ b ≤ 32767) : -1073741824 ≤ a * b ∧ a * b ≤ 1073741824 := by
  constructor <;> nlinarith [mul_nonneg (show 0 ≤ a + 32768 by omega) (show 0 ≤ b + 32768 by omega),
    mul_nonneg (show 0 ≤ 32767 - a by omega) (show 0 ≤ 32767 - b by omega),
    mul_nonneg (show 0 ≤ a + 32768 by omega) (show 0 ≤ 32767 - b by omega),
    mul_nonneg (show 0 ≤ 32767 - a by omega) (show 0 ≤ b + 32768 by omega)]

theorem mul_sample_spec (a b : Int) (ha : -32768 ≤ a ∧ a ≤ 32767)
    (hb : -32768 ≤ b ∧ b ≤ 32767) :
    mul_sample a b = max (-32767) (min 32767 (Int.tdiv (a * b) 32768)) ∧
      -32767 ≤ mul_sample a b ∧ mul_sample a b ≤ 32767 := by
  obtain ⟨h1, h2⟩ := int16_mul_bounds a b ha hb
  have e : mul_sample a b =
      int16_wrap (if Int.tdiv (a * b) 32768 > 32767 then 32767
        else if Int.tdiv (a * b) 32768 < -32767 then -32767 else Int.tdiv (a * b) 32768) := by
    unfold mul_sample
    rw [int32_wrap_id a (by omega) (by omega), int32_wrap_id b (by omega) (by omega),
      int32_wrap_id (a * b) (by omega) (by omega)]
  rw [e, tdiv_literal]
  generalize a * b = x at h1 h2
  unfold int16_wrap
  split <;> split <;> (try split) <;> omega

/-- C18: for 16-bit inputs, each output of `mul_samples` is the product `a * b` divided by
32768 with truncation toward zero and saturated to `[-32767, 32767]`, the product being taken
without 32-bit overflow; every output lies in that range, so it is never `-32768` and the
16-bit store does not wrap. -/
theorem mul_samples_saturated (samples_a samples_b : List Int)
    (ha : ∀ a ∈ samples_a, -32768 ≤ a ∧ a ≤ 32767)
    (hb : ∀ b ∈ samples_b, -32768 ≤ b ∧ b ≤ 32767) :
    mul_samples samples_a samples_b =
        List.zipWith (fun a b => max (-32767) (min 32767 (Int.tdiv (a * b) 32768)))
          samples_a samples_b ∧
      ∀ y ∈ mul_samples samples_a samples_b, -32767 ≤ y ∧ y ≤ 32767 := by
  induction samples_a generalizing samples_b with
  | nil => exact ⟨rfl, fun y hy => by simp [mul_samples] at hy⟩
  | cons a as ih =>
    cases samples_b with
    | nil => exact ⟨rfl, fun y hy => by simp [mul_samples] at hy⟩
    | cons b bs =>
      obtain ⟨i1, i2⟩ := ih bs (fun x hx => ha x (List.mem_cons_of_mem _ hx))
        (fun x hx => hb x (List.mem_cons_of_mem _ hx))
      obtain ⟨s1, s2⟩ := mul_sample_spec a b (ha a (List.mem_cons_self _ _))
        (hb b (List.mem_cons_self _ _))
      have hc : mul_samples (a :: as) (b :: bs) = mul_sample a b :: mul_samples as bs := rfl
      refine ⟨?_, ?_⟩
      · rw [hc, i1, s1]
        rfl
      · intro y hy
        rw [hc] at hy
        rcases List.mem_cons.mp hy with rfl | h
        · exact s2
        · exact i2 y h

theorem mul_samples_saturated_witness :
    ((∀ a ∈ [(32767 : Int), -32768, -32768, 3, -1], -32768 ≤ a ∧ a ≤ 32767) ∧
      (∀ b ∈ [(32767 : Int), -32768, 32767, 5, 1], -32768 ≤ b ∧ b ≤ 32767)) ∧
    (mul_samples [32767, -32768, -32768, 3, -1] [32767, -32768, 32767, 5, 1] =
        List.zipWith (fun a b => max (-32767) (min 32767 (Int.tdiv (a * b) 32768)))
          [32767, -32768, -32768, 3, -1] [32767, -32768, 32767, 5, 1] ∧
      ∀ y ∈ mul_samples [32767, -32768, -32768, 3, -1] [32767, -32768, 32767, 5, 1],
        -32767 ≤ y ∧ y ≤ 32767) :=
  ⟨⟨by decide, by decide⟩,
    mul_samples_saturated [32767, -32768, -32768, 3, -1] [32767, -32768, 32767, 5, 1]
      (by decide) (by decide)⟩

theorem ang_sample_diag_pos (y : Int) (hy : -32768 ≤ y ∧ y ≤ 32767) (h0 : y ≠ 0) :
    ang_sample y y = int16_wrap (if y < 0 then 40960 else 8192) ∧
      Int.tdiv (8192 * y) y = 8192 := by
  have t1 : Int.tdiv (8192 * y) y = 8192 := Int.mul_tdiv_cancel _ h0
  refine ⟨?_, t1⟩
  unfold ang_sample ang_angle
  rw [if_neg (by omega)]
  simp only [gt_iff_lt, lt_irrefl, if_false]
  rw [int32_wrap_id (8192 * y) (by omega) (by omega), t1]
  split
  · rfl
  · rfl

theorem ang_sample_diag_neg (y : Int) (hy : -32768 ≤ y ∧ y ≤ 32767) (h0 : y ≠ 0)
    (hx : -32768 ≤ -y ∧ -y ≤ 32767) :
    ang_sample (-y) y = int16_wrap (if y < 0 then 57344 else 24576) ∧
      Int.tdiv (8192 * y) (-y) = -8192 ∧ Int.tdiv (8192 * -y) y = -8192 := by
  have t1 : Int.tdiv (8192 * -y) y = -8192 := by
    rw [show 8192 * -y = (-8192) * y by ring]
    exact Int.mul_tdiv_cancel _ h0
  have t2 : Int.tdiv (8192 * y) (-y) = -8192 := by
    rw [Int.tdiv_neg, Int.mul_tdiv_cancel _ h0]
  refine ⟨?_, t2, t1⟩
  unfold ang_sample ang_angle
  rw [if_neg (by omega)]
  have habs : ¬ ((if -y < 0 then int32_wrap (- -y) else -y) >
      (if y < 0 then int32_wrap (-y) else y)) := by
    unfold int32_wrap
    split <;> split <;> omega
  rw [if_neg habs, int32_wrap_id (8192 * -y) (by omega) (by omega), t1]
  split
  · rfl
  · rfl

/-- C19: the arctangent approximation is continuous modulo 65536 across the diagonals.  For
every 16-bit pair `(x, y)` with `|x| = |y| ≠ 0`, the value `ang_complex_samples` stores (the
`abs_x ≤ abs_y` branch is taken: `16384 - 8192 * x / y`, plus 32768 when `y < 0`, stored in
16 bits) is congruent modulo 65536 to what the formula of the
`abs_x > abs_y` branch, `8192 * y / x` plus 32768 when `x < 0`, gives at the same point; the
four diagonals give 8192 (`x = y > 0`), 24576 (`x = -y < 0`), 40960 (`x = y < 0`) and 57344
(`x = -y > 0`) modulo 65536. -/
theorem ang_diagonal_continuity (x y : Int) (hx : -32768 ≤ x ∧ x ≤ 32767)
    (hy : -32768 ≤ y ∧ y ≤ 32767) (habs : Int.natAbs x = Int.natAbs y) (h0 : x ≠ 0) :
    ang_complex_samples [x] [y] = [ang_sample x y] ∧
      ang_sample x y % 65536 =
        (16384 - Int.tdiv (8192 * x) y + (if y < 0 then 32768 else 0)) % 65536 ∧
      ang_sample x y % 65536 =
        (Int.tdiv (8192 * y) x + (if x < 0 then 32768 else 0)) % 65536 ∧
      ang_sample x y % 65536 =
        (if x = y then (if 0 < x then 8192 else 40960)
          else (if x < 0 then 24576 else 57344)) := by
  refine ⟨rfl, ?_⟩
  rcases Int.natAbs_eq_natAbs_iff.mp habs with rfl | rfl
  · obtain ⟨e1, e2⟩ := ang_sample_diag_pos x hx h0
    rw [e1, e2, if_pos rfl]
    by_cases h : x < 0
    · have h2 : ¬ (0 < x) := by omega
      simp only [h, h2, ↓reduceIte]
      exact ⟨by decide, by decide, by decide⟩
    · have h2 : 0 < x := by omega
      simp only [h, h2, ↓reduceIte]
      exact ⟨by decide, by decide, by decide⟩
  · have hy0 : y ≠ 0 := by omega
    obtain ⟨e1, e2, e3⟩ := ang_sample_diag_neg y hy hy0 hx
    rw [e1, e2, e3, if_neg (show ¬ (-y = y) by omega)]
    by_cases h : y < 0
    · have h2 : ¬ (-y < 0) := by omega
      simp only [h, h2, ↓reduceIte]
      exact ⟨by decide, by decide, by decide⟩
    · have h2 : -y < 0 := by omega
      simp only [h, h2, ↓reduceIte]
      exact ⟨by decide, by decide, by decide⟩

theorem ang_diagonal_continuity_witness :
    (((-32768 : Int) ≤ 5 ∧ (5 : Int) ≤ 32767) ∧ ((-32768 : Int) ≤ -5 ∧ (-5 : Int) ≤ 32767) ∧
      Int.natAbs 5 = Int.natAbs (-5) ∧ (5 : Int) ≠ 0) ∧
    (ang_complex_samples [5] [-5] = [ang_sample 5 (-5)] ∧
      ang_sample 5 (-5) % 65536 =
        (16384 - Int.tdiv (8192 * 5) (-5) + (if (-5 : Int) < 0 then 32768 else 0)) % 65536 ∧
      ang_sample 5 (-5) % 65536 =
        (Int.tdiv (8192 * -5) 5 + (if (5 : Int) < 0 then 32768 else 0)) % 65536 ∧
      ang_sample 5 (-5) % 65536 =
        (if (5 : Int) = -5 then (if (0 : Int) < 5 then 8192 else 40960)
          else (if (5 : Int) < 0 then 24576 else 57344))) :=
  ⟨⟨⟨by decide, by decide⟩, ⟨by decide, by decide⟩, by decide, by decide⟩,
    ang_diagonal_continuity 5 (-5) ⟨by decide, by decide⟩ ⟨by decide, by decide⟩
      (by decide) (by decide)⟩

/-! ## `v23_modulate`: the transmit loop -/

set_option maxRecDepth 1000000 in
theorem default_frame_bits_decide : ∀ c : Fin 256,
    modulate_bits (modulate_load (init_framefmt DEF_FRAME_FORMAT 1).1 c.val) 10 =
      [0, c.val % 2, c.val / 2 % 2, c.val / 4 % 2, c.val / 8 % 2, c.val / 16 % 2,
        c.val / 32 % 2, c.val / 64 % 2,
        (1 + c.val % 2 + c.val / 2 % 2 + c.val / 4 % 2 + c.val / 8 % 2 + c.val / 16 % 2 +
          c.val / 32 % 2 + c.val / 64 % 2) % 2, 1] := by
  decide

theorem sin_get_samples_length (table : List Int) (f : Int) : ∀ (n : Nat) (p : Int),
    (sin_get_samples table f n p).1.length = n := by
  intro n
  induction n with
  | zero => intro p; rfl
  | succ n ih =>
    intro p
    show ((table.getD p.toNat 0) :: (sin_get_samples table f n _).1).length = n + 1
    rw [List.length_cons, ih]

theorem modulate_iter_pending (sinebuf : List Int) (m : modemcfg) (s : mod_state)
    (input : List (Option Nat)) (h : 0 < s.bits_in_buffer) :
    (modulate_iter sinebuf m s input).1.bits_in_buffer = s.bits_in_buffer - 1 ∧
      (modulate_iter sinebuf m s input).1.out_shift = shl32 s.out_shift 1 ∧
      (modulate_iter sinebuf m s input).2.1 = input ∧
      (modulate_iter sinebuf m s input).2.2.1 =
        (if s.out_shift &&& 0x80000000 ≠ 0 then m.mark_freqhz else m.space_freqhz) ∧
      (modulate_iter sinebuf m s input).2.2.2.length = (m.samples_per_bit % 2 ^ 64).toNat := by
  have hp : modulate_poll m.ff s input = (s, input) := by
    unfold modulate_poll
    rw [if_neg (by omega)]
  have hsel : modulate_select m s =
      { s with
        o := { s.o with
          freqhz := if s.out_shift &&& 0x80000000 ≠ 0 then m.mark_freqhz else m.space_freqhz }
        out_shift := shl32 s.out_shift 1
        bits_in_buffer := s.bits_in_buffer - 1 } := by
    unfold modulate_select
    rw [if_pos (by omega)]
  refine ⟨?_, ?_, ?_, ?_, ?_⟩
  · show (modulate_select m (modulate_poll m.ff s input).1).bits_in_buffer = _
    rw [hp, hsel]
  · show (modulate_select m (modulate_poll m.ff s input).1).out_shift = _
    rw [hp, hsel]
  · show (modulate_poll m.ff s input).2 = _
    rw [hp]
  · show (modulate_select m (modulate_poll m.ff s input).1).o.freqhz = _
    rw [hp, hsel]
  · exact sin_get_samples_length _ _ _ _

/-- With `n` bits pending, the next `n` iterations of the transmit loop read no input and send
the top `n` bits of `out_shift` in order, after which no bit is pending. -/
theorem modulate_run_pending (sinebuf : List Int) (m : modemcfg) : ∀ (n : Nat) (s : mod_state)
    (input : List (Option Nat)), s.bits_in_buffer = n →
    (modulate_run sinebuf m n s input).2.2.map Prod.fst =
        (modulate_bits s.out_shift n).map
          (fun b => if b = 1 then m.mark_freqhz else m.space_freqhz) ∧
      (modulate_run sinebuf m n s input).1.bits_in_buffer = 0 ∧
      (modulate_run sinebuf m n s input).2.1 = input ∧
      ∀ blk ∈ (modulate_run sinebuf m n s input).2.2,
        blk.2.length = (m.samples_per_bit % 2 ^ 64).toNat := by
  intro n
  induction n with
  | zero =>
    intro s input h
    exact ⟨rfl, by simpa using h, rfl, fun blk hb => by simp [modulate_run] at hb⟩
  | succ n ih =>
    intro s input h
    obtain ⟨i1, i2, i3, i4, i5⟩ := modulate_iter_pending sinebuf m s input (by omega)
    obtain ⟨r1, r2, r3, r4⟩ := ih (modulate_iter sinebuf m s input).1
      (modulate_iter sinebuf m s input).2.1 (by rw [i1, h]; push_cast; omega)
    refine ⟨?_, r2, ?_, ?_⟩
    · show (modulate_iter sinebuf m s input).2.2.1 ::
          (modulate_run sinebuf m n (modulate_iter sinebuf m s input).1
            (modulate_iter sinebuf m s input).2.1).2.2.map Prod.fst = _
      rw [r1, i4, i2]
      show _ = (if (if s.out_shift &&& 0x80000000 ≠ 0 then 1 else 0) = 1 then m.mark_freqhz
          else m.space_freqhz) :: _
      by_cases hb : s.out_shift &&& 0x80000000 ≠ 0
      · rw [if_pos hb, if_pos hb]
        rfl
      · rw [if_neg hb, if_neg hb]
        rfl
    · show (modulate_run sinebuf m n (modulate_iter sinebuf m s input).1
          (modulate_iter sinebuf m s input).2.1).2.1 = input
      rw [r3, i3]
    · intro blk hb
      have hb2 : blk ∈ (modulate_iter sinebuf m s input).2.2 ::
          (modulate_run sinebuf m n (modulate_iter sinebuf m s input).1
            (modulate_iter sinebuf m s input).2.1).2.2 := hb
      rcases List.mem_cons.mp hb2 with rfl | h2
      · exact i5
      · exact r4 blk h2

theorem modulate_iter_load (sinebuf : List Int) (m : modemcfg) (s : mod_state) (c : Nat)
    (rest : List (Option Nat)) (hs : s.bits_in_buffer < 1) (hf : 1 ≤ m.ff.frame_size) :
    modulate_iter sinebuf m s (some c :: rest) =
      modulate_iter sinebuf m
        { s with out_shift := modulate_load m.ff c, bits_in_buffer := m.ff.frame_size } rest := by
  have h1 : modulate_poll m.ff s (some c :: rest) =
      ({ s with out_shift := modulate_load m.ff c, bits_in_buffer := m.ff.frame_size },
        rest) := by
    unfold modulate_poll
    rw [if_pos hs]
  have h2 : modulate_poll m.ff
      { s with out_shift := modulate_load m.ff c, bits_in_buffer := m.ff.frame_size } rest =
      ({ s with out_shift := modulate_load m.ff c, bits_in_buffer := m.ff.frame_size },
        rest) := by
    unfold modulate_poll
    rw [if_neg (by show ¬ (m.ff.frame_size < 1); omega)]
  unfold modulate_iter
  rw [h1, h2]

/-- C20: with the default pattern `10dddddddp1`, when the transmit loop of `v23_modulate` has
no bit pending and `read` delivers the byte `c`, the next `frame_size = 10` iterations (one
bit period of `samples_per_bit` samples each) read no further input and send, in order, the
bits 0 (start), bit 0 of `c`, ..., bit 6 of `c`, the odd-parity bit, 1 (stop), a 1 selecting
the mark frequency and a 0 the space frequency; after them no bit is pending.  Bit 7 of `c`
does not occur, and the leading idle `1` of the pattern is not sent. -/
theorem modulate_default_frame (sinebuf : List Int) (m : modemcfg) (s : mod_state) (c : Nat)
    (rest : List (Option Nat)) (hff : m.ff = (init_framefmt DEF_FRAME_FORMAT 1).1)
    (hs : s.bits_in_buffer < 1) (hc : c < 256) :
    m.ff.frame_size = 10 ∧
      (modulate_run sinebuf m 10 s (some c :: rest)).2.2.map Prod.fst =
        [0, c % 2, c / 2 % 2, c / 4 % 2, c / 8 % 2, c / 16 % 2, c / 32 % 2, c / 64 % 2,
          (1 + c % 2 + c / 2 % 2 + c / 4 % 2 + c / 8 % 2 + c / 16 % 2 + c / 32 % 2 +
            c / 64 % 2) % 2, 1].map
          (fun b => if b = 1 then m.mark_freqhz else m.space_freqhz) ∧
      (∀ blk ∈ (modulate_run sinebuf m 10 s (some c :: rest)).2.2,
        blk.2.length = (m.samples_per_bit % 2 ^ 64).toNat) ∧
      (modulate_run sinebuf m 10 s (some c :: rest)).1.bits_in_buffer = 0 ∧
      (modulate_run sinebuf m 10 s (some c :: rest)).2.1 = rest := by
  have hsz : m.ff.frame_size = 10 := by rw [hff]; decide
  have hrun : modulate_run sinebuf m 10 s (some c :: rest) =
      modulate_run sinebuf m 10
        { s with out_shift := modulate_load m.ff c, bits_in_buffer := m.ff.frame_size }
        rest := by
    show modulate_run sinebuf m (9 + 1) s (some c :: rest) = modulate_run sinebuf m (9 + 1) _ rest
    unfold modulate_run
    rw [modulate_iter_load sinebuf m s c rest hs (by omega)]
  obtain ⟨r1, r2, r3, r4⟩ := modulate_run_pending sinebuf m 10
    { s with out_shift := modulate_load m.ff c, bits_in_buffer := m.ff.frame_size } rest
    (by show m.ff.frame_size = ((10 : Nat) : Int); rw [hsz]; rfl)
  rw [hrun]
  refine ⟨hsz, ?_, r4, r2, r3⟩
  rw [r1]
  show (modulate_bits (modulate_load m.ff c) 10).map _ = _
  rw [hff]
  have := default_frame_bits_decide ⟨c, hc⟩
  simp only at this
  rw [this]

theorem modulate_default_frame_witness :
    ((modemcfg.mk 8000 60 390 450 (init_framefmt DEF_FRAME_FORMAT 1).1 4 1 0).ff =
        (init_framefmt DEF_FRAME_FORMAT 1).1 ∧
      (mod_init (modemcfg.mk 8000 60 390 450 (init_framefmt DEF_FRAME_FORMAT 1).1 4 1 0)).bits_in_buffer
        < 1 ∧ 0xC1 < 256) ∧
    ((modemcfg.mk 8000 60 390 450 (init_framefmt DEF_FRAME_FORMAT 1).1 4 1 0).ff.frame_size = 10 ∧
      (modulate_run [0, 100, 0, -100]
          (modemcfg.mk 8000 60 390 450 (init_framefmt DEF_FRAME_FORMAT 1).1 4 1 0) 10
          (mod_init (modemcfg.mk 8000 60 390 450 (init_framefmt DEF_FRAME_FORMAT 1).1 4 1 0))
          (some 0xC1 :: [])).2.2.map Prod.fst =
        [0, 0xC1 % 2, 0xC1 / 2 % 2, 0xC1 / 4 % 2, 0xC1 / 8 % 2, 0xC1 / 16 % 2, 0xC1 / 32 % 2,
          0xC1 / 64 % 2,
          (1 + 0xC1 % 2 + 0xC1 / 2 % 2 + 0xC1 / 4 % 2 + 0xC1 / 8 % 2 + 0xC1 / 16 % 2 +
            0xC1 / 32 % 2 + 0xC1 / 64 % 2) % 2, 1].map
          (fun b => if b = 1
            then (modemcfg.mk 8000 60 390 450 (init_framefmt DEF_FRAME_FORMAT 1).1 4 1 0).mark_freqhz
            else (modemcfg.mk 8000 60 390 450
              (init_framefmt DEF_FRAME_FORMAT 1).1 4 1 0).space_freqhz) ∧
      (∀ blk ∈ (modulate_run [0, 100, 0, -100]
          (modemcfg.mk 8000 60 390 450 (init_framefmt DEF_FRAME_FORMAT 1).1 4 1 0) 10
          (mod_init (modemcfg.mk 8000 60 390 450 (init_framefmt DEF_FRAME_FORMAT 1).1 4 1 0))
          (some 0xC1 :: [])).2.2,
        blk.2.length =
          ((modemcfg.mk 8000 60 390 450
            (init_framefmt DEF_FRAME_FORMAT 1).1 4 1 0).samples_per_bit % 2 ^ 64).toNat) ∧
      (modulate_run [0, 100, 0, -100]
          (modemcfg.mk 8000 60 390 450 (init_framefmt DEF_FRAME_FORMAT 1).1 4 1 0) 10
          (mod_init (modemcfg.mk 8000 60 390 450 (init_framefmt DEF_FRAME_FORMAT 1).1 4 1 0))
          (some 0xC1 :: [])).1.bits_in_buffer = 0 ∧
      (modulate_run [0, 100, 0, -100]
          (modemcfg.mk 8000 60 390 450 (init_framefmt DEF_FRAME_FORMAT 1).1 4 1 0) 10
          (mod_init (modemcfg.mk 8000 60 390 450 (init_framefmt DEF_FRAME_FORMAT 1).1 4 1 0))
          (some 0xC1 :: [])).2.1 = []) :=
  ⟨⟨rfl, by decide, by decide⟩,
    modulate_default_frame [0, 100, 0, -100]
      (modemcfg.mk 8000 60 390 450 (init_framefmt DEF_FRAME_FORMAT 1).1 4 1 0)
      (mod_init (modemcfg.mk 8000 60 390 450 (init_framefmt DEF_FRAME_FORMAT 1).1 4 1 0))
      0xC1 [] rfl (by decide) (by decide)⟩

/-! ## `v23_modulate`: the leader timer -/

theorem modulate_iter_bit_wait (sinebuf : List Int) (m : modemcfg) (s : mod_state)
    (input : List (Option Nat)) :
    (modulate_iter sinebuf m s input).1.bit_wait = s.bit_wait := by
  have hp : (modulate_poll m.ff s input).1.bit_wait = s.bit_wait := by
    unfold modulate_poll
    split
    · split <;> rfl
    · rfl
  have hs : ∀ t : mod_state, (modulate_select m t).bit_wait = t.bit_wait := by
    intro t
    unfold modulate_select
    split <;> rfl
  show (modulate_select m (modulate_poll m.ff s input).1).bit_wait = _
  rw [hs, hp]

/-- The leader timer `bit_wait` of `v23_modulate` is never changed by the transmit loop. -/
theorem modulate_run_bit_wait (sinebuf : List Int) (m : modemcfg) : ∀ (n : Nat)
    (s : mod_state) (input : List (Option Nat)),
    (modulate_run sinebuf m n s input).1.bit_wait = s.bit_wait := by
  intro n
  induction n with
  | zero => intro s input; rfl
  | succ n ih =>
    intro s input
    show (modulate_run sinebuf m n (modulate_iter sinebuf m s input).1
      (modulate_iter sinebuf m s input).2.1).1.bit_wait = _
    rw [ih, modulate_iter_bit_wait]

/-- C21 (failing input): on the forward channel at 44100 Hz, with the byte `0x41` available at
the first `read`, the very first iteration of the transmit loop of `v23_modulate` already
sends the start bit: its 36 samples are at the space frequency 2100 Hz, not at the mark
frequency 1300 Hz, so no sample of leader precedes the frame.  The timer `bit_wait`, set to
`sample_rate` for the leader, still holds 44100 afterwards: the loop never reads it. -/
theorem modulate_no_leader (sinebuf : List Int) :
    (mod_init forward_cfg).bit_wait = 44100 ∧
      (modulate_run sinebuf forward_cfg 1 (mod_init forward_cfg) [some 0x41]).2.2.map
          Prod.fst = [2100] ∧
      (∀ blk ∈ (modulate_run sinebuf forward_cfg 1 (mod_init forward_cfg) [some 0x41]).2.2,
        blk.2.length = 36) ∧
      forward_cfg.mark_freqhz = 1300 ∧
      (modulate_run sinebuf forward_cfg 1 (mod_init forward_cfg) [some 0x41]).1.bit_wait =
        44100 := by
  have hl := modulate_iter_load sinebuf forward_cfg (mod_init forward_cfg) 0x41 []
    (by decide) (by decide)
  obtain ⟨_, _, _, i4, i5⟩ := modulate_iter_pending sinebuf forward_cfg
    { mod_init forward_cfg with
      out_shift := modulate_load forward_cfg.ff 0x41
      bits_in_buffer := forward_cfg.ff.frame_size } [] (by decide)
  rw [← hl] at i4 i5
  have hrun : (modulate_run sinebuf forward_cfg 1 (mod_init forward_cfg) [some 0x41]).2.2 =
      [(modulate_iter sinebuf forward_cfg (mod_init forward_cfg) [some 0x41]).2.2] := rfl
  refine ⟨rfl, ?_, ?_, rfl, ?_⟩
  · rw [hrun, List.map_cons, List.map_nil, i4]
    decide
  · intro blk hb
    rw [hrun, List.mem_singleton] at hb
    rw [hb, i5]
    decide
  · rw [modulate_run_bit_wait]
    rfl

/-! ## `v23_demodulate`: the per-sample loop -/

theorem demod_sample_eq (m : modemcfg) (pp pn : Nat) (s : demod_state) (t o : Int) :
    demod_sample m pp pn s t o =
      if (demod_pre m s t).bit_wait ≤ 0 then
        demod_latch m (demod_pre m s t) (if o > 0 then pp else pn)
      else (demod_pre m s t, []) := rfl

theorem demod_edge_eq (m : modemcfg) (s : demod_state) :
    demod_edge m s =
      if s.line_idle then { s with line_idle := false, bit_wait := s.bit_wait + demod_adj m s }
      else
        { s with
          total_skew := s.total_skew + (if demod_adj m s ≥ 0 then demod_adj m s
            else -demod_adj m s)
          num_transitions := s.num_transitions + 1
          bit_wait := s.bit_wait + skew_correction (demod_adj m s) } := rfl

theorem demod_latch_eq (m : modemcfg) (s : demod_state) (b : Nat) :
    demod_latch m s b =
      ({ demod_reseed m.ff (demod_stage m (demod_hold (demod_shift s b))).1 with
          bit_wait := (demod_reseed m.ff (demod_stage m (demod_hold (demod_shift s b))).1).bit_wait +
            m.samples_per_bit },
        (demod_stage m (demod_hold (demod_shift s b))).2) := by
  have key : (if (demod_shift s b).line_idle then ((demod_shift s b, []) : demod_state × List Nat)
      else if ({ demod_shift s b with frame_hold := (demod_shift s b).frame_hold - 1 } :
          demod_state).frame_hold > 0 then
        ({ demod_shift s b with frame_hold := (demod_shift s b).frame_hold - 1 }, [])
      else if frame_match m.ff ({ demod_shift s b with
          frame_hold := (demod_shift s b).frame_hold - 1 } : demod_state).out_shift then
        demod_frame m { demod_shift s b with frame_hold := (demod_shift s b).frame_hold - 1 }
      else ({ demod_shift s b with frame_hold := (demod_shift s b).frame_hold - 1 }, [])) =
      demod_stage m (demod_hold (demod_shift s b)) := by
    generalize demod_shift s b = u
    unfold demod_stage demod_compares demod_hold
    cases hi : u.line_idle with
    | true => simp [hi]
    | false =>
      by_cases hh : u.frame_hold - 1 > 0
      · have : ¬ (u.frame_hold - 1 ≤ 0) := by omega
        simp [hi, hh, this]
      · have : u.frame_hold - 1 ≤ 0 := by omega
        simp [hi, hh, this]
  rw [← key]
  rfl

theorem demod_shift_fields (s : demod_state) (b : Nat) :
    (demod_shift s b).errcount = s.errcount ∧ (demod_shift s b).errtimeout = s.errtimeout ∧
      (demod_shift s b).frame_hold = s.frame_hold ∧
      (demod_shift s b).num_transitions = s.num_transitions ∧
      (demod_shift s b).total_skew = s.total_skew ∧
      (demod_shift s b).bit_wait = s.bit_wait ∧ (demod_shift s b).state = s.state := by
  unfold demod_shift
  simp only []
  split <;> exact ⟨rfl, rfl, rfl, rfl, rfl, rfl, rfl⟩

theorem demod_shift_idle (s : demod_state) (b : Nat) (h : s.line_idle = true) :
    (demod_shift s b).line_idle = true := by
  unfold demod_shift
  simp only []
  split
  · rfl
  · exact h

theorem demod_hold_fields (s : demod_state) :
    (demod_hold s).errcount = s.errcount ∧ (demod_hold s).errtimeout = s.errtimeout ∧
      (demod_hold s).out_shift = s.out_shift ∧
      (demod_hold s).num_transitions = s.num_transitions ∧
      (demod_hold s).total_skew = s.total_skew ∧
      (demod_hold s).bit_wait = s.bit_wait ∧ (demod_hold s).state = s.state ∧
      (demod_hold s).line_idle = s.line_idle := by
  unfold demod_hold
  split <;> exact ⟨rfl, rfl, rfl, rfl, rfl, rfl, rfl, rfl⟩

theorem demod_frame_fields (m : modemcfg) (s : demod_state) :
    (demod_frame m s).1.line_idle = true ∧ (demod_frame m s).1.out_shift = s.out_shift ∧
      (demod_frame m s).1.frame_hold = s.frame_hold ∧
      (demod_frame m s).1.num_transitions = s.num_transitions ∧
      (demod_frame m s).1.total_skew = s.total_skew := by
  unfold demod_frame
  simp only []
  split_ifs <;> exact ⟨rfl, rfl, rfl, rfl, rfl⟩

theorem demod_stage_idle (m : modemcfg) (s : demod_state) (h : s.line_idle = true) :
    demod_stage m s = (s, []) := by
  unfold demod_stage demod_compares
  simp [h]

theorem demod_stage_fields (m : modemcfg) (s : demod_state) :
    (demod_stage m s).1.out_shift = s.out_shift ∧
      (demod_stage m s).1.frame_hold = s.frame_hold ∧
      (demod_stage m s).1.num_transitions = s.num_transitions ∧
      (demod_stage m s).1.total_skew = s.total_skew ∧
      (demod_stage m s).1.bit_wait = s.bit_wait ∧ (demod_stage m s).1.state = s.state ∧
      (s.line_idle = true → (demod_stage m s).1.line_idle = true) := by
  unfold demod_stage
  split
  · obtain ⟨_, f2, f3, f4, f5⟩ := demod_frame_fields m s
    obtain ⟨k1, k2⟩ := demod_frame_keeps m s
    exact ⟨f2, f3, f4, f5, k1, k2, fun _ => (demod_frame_fields m s).1⟩
  · exact ⟨rfl, rfl, rfl, rfl, rfl, rfl, fun h => h⟩

theorem demod_reseed_idle (f : framefmt) (s : demod_state) (h : s.line_idle = true) :
    (demod_reseed f s).line_idle = true ∧ (demod_reseed f s).total_skew = 0 ∧
      (demod_reseed f s).num_transitions = 0 ∧
      (demod_reseed f s).frame_hold = f.frame_size - 1 ∧
      (demod_reseed f s).errtimeout = (if s.errtimeout > 0 then s.errtimeout - 1
        else s.errtimeout) ∧
      (demod_reseed f s).errcount = (if s.errtimeout > 0 then s.errcount else 0) := by
  unfold demod_reseed
  rw [if_pos h]
  simp only []
  split <;> exact ⟨h, rfl, rfl, rfl, rfl, rfl⟩

theorem demod_reseed_busy (f : framefmt) (s : demod_state) (h : s.line_idle = false) :
    demod_reseed f s = s := by
  unfold demod_reseed
  rw [if_neg (by simp [h])]

theorem demod_pre_no_edge (m : modemcfg) (s : demod_state) (t : Int)
    (h : s.state = (if t > 0 then 1 else 0)) :
    demod_pre m s t = { s with bit_wait := s.bit_wait - 1 } := by
  unfold demod_pre
  simp only []
  rw [if_neg (by simp [h])]
  rw [← h]

theorem demod_latch_idle (m : modemcfg) (s : demod_state) (b : Nat)
    (h : (demod_shift s b).line_idle = true) :
    (demod_latch m s b).2 = [] ∧ (demod_latch m s b).1.line_idle = true ∧
      (demod_latch m s b).1.state = s.state ∧
      (demod_latch m s b).1.errtimeout =
        (if s.errtimeout > 0 then s.errtimeout - 1 else s.errtimeout) ∧
      (demod_latch m s b).1.errcount = (if s.errtimeout > 0 then s.errcount else 0) ∧
      (demod_latch m s b).1.frame_hold = m.ff.frame_size - 1 := by
  have hh : demod_hold (demod_shift s b) = demod_shift s b := by
    unfold demod_hold
    rw [if_pos h]
  obtain ⟨r1, _, _, r4, r5, r6⟩ := demod_reseed_idle m.ff (demod_shift s b) h
  obtain ⟨q1, q2, _⟩ := demod_shift_fields s b
  rw [demod_latch_eq, hh, demod_stage_idle m _ h]
  refine ⟨rfl, r1, ?_, ?_, ?_, r4⟩
  · show (demod_reseed m.ff (demod_shift s b)).state = s.state
    rw [(demod_reseed_keeps _ _).2, (demod_shift_fields s b).2.2.2.2.2.2]
  · show (demod_reseed m.ff (demod_shift s b)).errtimeout = _
    rw [r5, q2]
  · show (demod_reseed m.ff (demod_shift s b)).errcount = _
    rw [r6, q1, q2]

/-- While the timing signal never rises above zero no edge is seen: the line stays idle and
nothing is written. -/
theorem demod_run_quiet (m : modemcfg) (pp pn : Nat) : ∀ (xs : List (Int × Int))
    (s : demod_state), s.state = 0 → s.line_idle = true → (∀ x ∈ xs, x.1 ≤ 0) →
    (demod_run m pp pn s xs).2 = [] ∧ (demod_run m pp pn s xs).1.line_idle = true ∧
      (demod_run m pp pn s xs).1.state = 0 := by
  intro xs
  induction xs with
  | nil => intro s h1 h2 _; exact ⟨rfl, h2, h1⟩
  | cons x xs ih =>
    intro s h1 h2 hx
    have hx0 : x.1 ≤ 0 := hx x (List.mem_cons_self _ _)
    have hst : s.state = (if x.1 > 0 then 1 else 0) := by
      rw [if_neg (by omega)]; exact h1
    have hpre := demod_pre_no_edge m s x.1 hst
    have hstep : (demod_sample m pp pn s x.1 x.2).2 = [] ∧
        (demod_sample m pp pn s x.1 x.2).1.line_idle = true ∧
        (demod_sample m pp pn s x.1 x.2).1.state = 0 := by
      rw [demod_sample_eq, hpre]
      split
      · obtain ⟨l1, l2, l3, _⟩ := demod_latch_idle m { s with bit_wait := s.bit_wait - 1 }
          (if x.2 > 0 then pp else pn) (demod_shift_idle _ _ h2)
        exact ⟨l1, l2, by rw [l3]; exact h1⟩
      · exact ⟨rfl, h2, h1⟩
    obtain ⟨r1, r2, r3⟩ := ih _ hstep.2.2 hstep.2.1
      (fun y hy => hx y (List.mem_cons_of_mem _ hy))
    refine ⟨?_, r2, r3⟩
    show (demod_sample m pp pn s x.1 x.2).2 ++ _ = []
    rw [hstep.1, r1]
    rfl

theorem all_ones_loop (k : Nat) : ∀ ff : framefmt, ff.data_mask = 0 → ff.parity_enable = false →
    ff.data_size = 0 → ff.lsb_first = true →
    (init_framefmt_loop ff (List.replicate k '1')).1.data_mask = 0 ∧
      (init_framefmt_loop ff (List.replicate k '1')).1.parity_enable = false ∧
      (init_framefmt_loop ff (List.replicate k '1')).1.data_size = 0 ∧
      (init_framefmt_loop ff (List.replicate k '1')).1.lsb_first = true := by
  induction k with
  | zero => intro ff h1 h2 h3 h4; exact ⟨h1, h2, h3, h4⟩
  | succ k ih =>
    intro ff h1 h2 h3 h4
    have hs : init_framefmt_step ff '1' =
        ({ ff with
            frame_mask := shl32 ff.frame_mask 1 ||| 1
            frame_pattern := shl32 ff.frame_pattern 1 ||| 1
            parity_mask := shl32 ff.parity_mask 1
            data_mask := shl32 ff.data_mask 1
            data_offset := ff.data_offset + 1
            frame_size := ff.frame_size + 1 }, true) := by
      simp [init_framefmt_step]
    rw [List.replicate_succ, init_framefmt_loop, hs]
    exact ih _ (by simp only []; rw [h1]; decide) h2 h3 h4

theorem all_ones_data (f : framefmt) (os : Nat) (h1 : f.data_mask = 0) (h3 : f.data_size = 0)
    (h4 : f.lsb_first = true) : demod_data f os = 0 := by
  unfold demod_data demod_raw_data
  simp only [h1, h3, h4, Nat.and_zero, Nat.zero_shiftRight]
  decide

theorem all_ones_frame (m : modemcfg) (s : demod_state) (h1 : m.ff.data_mask = 0)
    (h2 : m.ff.parity_enable = false) (h3 : m.ff.data_size = 0) (h4 : m.ff.lsb_first = true) :
    ∀ b ∈ (demod_frame m s).2, b = 0 := by
  have hp : ∀ os, demod_parity_ok m.ff os = true := by
    intro os
    simp [demod_parity_ok, h2]
  have hd := all_ones_data m.ff s.out_shift h1 h3 h4
  unfold demod_frame
  simp only [hp, if_true]
  intro b hb
  split_ifs at hb <;> simp at hb <;> (rw [hb]; exact hd)

theorem all_ones_stage (m : modemcfg) (s : demod_state) (h1 : m.ff.data_mask = 0)
    (h2 : m.ff.parity_enable = false) (h3 : m.ff.data_size = 0) (h4 : m.ff.lsb_first = true) :
    ∀ b ∈ (demod_stage m s).2, b = 0 := by
  intro b hb
  unfold demod_stage at hb
  split at hb
  · exact all_ones_frame m s h1 h2 h3 h4 b hb
  · simp at hb

theorem all_ones_run (m : modemcfg) (pp pn : Nat) (h1 : m.ff.data_mask = 0)
    (h2 : m.ff.parity_enable = false) (h3 : m.ff.data_size = 0) (h4 : m.ff.lsb_first = true) :
    ∀ (xs : List (Int × Int)) (s : demod_state), ∀ b ∈ (demod_run m pp pn s xs).2, b = 0 := by
  intro xs
  induction xs with
  | nil => intro s b hb; simp [demod_run] at hb
  | cons x xs ih =>
    intro s b hb
    have hb2 : b ∈ (demod_sample m pp pn s x.1 x.2).2 ++
        (demod_run m pp pn (demod_sample m pp pn s x.1 x.2).1 xs).2 := hb
    rcases List.mem_append.mp hb2 with h | h
    · rw [demod_sample_eq] at h
      by_cases hl : (demod_pre m s x.1).bit_wait ≤ 0
      · rw [if_pos hl, demod_latch_eq] at h
        exact all_ones_stage m _ h1 h2 h3 h4 b h
      · rw [if_neg hl] at h
        simp at h
    · exact ih _ b h

theorem all_stop_first_bit :
    demod_bits all_stop_cfg (demod_init all_stop_cfg) [1] =
      ({ errcount := 0, errtimeout := 0, out_shift := 7, frame_hold := 1, num_transitions := 0,
         total_skew := 0, bit_wait := 36, state := 0, line_idle := true }, []) := by
  decide

/-- C22 (as stated, refuted): with the pattern `111` on the forward channel, a stream of mark
samples (every latched bit is a one) whose timing signal turns positive after the first bit
period takes the line out of idle, and the second latched one completes a frame of ones: the
byte `0x00` is written. -/
theorem all_stop_emits_byte :
    (demod_run all_stop_cfg 1 0 (demod_init all_stop_cfg)
        (bit_samples 36 (-1) [1] ++ [((1 : Int), (1000 : Int))])).1.line_idle = false ∧
      (demod_run all_stop_cfg 1 0 (demod_init all_stop_cfg)
        (bit_samples 36 (-1) [1] ++ bit_samples 36 1 [1])).2 = [0] := by
  have h1 : demod_run all_stop_cfg 1 0 (demod_init all_stop_cfg) (bit_samples 36 (-1) [1]) =
      demod_bits all_stop_cfg (demod_init all_stop_cfg) [1] :=
    demod_run_bits all_stop_cfg (-1) 35 rfl [1] (demod_init all_stop_cfg) rfl rfl
  rw [all_stop_first_bit] at h1
  constructor
  · rw [demod_run_append, h1]
    decide
  · rw [demod_run_append, h1]
    simp only []
    rw [demod_run_bits_edge all_stop_cfg 1 34 rfl 1 [] _ rfl (by decide) rfl]
    decide

/-- C22 (amended): with a frame pattern made of `k` characters `1` only, the framing state
machine, started in its initial state, keeps the line idle and writes nothing on every sample
stream whose timing signal never rises above zero, so that no edge is seen; and on every
sample stream whatsoever each byte it writes is `0x00`. -/
theorem all_stop_pattern (k : Nat) (m : modemcfg) (pp pn : Nat) (xs : List (Int × Int))
    (hff : m.ff = (init_framefmt (List.replicate k '1') 1).1) :
    ((∀ x ∈ xs, x.1 ≤ 0) →
        (demod_run m pp pn (demod_init m) xs).2 = [] ∧
          (demod_run m pp pn (demod_init m) xs).1.line_idle = true) ∧
      ∀ b ∈ (demod_run m pp pn (demod_init m) xs).2, b = 0 := by
  obtain ⟨a1, a2, a3, a4⟩ := all_ones_loop k (framefmt_init 1) rfl rfl rfl rfl
  have e : (init_framefmt (List.replicate k '1') 1).1 =
      (init_framefmt_loop (framefmt_init 1) (List.replicate k '1')).1 := rfl
  rw [← e, ← hff] at a1 a2 a3 a4
  refine ⟨fun hx => ?_, all_ones_run m pp pn a1 a2 a3 a4 xs (demod_init m)⟩
  obtain ⟨q1, q2, _⟩ := demod_run_quiet m pp pn xs (demod_init m) rfl rfl hx
  exact ⟨q1, q2⟩

theorem all_stop_pattern_witness :
    all_stop_cfg.ff = (init_framefmt (List.replicate 3 '1') 1).1 ∧
      (((∀ x ∈ bit_samples 36 (-1) [1, 0, 1], x.1 ≤ 0) →
          (demod_run all_stop_cfg 1 0 (demod_init all_stop_cfg)
              (bit_samples 36 (-1) [1, 0, 1])).2 = [] ∧
            (demod_run all_stop_cfg 1 0 (demod_init all_stop_cfg)
              (bit_samples 36 (-1) [1, 0, 1])).1.line_idle = true) ∧
        ∀ b ∈ (demod_run all_stop_cfg 1 0 (demod_init all_stop_cfg)
          (bit_samples 36 (-1) [1, 0, 1])).2, b = 0) :=
  ⟨rfl, all_stop_pattern 3 all_stop_cfg 1 0 (bit_samples 36 (-1) [1, 0, 1]) rfl⟩

theorem ite_some_eq {α : Type} (p : Prop) [Decidable p] (a c : α)
    (h : (if p then some a else none) = some c) : p ∧ a = c := by
  by_cases hp : p
  · rw [if_pos hp] at h
    exact ⟨hp, Option.some.inj h⟩
  · rw [if_neg hp] at h
    exact absurd h (by simp)

theorem demod_edge_fields (m : modemcfg) (u : demod_state) :
    (demod_edge m u).errcount = u.errcount ∧ (demod_edge m u).errtimeout = u.errtimeout ∧
      (demod_edge m u).frame_hold = u.frame_hold ∧ (demod_edge m u).out_shift = u.out_shift ∧
      (demod_edge m u).state = u.state := by
  rw [demod_edge_eq]
  cases u.line_idle <;> exact ⟨rfl, rfl, rfl, rfl, rfl⟩

theorem demod_pre_eq (m : modemcfg) (s : demod_state) (t : Int) :
    demod_pre m s t =
      if s.state ≠ (if t > 0 then 1 else 0) then
        { demod_edge m { s with state := if t > 0 then 1 else 0 } with
          bit_wait := (demod_edge m { s with state := if t > 0 then 1 else 0 }).bit_wait - 1 }
      else { s with state := if t > 0 then 1 else 0, bit_wait := s.bit_wait - 1 } := by
  unfold demod_pre
  simp only []
  by_cases h : s.state ≠ (if t > 0 then 1 else 0)
  · rw [if_pos h, if_pos h]
  · rw [if_neg h, if_neg h]

theorem demod_pre_fields (m : modemcfg) (s : demod_state) (t : Int) :
    (demod_pre m s t).errcount = s.errcount ∧ (demod_pre m s t).errtimeout = s.errtimeout ∧
      (demod_pre m s t).frame_hold = s.frame_hold ∧
      (demod_pre m s t).out_shift = s.out_shift ∧
      (demod_pre m s t).state = (if t > 0 then 1 else 0) := by
  rw [demod_pre_eq]
  generalize (if t > 0 then (1 : Int) else 0) = st
  by_cases h : s.state ≠ st
  · rw [if_pos h]
    obtain ⟨e1, e2, e3, e4, e5⟩ := demod_edge_fields m { s with state := st }
    exact ⟨e1, e2, e3, e4, e5⟩
  · rw [if_neg h]
    exact ⟨rfl, rfl, rfl, rfl, rfl⟩

theorem demod_edge_skew (m : modemcfg) (u : demod_state) :
    (demod_edge m u).total_skew =
        (if u.line_idle = false then u.total_skew + (Int.natAbs (demod_adj m u) : Int)
          else u.total_skew) ∧
      (demod_edge m u).num_transitions =
        (if u.line_idle = false then u.num_transitions + 1 else u.num_transitions) := by
  rw [demod_edge_eq]
  by_cases hi : u.line_idle = true
  · have hn : ¬ (u.line_idle = false) := by simp [hi]
    simp only [if_pos hi, if_neg hn]
    exact ⟨trivial, trivial⟩
  · have hn : u.line_idle = false := by simpa using hi
    simp only [if_neg hi, if_pos hn]
    refine ⟨?_, trivial⟩
    split <;> omega

theorem demod_pre_skew (m : modemcfg) (s : demod_state) (t : Int) :
    (demod_pre m s t).total_skew =
        (if s.state ≠ (if t > 0 then 1 else 0) ∧ s.line_idle = false then
          s.total_skew + (Int.natAbs (demod_adj m s) : Int) else s.total_skew) ∧
      (demod_pre m s t).num_transitions =
        (if s.state ≠ (if t > 0 then 1 else 0) ∧ s.line_idle = false then
          s.num_transitions + 1 else s.num_transitions) := by
  rw [demod_pre_eq]
  generalize (if t > 0 then (1 : Int) else 0) = st
  by_cases he : s.state ≠ st
  · obtain ⟨e1, e2⟩ := demod_edge_skew m { s with state := st }
    rw [if_pos he]
    by_cases hi : s.line_idle = false
    · simp only [if_pos (And.intro he hi)]
      rw [if_pos (show ({ s with state := st } : demod_state).line_idle = false from hi)] at e1 e2
      exact ⟨e1, e2⟩
    · simp only [if_neg (fun h : s.state ≠ st ∧ s.line_idle = false => hi h.2)]
      rw [if_neg (show ¬ (({ s with state := st } : demod_state).line_idle = false) from hi)]
        at e1 e2
      exact ⟨e1, e2⟩
  · simp only [if_neg he, if_neg (fun h : s.state ≠ st ∧ s.line_idle = false => he h.1)]
    exact ⟨trivial, trivial⟩

theorem demod_latch_skew (m : modemcfg) (s : demod_state) (b : Nat) :
    (demod_latch m s b).1.total_skew =
        (if (demod_latch m s b).1.line_idle = true then 0 else s.total_skew) ∧
      (demod_latch m s b).1.num_transitions =
        (if (demod_latch m s b).1.line_idle = true then 0 else s.num_transitions) := by
  rw [demod_latch_eq]
  simp only []
  obtain ⟨_, _, g3, g4, _⟩ := demod_stage_fields m (demod_hold (demod_shift s b))
  obtain ⟨_, _, _, h4, h5, _⟩ := demod_hold_fields (demod_shift s b)
  obtain ⟨_, _, _, s4, s5, _⟩ := demod_shift_fields s b
  cases hi : (demod_stage m (demod_hold (demod_shift s b))).1.line_idle with
  | true =>
    obtain ⟨r1, r2, r3, _⟩ := demod_reseed_idle m.ff _ hi
    rw [r1, r2, r3]
    exact ⟨rfl, rfl⟩
  | false =>
    rw [demod_reseed_busy m.ff _ hi, hi, g3, g4, h4, h5, s4, s5]
    exact ⟨rfl, rfl⟩

theorem skew_log_edge_sum (m : modemcfg) (s : demod_state) (log : List Int) (t : Int)
    (h1 : s.total_skew = (log.map (fun a => (Int.natAbs a : Int))).sum)
    (h2 : s.num_transitions = log.length) :
    (demod_pre m s t).total_skew =
        ((skew_log_edge m s log t).map (fun a => (Int.natAbs a : Int))).sum ∧
      (demod_pre m s t).num_transitions = (skew_log_edge m s log t).length := by
  obtain ⟨p1, p2⟩ := demod_pre_skew m s t
  rw [p1, p2]
  unfold skew_log_edge
  by_cases h : s.state ≠ (if t > 0 then 1 else 0) ∧ s.line_idle = false
  · simp only [if_pos h]
    rw [List.map_append, List.sum_append, List.length_append, h1, h2]
    simp
  · simp only [if_neg h]
    exact ⟨h1, h2⟩

theorem skew_log_step_sum (m : modemcfg) (pp pn : Nat) (s : demod_state) (log : List Int)
    (x : Int × Int)
    (h1 : s.total_skew = (log.map (fun a => (Int.natAbs a : Int))).sum)
    (h2 : s.num_transitions = log.length) :
    (demod_sample m pp pn s x.1 x.2).1.total_skew =
        ((skew_log_step m pp pn s log x).map (fun a => (Int.natAbs a : Int))).sum ∧
      (demod_sample m pp pn s x.1 x.2).1.num_transitions =
        (skew_log_step m pp pn s log x).length := by
  obtain ⟨e1, e2⟩ := skew_log_edge_sum m s log x.1 h1 h2
  unfold skew_log_step
  by_cases hl : (demod_pre m s x.1).bit_wait ≤ 0
  · have hs : demod_sample m pp pn s x.1 x.2 =
        demod_latch m (demod_pre m s x.1) (if x.2 > 0 then pp else pn) := by
      rw [demod_sample_eq, if_pos hl]
    obtain ⟨l1, l2⟩ := demod_latch_skew m (demod_pre m s x.1) (if x.2 > 0 then pp else pn)
    rw [hs, l1, l2]
    by_cases hi : (demod_latch m (demod_pre m s x.1) (if x.2 > 0 then pp else pn)).1.line_idle
        = true
    · rw [if_pos hi, if_pos hi, if_pos ⟨hl, hi⟩]
      exact ⟨rfl, rfl⟩
    · rw [if_neg hi, if_neg hi, if_neg (fun h => hi h.2)]
      exact ⟨e1, e2⟩
  · have hs : demod_sample m pp pn s x.1 x.2 = (demod_pre m s x.1, []) := by
      rw [demod_sample_eq, if_neg hl]
    rw [hs, if_neg (fun h => hl h.1)]
    exact ⟨e1, e2⟩

theorem skew_log_sum (m : modemcfg) (pp pn : Nat) : ∀ (xs : List (Int × Int))
    (s : demod_state) (log : List Int),
    s.total_skew = (log.map (fun a => (Int.natAbs a : Int))).sum →
    s.num_transitions = log.length →
    (demod_run m pp pn s xs).1.total_skew =
        ((skew_log m pp pn s log xs).map (fun a => (Int.natAbs a : Int))).sum ∧
      (demod_run m pp pn s xs).1.num_transitions = (skew_log m pp pn s log xs).length := by
  intro xs
  induction xs with
  | nil => intro s log h1 h2; exact ⟨h1, h2⟩
  | cons x xs ih =>
    intro s log h1 h2
    obtain ⟨e1, e2⟩ := skew_log_step_sum m pp pn s log x h1 h2
    exact ih _ _ e1 e2

theorem list_natAbs_sum_nonneg (log : List Int) :
    0 ≤ (log.map (fun a => (Int.natAbs a : Int))).sum := by
  induction log with
  | nil => simp
  | cons a l ih =>
    rw [List.map_cons, List.sum_cons]
    omega

theorem demod_avg_skew_le (s : demod_state) (h1 : 0 ≤ s.total_skew)
    (h2 : 0 ≤ s.num_transitions) :
    demod_avg_skew s =
        (if s.num_transitions = 0 then 0 else Int.tdiv s.total_skew s.num_transitions) ∧
      demod_avg_skew s * s.num_transitions ≤ s.total_skew := by
  unfold demod_avg_skew
  by_cases h : s.num_transitions > 0
  · rw [if_pos h, if_neg (by omega), Int.tdiv_eq_ediv h1 (by omega)]
    exact ⟨rfl, Int.ediv_mul_le _ (by omega)⟩
  · have h0 : s.num_transitions = 0 := by omega
    rw [if_neg h, if_pos h0]
    exact ⟨rfl, by rw [h0]; simpa using h1⟩

/-- C23: skew tracking.  Whenever the demodulator, started in its initial state, enters the
frame branch with the locals `c` while it handles a sample `x` after the samples `xs`,
`c.total_skew` is the sum of `|adj|` over the edges counted since the last reseed,
`c.num_transitions` is the number of those edges, the average used is 0 when
`num_transitions = 0` and `total_skew / num_transitions` otherwise, and
`avg_skew * num_transitions ≤ total_skew`. -/
theorem skew_tracking (m : modemcfg) (pp pn : Nat) (xs : List (Int × Int)) (x : Int × Int)
    (c : demod_state)
    (hc : demod_candidate m pp pn (demod_run m pp pn (demod_init m) xs).1 x = some c) :
    c.total_skew =
        ((skew_log_edge m (demod_run m pp pn (demod_init m) xs).1
          (skew_log m pp pn (demod_init m) [] xs) x.1).map
            (fun a => (Int.natAbs a : Int))).sum ∧
      c.num_transitions =
        (skew_log_edge m (demod_run m pp pn (demod_init m) xs).1
          (skew_log m pp pn (demod_init m) [] xs) x.1).length ∧
      demod_avg_skew c =
        (if c.num_transitions = 0 then 0 else Int.tdiv c.total_skew c.num_transitions) ∧
      demod_avg_skew c * c.num_transitions ≤ c.total_skew := by
  obtain ⟨r1, r2⟩ := skew_log_sum m pp pn xs (demod_init m) [] rfl rfl
  obtain ⟨e1, e2⟩ := skew_log_edge_sum m _ _ x.1 r1 r2
  have hceq : c = demod_hold (demod_shift (demod_pre m (demod_run m pp pn (demod_init m) xs).1
      x.1) (if x.2 > 0 then pp else pn)) := by
    exact (ite_some_eq _ _ _ hc).2.symm
  have t1 : c.total_skew = (demod_pre m (demod_run m pp pn (demod_init m) xs).1 x.1).total_skew := by
    rw [hceq, (demod_hold_fields _).2.2.2.2.1, (demod_shift_fields _ _).2.2.2.2.1]
  have t2 : c.num_transitions =
      (demod_pre m (demod_run m pp pn (demod_init m) xs).1 x.1).num_transitions := by
    rw [hceq, (demod_hold_fields _).2.2.2.1, (demod_shift_fields _ _).2.2.2.1]
  have n1 : 0 ≤ c.total_skew := by rw [t1, e1]; exact list_natAbs_sum_nonneg _
  have n2 : 0 ≤ c.num_transitions := by rw [t2, e2]; positivity
  obtain ⟨a1, a2⟩ := demod_avg_skew_le c n1 n2
  exact ⟨by rw [t1, e1], by rw [t2, e2], a1, a2⟩

set_option maxRecDepth 1000000 in
theorem skewed_frame_candidate_eq :
    demod_candidate short_bit_cfg 1 0
        (demod_run short_bit_cfg 1 0 (demod_init short_bit_cfg) skewed_frame_samples).1
        (1, 1000) = some skewed_frame_candidate := by
  decide

theorem skew_tracking_witness :
    demod_candidate short_bit_cfg 1 0
        (demod_run short_bit_cfg 1 0 (demod_init short_bit_cfg) skewed_frame_samples).1
        (1, 1000) = some skewed_frame_candidate ∧
    (skewed_frame_candidate.total_skew =
        ((skew_log_edge short_bit_cfg
          (demod_run short_bit_cfg 1 0 (demod_init short_bit_cfg) skewed_frame_samples).1
          (skew_log short_bit_cfg 1 0 (demod_init short_bit_cfg) [] skewed_frame_samples)
          1).map (fun a => (Int.natAbs a : Int))).sum ∧
      skewed_frame_candidate.num_transitions =
        (skew_log_edge short_bit_cfg
          (demod_run short_bit_cfg 1 0 (demod_init short_bit_cfg) skewed_frame_samples).1
          (skew_log short_bit_cfg 1 0 (demod_init short_bit_cfg) [] skewed_frame_samples)
          1).length ∧
      demod_avg_skew skewed_frame_candidate =
        (if skewed_frame_candidate.num_transitions = 0 then 0
          else Int.tdiv skewed_frame_candidate.total_skew
            skewed_frame_candidate.num_transitions) ∧
      demod_avg_skew skewed_frame_candidate * skewed_frame_candidate.num_transitions ≤
        skewed_frame_candidate.total_skew) :=
  ⟨skewed_frame_candidate_eq,
    skew_tracking short_bit_cfg 1 0 skewed_frame_samples (1, 1000) skewed_frame_candidate
      skewed_frame_candidate_eq⟩

theorem demod_frame_err (m : modemcfg) (s : demod_state) :
    ((demod_frame m s).1.errcount = s.errcount + 1 ∧
        (demod_frame m s).1.errtimeout = 10 * m.ff.frame_size) ∨
      ((demod_frame m s).1.errcount = (if s.errcount > 0 then s.errcount - 1 else s.errcount) ∧
        (demod_frame m s).1.errtimeout = s.errtimeout) := by
  unfold demod_frame
  simp only []
  by_cases h1 : demod_avg_skew s > m.max_skew
  · rw [if_pos h1]
    exact Or.inl ⟨rfl, rfl⟩
  · rw [if_neg h1]
    by_cases h2 : demod_parity_ok m.ff s.out_shift = true
    · rw [if_pos h2]
      refine Or.inr ?_
      by_cases h3 : s.errcount > 0
      · simp only [if_pos h3]
        split <;> exact ⟨rfl, rfl⟩
      · simp only [if_neg h3]
        split <;> exact ⟨rfl, rfl⟩
    · rw [if_neg h2]
      refine Or.inl ?_
      split <;> exact ⟨rfl, rfl⟩

theorem demod_sample_err (m : modemcfg) (pp pn : Nat) (s : demod_state) (x : Int × Int)
    (h0 : 0 ≤ s.errcount) : 0 ≤ (demod_sample m pp pn s x.1 x.2).1.errcount := by
  obtain ⟨p1, _⟩ := demod_pre_fields m s x.1
  rw [demod_sample_eq]
  by_cases hl : (demod_pre m s x.1).bit_wait ≤ 0
  · rw [if_pos hl, demod_latch_eq]
    show 0 ≤ (demod_reseed m.ff (demod_stage m (demod_hold (demod_shift (demod_pre m s x.1)
      (if x.2 > 0 then pp else pn)))).1).errcount
    generalize hu : demod_hold (demod_shift (demod_pre m s x.1)
      (if x.2 > 0 then pp else pn)) = u
    have hu0 : 0 ≤ u.errcount := by
      rw [← hu, (demod_hold_fields _).1, (demod_shift_fields _ _).1, p1]
      exact h0
    have hst : 0 ≤ (demod_stage m u).1.errcount := by
      unfold demod_stage
      by_cases hc : (demod_compares u && frame_match m.ff u.out_shift) = true
      · rw [if_pos hc]
        rcases demod_frame_err m u with ⟨e, _⟩ | ⟨e, _⟩
        · rw [e]; omega
        · rw [e]; split <;> omega
      · rw [if_neg hc]
        exact hu0
    cases hi : (demod_stage m u).1.line_idle with
    | true =>
      rw [(demod_reseed_idle m.ff _ hi).2.2.2.2.2]
      split
      · exact hst
      · exact le_refl 0
    | false =>
      rw [demod_reseed_busy m.ff _ hi]
      exact hst
  · rw [if_neg hl, p1]
    exact h0

/-- The error counter of the demodulator is never negative. -/
theorem demod_run_err (m : modemcfg) (pp pn : Nat) : ∀ (xs : List (Int × Int))
    (s : demod_state), 0 ≤ s.errcount → 0 ≤ (demod_run m pp pn s xs).1.errcount := by
  intro xs
  induction xs with
  | nil => intro s h; exact h
  | cons x xs ih =>
    intro s h
    exact ih _ (demod_sample_err m pp pn s x h)

theorem demod_candidate_sample (m : modemcfg) (pp pn : Nat) (s : demod_state) (x : Int × Int)
    (c : demod_state) (hc : demod_candidate m pp pn s x = some c) :
    c = demod_hold (demod_shift (demod_pre m s x.1) (if x.2 > 0 then pp else pn)) ∧
      (demod_sample m pp pn s x.1 x.2).2 = (demod_frame m c).2 ∧
      (demod_sample m pp pn s x.1 x.2).1.line_idle = true := by
  obtain ⟨⟨h1, h2, h3⟩, h4⟩ := ite_some_eq _ _ _ hc
  have hst : demod_stage m c = demod_frame m c := by
    unfold demod_stage
    rw [← h4, h2, h3]
    rfl
  rw [demod_sample_eq, if_pos h1, demod_latch_eq, h4, hst]
  refine ⟨rfl, rfl, ?_⟩
  exact (demod_reseed_idle m.ff _ (demod_frame_fields m c).1).1

/-- C24: clean-frame hysteresis.  When the demodulator, started in its initial state, enters
the frame branch with the locals `c` and the frame passes the skew check and the parity check
(which it does when parity is disabled), the frame handler leaves `errcount` one lower if it
was positive and at 0 otherwise, never negative, and the sample writes the decoded byte iff
that new `errcount` is below `ERROR_LIMIT = 3`, and writes nothing otherwise. -/
theorem clean_frame_hysteresis (m : modemcfg) (pp pn : Nat) (xs : List (Int × Int))
    (x : Int × Int) (c : demod_state)
    (hc : demod_candidate m pp pn (demod_run m pp pn (demod_init m) xs).1 x = some c)
    (hskew : ¬ demod_avg_skew c > m.max_skew)
    (hpar : demod_parity_ok m.ff c.out_shift = true) :
    0 ≤ c.errcount ∧
      (demod_frame m c).1.errcount = (if c.errcount > 0 then c.errcount - 1 else 0) ∧
      0 ≤ (demod_frame m c).1.errcount ∧
      (demod_sample m pp pn (demod_run m pp pn (demod_init m) xs).1 x.1 x.2).2 =
        (if (demod_frame m c).1.errcount < 3 then [demod_data m.ff c.out_shift] else []) ∧
      ERROR_LIMIT = 3 := by
  obtain ⟨e1, e2, _⟩ := demod_candidate_sample m pp pn _ x c hc
  have h0 : 0 ≤ c.errcount := by
    rw [e1, (demod_hold_fields _).1, (demod_shift_fields _ _).1, (demod_pre_fields _ _ _).1]
    exact demod_run_err m pp pn xs (demod_init m) (le_refl 0)
  have hval : (if c.errcount > 0 then c.errcount - 1 else c.errcount) =
      (if c.errcount > 0 then c.errcount - 1 else 0) := by
    by_cases h3 : c.errcount > 0
    · rw [if_pos h3, if_pos h3]
    · rw [if_neg h3, if_neg h3]; omega
  have hf : demod_frame m c =
      (if (if c.errcount > 0 then c.errcount - 1 else c.errcount) < ERROR_LIMIT then
        ({ c with line_idle := true,
                  errcount := if c.errcount > 0 then c.errcount - 1 else c.errcount },
          [demod_data m.ff c.out_shift])
      else
        ({ c with line_idle := true,
                  errcount := if c.errcount > 0 then c.errcount - 1 else c.errcount }, [])) := by
    unfold demod_frame
    simp only []
    rw [if_neg hskew, if_pos hpar]
    by_cases h3 : c.errcount > 0
    · simp only [if_pos h3]
    · simp only [if_neg h3]
  have hnn : 0 ≤ (if c.errcount > 0 then c.errcount - 1 else c.errcount) := by
    by_cases h3 : c.errcount > 0
    · rw [if_pos h3]; omega
    · rw [if_neg h3]; exact h0
  generalize (if c.errcount > 0 then c.errcount - 1 else c.errcount) = e at hf hval hnn
  have hcnt : (demod_frame m c).1.errcount = e := by
    rw [hf]
    by_cases h : e < ERROR_LIMIT
    · rw [if_pos h]
    · rw [if_neg h]
  refine ⟨h0, by rw [hcnt, hval], by rw [hcnt]; exact hnn, ?_, rfl⟩
  rw [e2, hcnt, hf]
  by_cases h : e < ERROR_LIMIT
  · rw [if_pos h, if_pos (show e < 3 from h)]
  · rw [if_neg h, if_neg (show ¬ e < 3 from h)]

theorem clean_frame_hysteresis_witness :
    (demod_candidate short_bit_cfg 1 0
          (demod_run short_bit_cfg 1 0 (demod_init short_bit_cfg) skewed_frame_samples).1
          (1, 1000) = some skewed_frame_candidate ∧
        ¬ demod_avg_skew skewed_frame_candidate > short_bit_cfg.max_skew ∧
        demod_parity_ok short_bit_cfg.ff skewed_frame_candidate.out_shift = true) ∧
      (0 ≤ skewed_frame_candidate.errcount ∧
        (demod_frame short_bit_cfg skewed_frame_candidate).1.errcount =
          (if skewed_frame_candidate.errcount > 0 then skewed_frame_candidate.errcount - 1
            else 0) ∧
        0 ≤ (demod_frame short_bit_cfg skewed_frame_candidate).1.errcount ∧
        (demod_sample short_bit_cfg 1 0
            (demod_run short_bit_cfg 1 0 (demod_init short_bit_cfg) skewed_frame_samples).1
            1 1000).2 =
          (if (demod_frame short_bit_cfg skewed_frame_candidate).1.errcount < 3 then
            [demod_data short_bit_cfg.ff skewed_frame_candidate.out_shift] else []) ∧
        ERROR_LIMIT = 3) :=
  ⟨⟨skewed_frame_candidate_eq, by decide, by decide⟩,
    clean_frame_hysteresis short_bit_cfg 1 0 skewed_frame_samples (1, 1000)
      skewed_frame_candidate skewed_frame_candidate_eq (by decide) (by decide)⟩

theorem demod_latches_append (m : modemcfg) (pp pn : Nat) (xs ys : List (Int × Int)) :
    ∀ s, demod_latches m pp pn s (xs ++ ys) =
      demod_latches m pp pn s xs ++ demod_latches m pp pn (demod_run m pp pn s xs).1 ys := by
  induction xs with
  | nil => intro s; rfl
  | cons x xs ih =>
    intro s
    show _ ++ demod_latches m pp pn _ (xs ++ ys) = (_ ++ demod_latches m pp pn _ xs) ++ _
    rw [ih, List.append_assoc]
    rfl

/-- A sample that latches no bit, or latches one that finds the line idle, writes nothing and
lets the error timeout run down: what it does to `errcount` and `errtimeout`. -/
theorem demod_sample_idle_err (m : modemcfg) (pp pn : Nat) (s : demod_state) (x : Int × Int)
    (hidle : ∀ l ∈ demod_latches m pp pn s [x], l.line_idle = true) :
    ((demod_latches m pp pn s [x]).length = 0 ∧
        (demod_sample m pp pn s x.1 x.2).1.errcount = s.errcount ∧
        (demod_sample m pp pn s x.1 x.2).1.errtimeout = s.errtimeout) ∨
      ((demod_latches m pp pn s [x]).length = 1 ∧
        (demod_sample m pp pn s x.1 x.2).1.errcount =
          (if s.errtimeout > 0 then s.errcount else 0) ∧
        (demod_sample m pp pn s x.1 x.2).1.errtimeout =
          (if s.errtimeout > 0 then s.errtimeout - 1 else s.errtimeout)) := by
  obtain ⟨p1, p2, _⟩ := demod_pre_fields m s x.1
  have hl : demod_latches m pp pn s [x] =
      (if (demod_pre m s x.1).bit_wait ≤ 0 then
        [demod_shift (demod_pre m s x.1) (if x.2 > 0 then pp else pn)] else []) ++ [] := rfl
  rw [List.append_nil] at hl
  rw [demod_sample_eq]
  by_cases hw : (demod_pre m s x.1).bit_wait ≤ 0
  · rw [if_pos hw] at hl ⊢
    have hi := hidle _ (by rw [hl]; exact List.mem_singleton_self _)
    obtain ⟨_, _, _, l4, l5, _⟩ := demod_latch_idle m (demod_pre m s x.1)
      (if x.2 > 0 then pp else pn) hi
    refine Or.inr ⟨by rw [hl]; rfl, ?_, ?_⟩
    · rw [l5, p1, p2]
    · rw [l4, p2]
  · rw [if_neg hw] at hl ⊢
    exact Or.inl ⟨by rw [hl]; rfl, p1, p2⟩

theorem demod_run_idle_err (m : modemcfg) (pp pn : Nat) : ∀ (xs : List (Int × Int))
    (s : demod_state), 0 ≤ s.errtimeout →
    (∀ l ∈ demod_latches m pp pn s xs, l.line_idle = true) →
    (demod_run m pp pn s xs).1.errcount =
        (if ((demod_latches m pp pn s xs).length : Int) ≤ s.errtimeout then s.errcount
          else 0) ∧
      (demod_run m pp pn s xs).1.errtimeout =
        max (s.errtimeout - ((demod_latches m pp pn s xs).length : Int)) 0 := by
  intro xs
  induction xs with
  | nil =>
    intro s h0 _
    refine ⟨?_, ?_⟩
    · show s.errcount = if ((0 : Nat) : Int) ≤ s.errtimeout then s.errcount else 0
      rw [if_pos (by simpa using h0)]
    · show s.errtimeout = max (s.errtimeout - ((0 : Nat) : Int)) 0
      simp only [Nat.cast_zero, sub_zero]
      omega
  | cons x xs ih =>
    intro s h0 hidle
    have happ := demod_latches_append m pp pn [x] xs s
    have hs1 : (demod_run m pp pn s [x]).1 = (demod_sample m pp pn s x.1 x.2).1 := rfl
    rw [hs1] at happ
    have hcons : x :: xs = [x] ++ xs := rfl
    rw [← hcons] at happ
    have hi1 : ∀ l ∈ demod_latches m pp pn s [x], l.line_idle = true :=
      fun l hl => hidle l (by rw [happ]; exact List.mem_append_left _ hl)
    have hi2 : ∀ l ∈ demod_latches m pp pn (demod_sample m pp pn s x.1 x.2).1 xs,
        l.line_idle = true :=
      fun l hl => hidle l (by rw [happ]; exact List.mem_append_right _ hl)
    have hrun : demod_run m pp pn s (x :: xs) =
        ((demod_run m pp pn (demod_sample m pp pn s x.1 x.2).1 xs).1,
          (demod_sample m pp pn s x.1 x.2).2 ++
            (demod_run m pp pn (demod_sample m pp pn s x.1 x.2).1 xs).2) := rfl
    rw [hrun, happ, List.length_append]
    simp only []
    generalize hk : (demod_latches m pp pn (demod_sample m pp pn s x.1 x.2).1 xs).length = k
      at *
    rcases demod_sample_idle_err m pp pn s x hi1 with ⟨a1, a2, a3⟩ | ⟨a1, a2, a3⟩
    · obtain ⟨r1, r2⟩ := ih _ (by rw [a3]; exact h0) hi2
      rw [hk] at r1 r2
      rw [r1, r2, a1, a2, a3]
      simp only [Nat.cast_add, Nat.cast_zero, zero_add]
      exact ⟨trivial, trivial⟩
    · have h0' : 0 ≤ (demod_sample m pp pn s x.1 x.2).1.errtimeout := by
        rw [a3]; split <;> omega
      obtain ⟨r1, r2⟩ := ih _ h0' hi2
      rw [hk] at r1 r2
      rw [r1, r2, a1, a2, a3]
      simp only [Nat.cast_add, Nat.cast_one]
      by_cases ht : s.errtimeout > 0
      · simp only [if_pos ht]
        refine ⟨?_, by omega⟩
        by_cases hkt : (k : Int) ≤ s.errtimeout - 1
        · rw [if_pos hkt, if_pos (show (1 : Int) + k ≤ s.errtimeout by omega)]
        · rw [if_neg hkt, if_neg (show ¬ ((1 : Int) + k ≤ s.errtimeout) by omega)]
      · simp only [if_neg ht]
        refine ⟨?_, by omega⟩
        have hc : ¬ ((1 : Int) + k ≤ s.errtimeout) := by omega
        rw [if_neg hc]
        by_cases hkt : (k : Int) ≤ s.errtimeout
        · rw [if_pos hkt]
        · rw [if_neg hkt]

theorem demod_sample_timeout (m : modemcfg) (pp pn : Nat) (s : demod_state) (x : Int × Int)
    (hfs : 0 ≤ m.ff.frame_size)
    (h0 : 0 ≤ s.errtimeout ∧ s.errtimeout ≤ 10 * m.ff.frame_size) :
    0 ≤ (demod_sample m pp pn s x.1 x.2).1.errtimeout ∧
      (demod_sample m pp pn s x.1 x.2).1.errtimeout ≤ 10 * m.ff.frame_size := by
  obtain ⟨_, p2, _⟩ := demod_pre_fields m s x.1
  rw [demod_sample_eq]
  by_cases hl : (demod_pre m s x.1).bit_wait ≤ 0
  · rw [if_pos hl, demod_latch_eq]
    show 0 ≤ (demod_reseed m.ff (demod_stage m (demod_hold (demod_shift (demod_pre m s x.1)
        (if x.2 > 0 then pp else pn)))).1).errtimeout ∧
      (demod_reseed m.ff (demod_stage m (demod_hold (demod_shift (demod_pre m s x.1)
        (if x.2 > 0 then pp else pn)))).1).errtimeout ≤ 10 * m.ff.frame_size
    generalize hu : demod_hold (demod_shift (demod_pre m s x.1)
      (if x.2 > 0 then pp else pn)) = u
    have hu0 : 0 ≤ u.errtimeout ∧ u.errtimeout ≤ 10 * m.ff.frame_size := by
      rw [← hu, (demod_hold_fields _).2.1, (demod_shift_fields _ _).2.1, p2]
      exact h0
    have hst : 0 ≤ (demod_stage m u).1.errtimeout ∧
        (demod_stage m u).1.errtimeout ≤ 10 * m.ff.frame_size := by
      unfold demod_stage
      by_cases hc : (demod_compares u && frame_match m.ff u.out_shift) = true
      · rw [if_pos hc]
        rcases demod_frame_err m u with ⟨_, e⟩ | ⟨_, e⟩
        · rw [e]; omega
        · rw [e]; exact hu0
      · rw [if_neg hc]
        exact hu0
    cases hi : (demod_stage m u).1.line_idle with
    | true =>
      rw [(demod_reseed_idle m.ff _ hi).2.2.2.2.1]
      by_cases ht : (demod_stage m u).1.errtimeout > 0
      · rw [if_pos ht]; omega
      · rw [if_neg ht]; exact hst
    | false =>
      rw [demod_reseed_busy m.ff _ hi]
      exact hst
  · rw [if_neg hl, p2]
    exact h0

/-- The error timeout of the demodulator stays between 0 and `10 * frame_size`. -/
theorem demod_run_timeout (m : modemcfg) (pp pn : Nat) (hfs : 0 ≤ m.ff.frame_size) :
    ∀ (xs : List (Int × Int)) (s : demod_state),
    0 ≤ s.errtimeout ∧ s.errtimeout ≤ 10 * m.ff.frame_size →
    0 ≤ (demod_run m pp pn s xs).1.errtimeout ∧
      (demod_run m pp pn s xs).1.errtimeout ≤ 10 * m.ff.frame_size := by
  intro xs
  induction xs with
  | nil => intro s h; exact h
  | cons x xs ih =>
    intro s h
    exact ih _ (demod_sample_timeout m pp pn s x hfs h)

theorem demod_frame_error (m : modemcfg) (c : demod_state)
    (herr : demod_avg_skew c > m.max_skew ∨ demod_parity_ok m.ff c.out_shift = false) :
    (demod_frame m c).1.errtimeout = 10 * m.ff.frame_size ∧
      (demod_frame m c).1.errcount = c.errcount + 1 := by
  unfold demod_frame
  simp only []
  by_cases h1 : demod_avg_skew c > m.max_skew
  · rw [if_pos h1]
    exact ⟨rfl, rfl⟩
  · rw [if_neg h1]
    have h2 : ¬ (demod_parity_ok m.ff c.out_shift = true) := by
      rcases herr with h | h
      · exact absurd h h1
      · simp [h]
    rw [if_neg h2]
    by_cases h3 : c.errcount + 1 < ERROR_LIMIT ∧ m.errchar ≠ 0
    · rw [if_pos h3]
      exact ⟨rfl, rfl⟩
    · rw [if_neg h3]
      exact ⟨rfl, rfl⟩

/-- C25: error timeout.  A frame error (high skew or bad parity) met in the frame branch with
the locals `c` sets `errtimeout = 10 * frame_size` and raises `errcount` by one.  If every
bit latched during the following samples `xs` finds the line idle, `errcount` keeps that value
while fewer than `10 * frame_size` such bits have been latched and is 0 from the
`10 * frame_size`-th on, `errtimeout` running down from `10 * frame_size - 1` to 0.  On every
sample stream `ys` from the initial state, `errtimeout` stays in `[0, 10 * frame_size]`. -/
theorem error_timeout (m : modemcfg) (pp pn : Nat) (c : demod_state)
    (xs ys : List (Int × Int)) (hfs : 1 ≤ m.ff.frame_size)
    (herr : demod_avg_skew c > m.max_skew ∨ demod_parity_ok m.ff c.out_shift = false)
    (hidle : ∀ l ∈ demod_latches m pp pn (demod_after_frame m c) xs, l.line_idle = true) :
    (demod_frame m c).1.errtimeout = 10 * m.ff.frame_size ∧
      (demod_frame m c).1.errcount = c.errcount + 1 ∧
      (demod_run m pp pn (demod_after_frame m c) xs).1.errcount =
        (if ((demod_latches m pp pn (demod_after_frame m c) xs).length : Int) <
            10 * m.ff.frame_size then c.errcount + 1 else 0) ∧
      (demod_run m pp pn (demod_after_frame m c) xs).1.errtimeout =
        max (10 * m.ff.frame_size - 1 -
          ((demod_latches m pp pn (demod_after_frame m c) xs).length : Int)) 0 ∧
      0 ≤ (demod_run m pp pn (demod_init m) ys).1.errtimeout ∧
      (demod_run m pp pn (demod_init m) ys).1.errtimeout ≤ 10 * m.ff.frame_size := by
  obtain ⟨f1, f2⟩ := demod_frame_error m c herr
  obtain ⟨_, _, _, _, r5, r6⟩ := demod_reseed_idle m.ff _ (demod_frame_fields m c).1
  have a1 : (demod_after_frame m c).errtimeout = 10 * m.ff.frame_size - 1 := by
    show (demod_reseed m.ff (demod_frame m c).1).errtimeout = _
    rw [r5, f1, if_pos (by omega)]
  have a2 : (demod_after_frame m c).errcount = c.errcount + 1 := by
    show (demod_reseed m.ff (demod_frame m c).1).errcount = _
    rw [r6, f1, f2, if_pos (by omega)]
  obtain ⟨e1, e2⟩ := demod_run_idle_err m pp pn xs (demod_after_frame m c)
    (by rw [a1]; omega) hidle
  obtain ⟨t1, t2⟩ := demod_run_timeout m pp pn (by omega) ys (demod_init m)
    ⟨le_refl 0, by show (0 : Int) ≤ 10 * m.ff.frame_size; omega⟩
  rw [a1, a2] at e1
  rw [a1] at e2
  refine ⟨f1, f2, ?_, e2, t1, t2⟩
  rw [e1]
  generalize ((demod_latches m pp pn (demod_after_frame m c) xs).length : Int) = k
  by_cases h : k < 10 * m.ff.frame_size
  · rw [if_pos h, if_pos (by omega)]
  · rw [if_neg h, if_neg (by omega)]

theorem error_timeout_witness :
    (1 ≤ short_bit_cfg.ff.frame_size ∧
        (demod_avg_skew { skewed_frame_candidate with total_skew := 10 } >
            short_bit_cfg.max_skew ∨
          demod_parity_ok short_bit_cfg.ff
            ({ skewed_frame_candidate with total_skew := 10 } : demod_state).out_shift =
              false) ∧
        ∀ l ∈ demod_latches short_bit_cfg 1 0
            (demod_after_frame short_bit_cfg { skewed_frame_candidate with total_skew := 10 })
            (bit_samples 4 1 [1, 1, 1]),
          l.line_idle = true) ∧
      ((demod_frame short_bit_cfg
            { skewed_frame_candidate with total_skew := 10 }).1.errtimeout =
          10 * short_bit_cfg.ff.frame_size ∧
        (demod_frame short_bit_cfg
            { skewed_frame_candidate with total_skew := 10 }).1.errcount =
          ({ skewed_frame_candidate with total_skew := 10 } : demod_state).errcount + 1 ∧
        (demod_run short_bit_cfg 1 0
            (demod_after_frame short_bit_cfg { skewed_frame_candidate with total_skew := 10 })
            (bit_samples 4 1 [1, 1, 1])).1.errcount =
          (if ((demod_latches short_bit_cfg 1 0
                (demod_after_frame short_bit_cfg
                  { skewed_frame_candidate with total_skew := 10 })
                (bit_samples 4 1 [1, 1, 1])).length : Int) <
              10 * short_bit_cfg.ff.frame_size then
            ({ skewed_frame_candidate with total_skew := 10 } : demod_state).errcount + 1
          else 0) ∧
        (demod_run short_bit_cfg 1 0
            (demod_after_frame short_bit_cfg { skewed_frame_candidate with total_skew := 10 })
            (bit_samples 4 1 [1, 1, 1])).1.errtimeout =
          max (10 * short_bit_cfg.ff.frame_size - 1 -
            ((demod_latches short_bit_cfg 1 0
              (demod_after_frame short_bit_cfg
                { skewed_frame_candidate with total_skew := 10 })
              (bit_samples 4 1 [1, 1, 1])).length : Int)) 0 ∧
        0 ≤ (demod_run short_bit_cfg 1 0 (demod_init short_bit_cfg)
          (bit_samples 4 1 [0, 1])).1.errtimeout ∧
        (demod_run short_bit_cfg 1 0 (demod_init short_bit_cfg)
          (bit_samples 4 1 [0, 1])).1.errtimeout ≤ 10 * short_bit_cfg.ff.frame_size) :=
  ⟨⟨by decide, Or.inl (by decide), by decide⟩,
    error_timeout short_bit_cfg 1 0 { skewed_frame_candidate with total_skew := 10 }
      (bit_samples 4 1 [1, 1, 1]) (bit_samples 4 1 [0, 1]) (by decide) (Or.inl (by decide))
      (by decide)⟩

theorem demod_latch_busy (m : modemcfg) (s : demod_state) (b : Nat)
    (hni : (demod_shift s b).line_idle = false) :
    (demod_hold (demod_shift s b)).frame_hold = s.frame_hold - 1 ∧
      (demod_compares (demod_hold (demod_shift s b)) = true ↔ s.frame_hold - 1 ≤ 0) ∧
      (0 < s.frame_hold - 1 → (demod_latch m s b).1.frame_hold = s.frame_hold - 1) := by
  have hh : demod_hold (demod_shift s b) =
      { demod_shift s b with frame_hold := (demod_shift s b).frame_hold - 1 } := by
    unfold demod_hold
    rw [if_neg (by simp [hni])]
  have hf : (demod_shift s b).frame_hold = s.frame_hold := (demod_shift_fields s b).2.2.1
  have h1 : (demod_hold (demod_shift s b)).frame_hold = s.frame_hold - 1 := by
    rw [hh, ← hf]
  have hli : (demod_hold (demod_shift s b)).line_idle = false := by
    rw [(demod_hold_fields _).2.2.2.2.2.2.2, hni]
  have h2 : demod_compares (demod_hold (demod_shift s b)) = true ↔ s.frame_hold - 1 ≤ 0 := by
    unfold demod_compares
    rw [hli, h1]
    simp
  refine ⟨h1, h2, fun hpos => ?_⟩
  have hnc : demod_compares (demod_hold (demod_shift s b)) = false := by
    cases hc : demod_compares (demod_hold (demod_shift s b)) with
    | false => rfl
    | true => exact absurd (h2.mp hc) (by omega)
  have hst : demod_stage m (demod_hold (demod_shift s b)) =
      (demod_hold (demod_shift s b), []) := by
    unfold demod_stage
    rw [hnc]
    rfl
  rw [demod_latch_eq, hst]
  show (demod_reseed m.ff (demod_hold (demod_shift s b))).frame_hold = _
  rw [demod_reseed_busy m.ff _ hli, h1]

theorem demod_run_hold (m : modemcfg) (pp pn : Nat) : ∀ (xs : List (Int × Int))
    (s : demod_state), (∀ l ∈ demod_latches m pp pn s xs, l.line_idle = false) →
    ((demod_latches m pp pn s xs).length : Int) < s.frame_hold →
    (demod_run m pp pn s xs).1.frame_hold =
      s.frame_hold - ((demod_latches m pp pn s xs).length : Int) := by
  intro xs
  induction xs with
  | nil =>
    intro s _ _
    show s.frame_hold = s.frame_hold - ((0 : Nat) : Int)
    simp
  | cons x xs ih =>
    intro s hni hk
    have happ := demod_latches_append m pp pn [x] xs s
    have hs1 : (demod_run m pp pn s [x]).1 = (demod_sample m pp pn s x.1 x.2).1 := rfl
    rw [hs1] at happ
    have hcons : [x] ++ xs = x :: xs := rfl
    rw [hcons] at happ
    have hl : demod_latches m pp pn s [x] =
        (if (demod_pre m s x.1).bit_wait ≤ 0 then
          [demod_shift (demod_pre m s x.1) (if x.2 > 0 then pp else pn)] else []) ++ [] := rfl
    rw [List.append_nil] at hl
    have hi2 : ∀ l ∈ demod_latches m pp pn (demod_sample m pp pn s x.1 x.2).1 xs,
        l.line_idle = false :=
      fun l h => hni l (by rw [happ]; exact List.mem_append_right _ h)
    have hrun : (demod_run m pp pn s (x :: xs)).1 =
        (demod_run m pp pn (demod_sample m pp pn s x.1 x.2).1 xs).1 := rfl
    rw [happ, List.length_append] at hk
    rw [hrun, happ, List.length_append]
    obtain ⟨_, _, p3, _⟩ := demod_pre_fields m s x.1
    by_cases hw : (demod_pre m s x.1).bit_wait ≤ 0
    · rw [if_pos hw] at hl
      have hi := hni _ (by rw [happ, hl]; exact List.mem_append_left _ (List.mem_singleton_self _))
      rw [hl] at hk ⊢
      simp only [List.length_singleton, Nat.cast_add, Nat.cast_one] at hk ⊢
      have hfh : (demod_sample m pp pn s x.1 x.2).1.frame_hold = s.frame_hold - 1 := by
        rw [demod_sample_eq, if_pos hw,
          (demod_latch_busy m (demod_pre m s x.1) _ hi).2.2 (by rw [p3]; omega), p3]
      rw [ih _ hi2 (by rw [hfh]; omega), hfh]
      omega
    · rw [if_neg hw] at hl
      rw [hl] at hk ⊢
      simp only [List.length_nil, Nat.cast_add, Nat.cast_zero, zero_add] at hk ⊢
      have hfh : (demod_sample m pp pn s x.1 x.2).1.frame_hold = s.frame_hold := by
        rw [demod_sample_eq, if_neg hw, p3]
      rw [ih _ hi2 (by rw [hfh]; exact hk), hfh]

set_option maxRecDepth 1000000 in
/-- C26 (as stated, refuted): with the default pattern at 4 samples per bit, after the first
nine bits of the frame for `0x41` the line is not idle and `frame_hold` is 1, which is
positive, yet the tenth latched bit is compared with the pattern: the byte `0x41` is written.
And after a reseed (`frame_hold = 9 = frame_size - 1`) the comparison is skipped for eight
latched bits only and is evaluated on the ninth. -/
theorem hold_off_early_compare :
    (demod_run short_bit_cfg 1 0 (demod_init short_bit_cfg)
        (bit_samples 4 1 [0, 1, 0, 0, 0, 0, 0, 1, 1])).1.line_idle = false ∧
      (demod_run short_bit_cfg 1 0 (demod_init short_bit_cfg)
        (bit_samples 4 1 [0, 1, 0, 0, 0, 0, 0, 1, 1])).1.frame_hold = 1 ∧
      (demod_run short_bit_cfg 1 0
        (demod_run short_bit_cfg 1 0 (demod_init short_bit_cfg)
          (bit_samples 4 1 [0, 1, 0, 0, 0, 0, 0, 1, 1])).1 (bit_samples 4 1 [1])).2 = [0x41] ∧
      (demod_run short_bit_cfg 1 0 (demod_init short_bit_cfg)
        (bit_samples 4 (-1) [1])).1.frame_hold = short_bit_cfg.ff.frame_size - 1 ∧
      (demod_latches short_bit_cfg 1 0
          (demod_run short_bit_cfg 1 0 (demod_init short_bit_cfg) (bit_samples 4 (-1) [1])).1
          (bit_samples 4 1 [0, 1, 0, 0, 0, 0, 0, 1, 1])).map
        (fun l => (l.line_idle, demod_compares (demod_hold l))) =
        [(false, false), (false, false), (false, false), (false, false), (false, false),
          (false, false), (false, false), (false, false), (false, true)] := by
  decide

/-- C26 (amended): frame hold-off.  At a latched bit where the line is not idle `frame_hold`
is decremented first, and the frame comparison is skipped for that bit exactly when the
decremented value is still positive.  A reseed sets `frame_hold = frame_size - 1`; from locals
with that value, as long as every latched bit finds the line not idle, the comparison is
skipped for the first `frame_size - 2` latched bits and is evaluated on the
`frame_size - 1`-th: the bit latched by the sample `x`, the `k + 1`-th after the samples `xs`
latched `k` bits, leaves `frame_hold = frame_size - 1 - (k + 1)` and is compared iff
`k + 1 = frame_size - 1`. -/
theorem frame_hold_off (m : modemcfg) (pp pn : Nat) (s u : demod_state)
    (xs : List (Int × Int)) (x : Int × Int)
    (hres : s.frame_hold = m.ff.frame_size - 1)
    (hni : ∀ l ∈ demod_latches m pp pn s (xs ++ [x]), l.line_idle = false)
    (hlat : (demod_pre m (demod_run m pp pn s xs).1 x.1).bit_wait ≤ 0)
    (hk : ((demod_latches m pp pn s xs).length : Int) + 1 ≤ m.ff.frame_size - 1)
    (hu : u.line_idle = true) :
    (demod_reseed m.ff u).frame_hold = m.ff.frame_size - 1 ∧
      (demod_hold (demod_shift (demod_pre m (demod_run m pp pn s xs).1 x.1)
          (if x.2 > 0 then pp else pn))).frame_hold =
        m.ff.frame_size - 1 - (((demod_latches m pp pn s xs).length : Int) + 1) ∧
      (demod_compares (demod_hold (demod_shift (demod_pre m (demod_run m pp pn s xs).1 x.1)
          (if x.2 > 0 then pp else pn))) = true ↔
        ((demod_latches m pp pn s xs).length : Int) + 1 = m.ff.frame_size - 1) := by
  have happ := demod_latches_append m pp pn xs [x] s
  have hl : demod_latches m pp pn (demod_run m pp pn s xs).1 [x] =
      (if (demod_pre m (demod_run m pp pn s xs).1 x.1).bit_wait ≤ 0 then
        [demod_shift (demod_pre m (demod_run m pp pn s xs).1 x.1)
          (if x.2 > 0 then pp else pn)] else []) ++ [] := rfl
  rw [List.append_nil, if_pos hlat] at hl
  have hi1 : ∀ l ∈ demod_latches m pp pn s xs, l.line_idle = false :=
    fun l h => hni l (by rw [happ]; exact List.mem_append_left _ h)
  have hi2 := hni _ (by rw [happ, hl]; exact List.mem_append_right _ (List.mem_singleton_self _))
  have hfh := demod_run_hold m pp pn xs s hi1 (by rw [hres]; omega)
  obtain ⟨b1, b2, _⟩ := demod_latch_busy m (demod_pre m (demod_run m pp pn s xs).1 x.1)
    (if x.2 > 0 then pp else pn) hi2
  rw [(demod_pre_fields _ _ _).2.2.1, hfh, hres] at b1 b2
  refine ⟨(demod_reseed_idle m.ff u hu).2.2.2.1, by rw [b1]; omega, ?_⟩
  rw [b2]
  omega

set_option maxRecDepth 1000000 in
theorem hold_off_samples_busy :
    (∀ l ∈ demod_latches short_bit_cfg 1 0 hold_off_start (hold_off_samples ++ [(1, 1000)]),
        l.line_idle = false) ∧
      (demod_pre short_bit_cfg
        (demod_run short_bit_cfg 1 0 hold_off_start hold_off_samples).1 1).bit_wait ≤ 0 ∧
      ((demod_latches short_bit_cfg 1 0 hold_off_start hold_off_samples).length : Int) + 1 ≤
        short_bit_cfg.ff.frame_size - 1 := by
  decide

theorem frame_hold_off_witness :
    (hold_off_start.frame_hold = short_bit_cfg.ff.frame_size - 1 ∧
        (∀ l ∈ demod_latches short_bit_cfg 1 0 hold_off_start
            (hold_off_samples ++ [(1, 1000)]), l.line_idle = false) ∧
        (demod_pre short_bit_cfg
          (demod_run short_bit_cfg 1 0 hold_off_start hold_off_samples).1 1).bit_wait ≤ 0 ∧
        ((demod_latches short_bit_cfg 1 0 hold_off_start hold_off_samples).length : Int) + 1 ≤
          short_bit_cfg.ff.frame_size - 1 ∧
        (demod_init short_bit_cfg).line_idle = true) ∧
      ((demod_reseed short_bit_cfg.ff (demod_init short_bit_cfg)).frame_hold =
          short_bit_cfg.ff.frame_size - 1 ∧
        (demod_hold (demod_shift (demod_pre short_bit_cfg
            (demod_run short_bit_cfg 1 0 hold_off_start hold_off_samples).1 1)
            (if (1000 : Int) > 0 then 1 else 0))).frame_hold =
          short_bit_cfg.ff.frame_size - 1 -
            (((demod_latches short_bit_cfg 1 0 hold_off_start hold_off_samples).length : Int)
              + 1) ∧
        (demod_compares (demod_hold (demod_shift (demod_pre short_bit_cfg
            (demod_run short_bit_cfg 1 0 hold_off_start hold_off_samples).1 1)
            (if (1000 : Int) > 0 then 1 else 0))) = true ↔
          ((demod_latches short_bit_cfg 1 0 hold_off_start hold_off_samples).length : Int) + 1 =
            short_bit_cfg.ff.frame_size - 1)) :=
  ⟨⟨by decide, hold_off_samples_busy.1, hold_off_samples_busy.2.1, hold_off_samples_busy.2.2,
      rfl⟩,
    frame_hold_off short_bit_cfg 1 0 hold_off_start (demod_init short_bit_cfg)
      hold_off_samples (1, 1000) (by decide) hold_off_samples_busy.1
      hold_off_samples_busy.2.1 hold_off_samples_busy.2.2 rfl⟩

theorem tdiv_three (x : Int) :
    Int.tdiv x 3 = if 0 ≤ x then x / 3 else -((-x) / 3) := by
  by_cases h : 0 ≤ x
  · rw [if_pos h]
    exact Int.tdiv_eq_ediv h (by omega)
  · rw [if_neg h]
    have e : x = -(-x) := by omega
    conv_lhs => rw [e, Int.neg_tdiv, Int.tdiv_eq_ediv (show 0 ≤ -x by omega) (by omega)]

theorem skew_correction_cases (adj : Int) :
    (0 < adj ∧ skew_correction adj = adj / 3 + 1) ∨ (adj = 0 ∧ skew_correction adj = 0) ∨
      (adj < 0 ∧ skew_correction adj = -((-adj) / 3) - 1) := by
  unfold skew_correction SKEW_CORRECT_FACTOR
  rw [tdiv_three]
  by_cases h1 : adj > 0
  · rw [if_pos h1, if_pos (by omega)]
    exact Or.inl ⟨h1, rfl⟩
  · rw [if_neg h1]
    by_cases h2 : adj < 0
    · rw [if_pos h2, if_neg (by omega)]
      exact Or.inr (Or.inr ⟨h2, rfl⟩)
    · rw [if_neg h2]
      exact Or.inr (Or.inl ⟨by omega, by omega⟩)

theorem demod_edge_bit_wait (m : modemcfg) (s : demod_state) :
    (demod_edge m s).bit_wait =
      s.bit_wait + (if s.line_idle = true then demod_adj m s
        else skew_correction (demod_adj m s)) := by
  rw [demod_edge_eq]
  by_cases hi : s.line_idle = true
  · rw [if_pos hi, if_pos hi]
  · rw [if_neg hi, if_neg hi]

/-- C27: skew correction on an edge.  An edge adds to `bit_wait` the raw adjustment itself
while the line is idle and `skew_correction adj` otherwise; for every raw adjustment `adj`
this correction is `adj / 3` (C division, truncating) plus the sign of `adj`; it is 0 iff
`adj = 0`, it has the sign of `adj`, its magnitude is at least 1 unless `adj = 0`, and its
magnitude is at most `|adj|`. -/
theorem skew_correction_bounds (m : modemcfg) (s : demod_state) (adj : Int) :
    (demod_edge m s).bit_wait =
        s.bit_wait + (if s.line_idle = true then demod_adj m s
          else skew_correction (demod_adj m s)) ∧
      skew_correction adj = Int.tdiv adj 3 + Int.sign adj ∧
      (skew_correction adj = 0 ↔ adj = 0) ∧
      Int.sign (skew_correction adj) = Int.sign adj ∧
      (adj = 0 ∨ 1 ≤ Int.natAbs (skew_correction adj)) ∧
      Int.natAbs (skew_correction adj) ≤ Int.natAbs adj := by
  refine ⟨demod_edge_bit_wait m s, ?_⟩
  rcases skew_correction_cases adj with ⟨h, e⟩ | ⟨h, e⟩ | ⟨h, e⟩
  · have hc : 0 < skew_correction adj := by rw [e]; omega
    refine ⟨?_, ?_, ?_, Or.inr (by omega), by omega⟩
    · rw [e, tdiv_three, if_pos (by omega), Int.sign_eq_one_of_pos h]
    · constructor <;> intro h' <;> omega
    · rw [Int.sign_eq_one_of_pos h, Int.sign_eq_one_of_pos hc]
  · refine ⟨?_, ?_, ?_, Or.inl h, by omega⟩
    · rw [e, h]; rfl
    · constructor <;> intro _ <;> assumption
    · rw [e, h]
  · have hc : skew_correction adj < 0 := by rw [e]; omega
    refine ⟨?_, ?_, ?_, Or.inr (by omega), by omega⟩
    · rw [e, tdiv_three, if_neg (by omega), Int.sign_eq_neg_one_of_neg h]
      omega
    · constructor <;> intro h' <;> omega
    · rw [Int.sign_eq_neg_one_of_neg h, Int.sign_eq_neg_one_of_neg hc]

theorem demod_shift_clear_eq (s : demod_state) (b : Nat) :
    demod_shift_clear s b = demod_shift s b := by
  have key : ∀ u : demod_state,
      (if !u.line_idle && (u.out_shift == 0xFFFFFFFF || u.out_shift == 0) then
          { u with line_idle := true } else u) =
        (if (!u.line_idle && u.out_shift == 0xFFFFFFFF) || u.out_shift == 0 then
          { u with line_idle := true } else u) := by
    intro u
    rcases u with ⟨a1, a2, a3, a4, a5, a6, a7, a8, li⟩
    cases li
    · simp
    · by_cases h : a3 = 0
      · simp [h]
      · simp [h]
  exact key { s with out_shift := wrap32 (wrap32 (s.out_shift <<< 1) + b) }

theorem demod_latch_clear_eq (m : modemcfg) (s : demod_state) (b : Nat) :
    demod_latch_clear m s b = demod_latch m s b := by
  rw [demod_latch_eq]
  unfold demod_latch_clear
  rw [demod_shift_clear_eq]

theorem demod_sample_clear_eq (m : modemcfg) (pp pn : Nat) (s : demod_state) (t o : Int) :
    demod_sample_clear m pp pn s t o = demod_sample m pp pn s t o := by
  unfold demod_sample_clear demod_sample
  simp only [demod_latch_clear_eq]

/-- C28: the precedence of the idle test is harmless.  For every value of `line_idle` and
`out_shift`, the source's statement `if(!line_idle && out_shift == -1 || out_shift == 0)
line_idle = true` leaves `line_idle` with the same value as the clearer form
`if(!line_idle && (out_shift == -1 || out_shift == 0)) line_idle = true`; hence the
demodulator with the clearer test has, from every state and on every sample stream, the same
final locals and the same output as the one of the source. -/
theorem idle_test_precedence (m : modemcfg) (pp pn : Nat) (s : demod_state)
    (xs : List (Int × Int)) (line_idle : Bool) (out_shift : Nat) :
    (if (!line_idle && out_shift == 0xFFFFFFFF) || out_shift == 0 then true else line_idle) =
        (if !line_idle && (out_shift == 0xFFFFFFFF || out_shift == 0) then true
          else line_idle) ∧
      demod_run_clear m pp pn s xs = demod_run m pp pn s xs := by
  constructor
  · cases line_idle
    · simp
    · by_cases h : out_shift = 0
      · simp [h]
      · simp [h]
  · induction xs generalizing s with
    | nil => rfl
    | cons x xs ih =>
      unfold demod_run_clear demod_run
      rw [demod_sample_clear_eq, ih]

theorem demod_adj_bounds (m : modemcfg) (s : demod_state) (h2 : 2 ≤ m.samples_per_bit)
    (h1 : 1 ≤ s.bit_wait) (h3 : s.bit_wait ≤ m.samples_per_bit) :
    (if s.bit_wait > Int.tdiv m.samples_per_bit 2 then 0 ≤ demod_adj m s
        else demod_adj m s < 0) ∧
      (Int.natAbs (demod_adj m s) : Int) ≤ Int.tdiv m.samples_per_bit 2 ∧
      0 ≤ s.bit_wait + demod_adj m s ∧ s.bit_wait + demod_adj m s ≤ m.samples_per_bit ∧
      0 ≤ s.bit_wait + skew_correction (demod_adj m s) ∧
      s.bit_wait + skew_correction (demod_adj m s) ≤ m.samples_per_bit := by
  have hh : Int.tdiv m.samples_per_bit 2 = m.samples_per_bit / 2 :=
    Int.tdiv_eq_ediv (by omega) (by omega)
  rcases skew_correction_cases (demod_adj m s) with ⟨c1, c2⟩ | ⟨c1, c2⟩ | ⟨c1, c2⟩ <;>
  · rw [c2]
    revert c1
    unfold demod_adj
    rw [hh]
    by_cases hb : s.bit_wait > m.samples_per_bit / 2
    · simp only [if_pos hb]
      intro c1
      omega
    · simp only [if_neg hb]
      intro c1
      omega

theorem demod_pre_bit_wait (m : modemcfg) (s : demod_state) (t : Int) :
    (demod_pre m s t).bit_wait = s.bit_wait - 1 ∨
      (demod_pre m s t).bit_wait = s.bit_wait + demod_adj m s - 1 ∨
      (demod_pre m s t).bit_wait = s.bit_wait + skew_correction (demod_adj m s) - 1 := by
  rw [demod_pre_eq]
  generalize (if t > 0 then (1 : Int) else 0) = st
  by_cases he : s.state ≠ st
  · rw [if_pos he]
    have hb := demod_edge_bit_wait m { s with state := st }
    by_cases hi : s.line_idle = true
    · rw [if_pos (show ({ s with state := st } : demod_state).line_idle = true from hi)] at hb
      exact Or.inr (Or.inl (by rw [hb]; rfl))
    · rw [if_neg (show ¬ (({ s with state := st } : demod_state).line_idle = true) from hi)]
        at hb
      exact Or.inr (Or.inr (by rw [hb]; rfl))
  · rw [if_neg he]
    exact Or.inl rfl

theorem demod_sample_bit_wait (m : modemcfg) (pp pn : Nat) (s : demod_state) (x : Int × Int)
    (h2 : 2 ≤ m.samples_per_bit) (h1 : 1 ≤ s.bit_wait) (h3 : s.bit_wait ≤ m.samples_per_bit) :
    1 ≤ (demod_sample m pp pn s x.1 x.2).1.bit_wait ∧
      (demod_sample m pp pn s x.1 x.2).1.bit_wait ≤ m.samples_per_bit := by
  obtain ⟨_, _, b1, b2, b3, b4⟩ := demod_adj_bounds m s h2 h1 h3
  have hp : -1 ≤ (demod_pre m s x.1).bit_wait ∧
      (demod_pre m s x.1).bit_wait ≤ m.samples_per_bit - 1 := by
    rcases demod_pre_bit_wait m s x.1 with e | e | e <;> rw [e] <;> omega
  rw [demod_sample_eq]
  by_cases hl : (demod_pre m s x.1).bit_wait ≤ 0
  · rw [if_pos hl, (demod_latch_bit_wait m _ _).1]
    omega
  · rw [if_neg hl]
    show 1 ≤ (demod_pre m s x.1).bit_wait ∧ (demod_pre m s x.1).bit_wait ≤ m.samples_per_bit
    omega

theorem demod_run_bit_wait (m : modemcfg) (pp pn : Nat) (h2 : 2 ≤ m.samples_per_bit) :
    ∀ (xs : List (Int × Int)) (s : demod_state), 1 ≤ s.bit_wait →
    s.bit_wait ≤ m.samples_per_bit →
    1 ≤ (demod_run m pp pn s xs).1.bit_wait ∧
      (demod_run m pp pn s xs).1.bit_wait ≤ m.samples_per_bit := by
  intro xs
  induction xs with
  | nil => intro s h1 h3; exact ⟨h1, h3⟩
  | cons x xs ih =>
    intro s h1 h3
    obtain ⟨a, b⟩ := demod_sample_bit_wait m pp pn s x h2 h1 h3
    exact ih _ a b

/-- C29: the bit-clock invariant.  For `samples_per_bit ≥ 2`, after any sample stream `xs`
from the initial state, that is at the start of every iteration of the per-sample loop,
`1 ≤ bit_wait ≤ samples_per_bit`, whatever the timing and output values were.  Hence the raw
adjustment an edge would compute there is `≥ 0` in the ahead branch
(`bit_wait > samples_per_bit / 2`) and `< 0` in the behind branch, its magnitude is at most
`samples_per_bit / 2`, and so is what the next sample, with any timing value `t`, adds to
`total_skew`. -/
theorem bit_clock_invariant (m : modemcfg) (pp pn : Nat) (xs : List (Int × Int)) (t : Int)
    (h2 : 2 ≤ m.samples_per_bit) :
    1 ≤ (demod_run m pp pn (demod_init m) xs).1.bit_wait ∧
      (demod_run m pp pn (demod_init m) xs).1.bit_wait ≤ m.samples_per_bit ∧
      (if (demod_run m pp pn (demod_init m) xs).1.bit_wait > Int.tdiv m.samples_per_bit 2 then
          0 ≤ demod_adj m (demod_run m pp pn (demod_init m) xs).1
        else demod_adj m (demod_run m pp pn (demod_init m) xs).1 < 0) ∧
      (Int.natAbs (demod_adj m (demod_run m pp pn (demod_init m) xs).1) : Int) ≤
        Int.tdiv m.samples_per_bit 2 ∧
      0 ≤ (demod_pre m (demod_run m pp pn (demod_init m) xs).1 t).total_skew -
        (demod_run m pp pn (demod_init m) xs).1.total_skew ∧
      (demod_pre m (demod_run m pp pn (demod_init m) xs).1 t).total_skew -
        (demod_run m pp pn (demod_init m) xs).1.total_skew ≤ Int.tdiv m.samples_per_bit 2 := by
  obtain ⟨i1, i2⟩ := demod_run_bit_wait m pp pn h2 xs (demod_init m)
    (by show 1 ≤ m.samples_per_bit; omega) (le_refl _)
  obtain ⟨a1, a2, _⟩ := demod_adj_bounds m _ h2 i1 i2
  have hh : (0 : Int) ≤ Int.tdiv m.samples_per_bit 2 := by
    rw [Int.tdiv_eq_ediv (by omega) (by omega)]
    omega
  refine ⟨i1, i2, a1, a2, ?_⟩
  rw [(demod_pre_skew m _ t).1]
  generalize (demod_run m pp pn (demod_init m) xs).1 = S at a2 ⊢
  by_cases hc : S.state ≠ (if t > 0 then 1 else 0) ∧ S.line_idle = false
  · rw [if_pos hc]
    omega
  · rw [if_neg hc]
    omega

theorem bit_clock_invariant_witness :
    2 ≤ short_bit_cfg.samples_per_bit ∧
      (1 ≤ (demod_run short_bit_cfg 1 0 (demod_init short_bit_cfg)
          skewed_frame_samples).1.bit_wait ∧
        (demod_run short_bit_cfg 1 0 (demod_init short_bit_cfg)
          skewed_frame_samples).1.bit_wait ≤ short_bit_cfg.samples_per_bit ∧
        (if (demod_run short_bit_cfg 1 0 (demod_init short_bit_cfg)
              skewed_frame_samples).1.bit_wait > Int.tdiv short_bit_cfg.samples_per_bit 2 then
            0 ≤ demod_adj short_bit_cfg (demod_run short_bit_cfg 1 0 (demod_init short_bit_cfg)
              skewed_frame_samples).1
          else demod_adj short_bit_cfg (demod_run short_bit_cfg 1 0 (demod_init short_bit_cfg)
            skewed_frame_samples).1 < 0) ∧
        (Int.natAbs (demod_adj short_bit_cfg (demod_run short_bit_cfg 1 0
            (demod_init short_bit_cfg) skewed_frame_samples).1) : Int) ≤
          Int.tdiv short_bit_cfg.samples_per_bit 2 ∧
        0 ≤ (demod_pre short_bit_cfg (demod_run short_bit_cfg 1 0 (demod_init short_bit_cfg)
              skewed_frame_samples).1 (-1)).total_skew -
            (demod_run short_bit_cfg 1 0 (demod_init short_bit_cfg)
              skewed_frame_samples).1.total_skew ∧
        (demod_pre short_bit_cfg (demod_run short_bit_cfg 1 0 (demod_init short_bit_cfg)
              skewed_frame_samples).1 (-1)).total_skew -
            (demod_run short_bit_cfg 1 0 (demod_init short_bit_cfg)
              skewed_frame_samples).1.total_skew ≤
          Int.tdiv short_bit_cfg.samples_per_bit 2) :=
  ⟨by decide, bit_clock_invariant short_bit_cfg 1 0 skewed_frame_samples (-1) (by decide)⟩

/-! ## `v23_demodulate`: block-size independence -/

theorem maf_process_append (nd : Bool) (xs ys : List Int) : ∀ f : maf,
    maf_process nd f (xs ++ ys) =
      ((maf_process nd (maf_process nd f xs).1 ys).1,
        (maf_process nd f xs).2 ++ (maf_process nd (maf_process nd f xs).1 ys).2) := by
  induction xs with
  | nil => intro f; rfl
  | cons x xs ih =>
    intro f
    show ((maf_process nd (maf_step f x nd).1 (xs ++ ys)).1,
      (maf_step f x nd).2 :: (maf_process nd (maf_step f x nd).1 (xs ++ ys)).2) = _
    rw [ih]
    rfl

theorem maf_process_length (nd : Bool) (xs : List Int) : ∀ f : maf,
    (maf_process nd f xs).2.length = xs.length := by
  induction xs with
  | nil => intro f; rfl
  | cons x xs ih =>
    intro f
    show ((maf_step f x nd).2 :: (maf_process nd (maf_step f x nd).1 xs).2).length = _
    rw [List.length_cons, ih, List.length_cons]

theorem deriv_samples_append (xs ys : List Int) : ∀ d : differentiator,
    deriv_samples d (xs ++ ys) =
      ((deriv_samples (deriv_samples d xs).1 ys).1,
        (deriv_samples d xs).2 ++ (deriv_samples (deriv_samples d xs).1 ys).2) := by
  induction xs with
  | nil => intro d; rfl
  | cons x xs ih =>
    intro d
    show ((deriv_samples { last := x } (xs ++ ys)).1,
      int16_wrap (x - d.last) :: (deriv_samples { last := x } (xs ++ ys)).2) = _
    rw [ih]
    rfl

theorem deriv_samples_length (xs : List Int) : ∀ d : differentiator,
    (deriv_samples d xs).2.length = xs.length := by
  induction xs with
  | nil => intro d; rfl
  | cons x xs ih =>
    intro d
    show (int16_wrap (x - d.last) :: (deriv_samples { last := x } xs).2).length = _
    rw [List.length_cons, ih, List.length_cons]

theorem mul_samples_append (a1 a2 b1 b2 : List Int) (h : a1.length = b1.length) :
    mul_samples (a1 ++ a2) (b1 ++ b2) = mul_samples a1 b1 ++ mul_samples a2 b2 := by
  unfold mul_samples
  exact List.zipWith_append _ _ _ _ _ h

theorem mul_samples_length (a b : List Int) (h : a.length = b.length) :
    (mul_samples a b).length = a.length := by
  unfold mul_samples
  rw [List.length_zipWith, h, Nat.min_self]

theorem ang_complex_samples_append (a1 a2 b1 b2 : List Int) (h : a1.length = b1.length) :
    ang_complex_samples (a1 ++ a2) (b1 ++ b2) =
      ang_complex_samples a1 b1 ++ ang_complex_samples a2 b2 := by
  unfold ang_complex_samples
  exact List.zipWith_append _ _ _ _ _ h

theorem ang_complex_samples_length (a b : List Int) (h : a.length = b.length) :
    (ang_complex_samples a b).length = a.length := by
  unfold ang_complex_samples
  rw [List.length_zipWith, h, Nat.min_self]

theorem sgn_samples_append (a b : List Int) :
    sgn_samples (a ++ b) = sgn_samples a ++ sgn_samples b := by
  unfold sgn_samples
  exact List.map_append _ _ _

theorem sgn_samples_length (a : List Int) : (sgn_samples a).length = a.length := by
  unfold sgn_samples
  exact List.length_map _ _

/-- Two calls of `osc_get_complex_samples` give the samples and the oscillator of one call
for the total number of samples, and the first leaves a phase within the table. -/
theorem osc_complex_append (table : List Int) (o : osc) (n1 n2 : Nat)
    (hL1 : 1 ≤ table.length) (hL : table.length < 2 ^ 31)
    (hp : 0 ≤ o.p ∧ o.p < table.length) (hf : 0 ≤ o.freqhz ∧ o.freqhz < 2 ^ 31) :
    osc_get_complex_samples table o (n1 + n2) =
        ((osc_get_complex_samples table (osc_get_complex_samples table o n1).1 n2).1,
          (osc_get_complex_samples table o n1).2.1 ++
            (osc_get_complex_samples table (osc_get_complex_samples table o n1).1 n2).2.1,
          (osc_get_complex_samples table o n1).2.2 ++
            (osc_get_complex_samples table (osc_get_complex_samples table o n1).1 n2).2.2) ∧
      (0 ≤ (osc_get_complex_samples table o n1).1.p ∧
        (osc_get_complex_samples table o n1).1.p < table.length) ∧
      (osc_get_complex_samples table o n1).1.freqhz = o.freqhz ∧
      (osc_get_complex_samples table o n1).2.1.length = n1 ∧
      (osc_get_complex_samples table o n1).2.2.length = n1 := by
  have hL0 : (1 : Int) ≤ table.length := by exact_mod_cast hL1
  have hp1 : 0 ≤ (o.p + (n1 : Int) * o.freqhz) % table.length ∧
      (o.p + (n1 : Int) * o.freqhz) % table.length < table.length :=
    ⟨Int.emod_nonneg _ (by omega), Int.emod_lt_of_pos _ (by omega)⟩
  have e1 := osc_get_complex_samples_spec table o n1 hL1 hL hp hf
  have e := osc_get_complex_samples_spec table o (n1 + n2) hL1 hL hp hf
  have e2 := osc_get_complex_samples_spec table
    { o with p := (o.p + (n1 : Int) * o.freqhz) % table.length } n2 hL1 hL hp1 hf
  rw [e1, e2, e]
  have hmap : ∀ (g : Nat → Int), (List.range (n1 + n2)).map g =
      (List.range n1).map g ++ (List.range n2).map (fun k => g (n1 + k)) := by
    intro g
    rw [List.range_add, List.map_append, List.map_map]
    rfl
  have hI : ∀ k : Nat,
      ((o.p + (n1 : Int) * o.freqhz) % table.length + ((table.length / 4 : Nat) : Int) +
          (k : Int) * o.freqhz) % table.length =
        (o.p + ((table.length / 4 : Nat) : Int) + ((n1 + k : Nat) : Int) * o.freqhz) %
          table.length := by
    intro k
    rw [add_assoc, Int.emod_add_emod]
    congr 1
    push_cast
    ring
  have hQ : ∀ k : Nat,
      ((o.p + (n1 : Int) * o.freqhz) % table.length + (k : Int) * o.freqhz) % table.length =
        (o.p + ((n1 + k : Nat) : Int) * o.freqhz) % table.length := by
    intro k
    rw [Int.emod_add_emod]
    congr 1
    push_cast
    ring
  refine ⟨?_, hp1, rfl, by simp, by simp⟩
  have h3 := hQ n2
  simp only [hmap, hI, hQ, h3]

theorem demod_block_o (sinebuf : List Int) (m : modemcfg) (st : demod_full)
    (xs : List Int) :
    (demod_block sinebuf m st xs).1.o = (osc_get_complex_samples sinebuf st.o xs.length).1 :=
  rfl

/-- Processing `xs ++ ys` in one block is processing `xs` and then `ys`, when the stored
phase lies within the table. -/
theorem demod_block_append (sinebuf : List Int) (m : modemcfg) (st : demod_full)
    (xs ys : List Int) (hL1 : 1 ≤ sinebuf.length) (hL : sinebuf.length < 2 ^ 31)
    (hp : 0 ≤ st.o.p ∧ st.o.p < sinebuf.length)
    (hf : 0 ≤ st.o.freqhz ∧ st.o.freqhz < 2 ^ 31) :
    demod_block sinebuf m st (xs ++ ys) =
      ((demod_block sinebuf m (demod_block sinebuf m st xs).1 ys).1,
        (demod_block sinebuf m st xs).2 ++
          (demod_block sinebuf m (demod_block sinebuf m st xs).1 ys).2) := by
  obtain ⟨ho, _, _, hlI, hlQ⟩ := osc_complex_append sinebuf st.o xs.length ys.length hL1 hL hp hf
  have hmI := mul_samples_append xs ys _
    (osc_get_complex_samples sinebuf (osc_get_complex_samples sinebuf st.o xs.length).1
      ys.length).2.1 hlI.symm
  have hmQ := mul_samples_append xs ys _
    (osc_get_complex_samples sinebuf (osc_get_complex_samples sinebuf st.o xs.length).1
      ys.length).2.2 hlQ.symm
  have hlen1 : (maf_process false st.mafI (mul_samples xs
      (osc_get_complex_samples sinebuf st.o xs.length).2.1)).2.length =
      (maf_process false st.mafQ (mul_samples xs
        (osc_get_complex_samples sinebuf st.o xs.length).2.2)).2.length := by
    rw [maf_process_length, maf_process_length, mul_samples_length _ _ hlI.symm,
      mul_samples_length _ _ hlQ.symm]
  have hlen2 : (maf_process true st.mafBit (sgn_samples (maf_process false st.mafOut
      (deriv_samples st.diffAng (ang_complex_samples
        (maf_process false st.mafI (mul_samples xs
          (osc_get_complex_samples sinebuf st.o xs.length).2.1)).2
        (maf_process false st.mafQ (mul_samples xs
          (osc_get_complex_samples sinebuf st.o xs.length).2.2)).2)).2).2)).2.length =
      (maf_process false st.mafOut
        (deriv_samples st.diffAng (ang_complex_samples
          (maf_process false st.mafI (mul_samples xs
            (osc_get_complex_samples sinebuf st.o xs.length).2.1)).2
          (maf_process false st.mafQ (mul_samples xs
            (osc_get_complex_samples sinebuf st.o xs.length).2.2)).2)).2).2.length := by
    rw [maf_process_length, sgn_samples_length]
  unfold demod_block
  simp only [List.length_append]
  rw [ho]
  simp only []
  rw [hmI, hmQ, maf_process_append, maf_process_append]
  simp only []
  rw [ang_complex_samples_append _ _ _ _ hlen1, deriv_samples_append]
  simp only []
  rw [maf_process_append]
  simp only []
  rw [sgn_samples_append, maf_process_append]
  simp only []
  rw [List.zip_append hlen2, demod_run_append]

theorem demod_block_nil (sinebuf : List Int) (m : modemcfg) (st : demod_full) :
    demod_block sinebuf m st [] = (st, []) := rfl

theorem demod_block_valid (sinebuf : List Int) (m : modemcfg) (st : demod_full)
    (xs : List Int) (hL1 : 1 ≤ sinebuf.length) (hL : sinebuf.length < 2 ^ 31)
    (hp : 0 ≤ st.o.p ∧ st.o.p < sinebuf.length)
    (hf : 0 ≤ st.o.freqhz ∧ st.o.freqhz < 2 ^ 31) :
    (0 ≤ (demod_block sinebuf m st xs).1.o.p ∧
        (demod_block sinebuf m st xs).1.o.p < sinebuf.length) ∧
      (0 ≤ (demod_block sinebuf m st xs).1.o.freqhz ∧
        (demod_block sinebuf m st xs).1.o.freqhz < 2 ^ 31) := by
  obtain ⟨_, h2, h3, _⟩ := osc_complex_append sinebuf st.o xs.length 0 hL1 hL hp hf
  rw [demod_block_o]
  exact ⟨h2, by rw [h3]; exact hf⟩

theorem demod_blocks_flatten (sinebuf : List Int) (m : modemcfg)
    (hL1 : 1 ≤ sinebuf.length) (hL : sinebuf.length < 2 ^ 31) :
    ∀ (blocks : List (List Int)) (st : demod_full),
    (∀ b ∈ blocks, 1 ≤ b.length ∧ b.length ≤ 1024) →
    (0 ≤ st.o.p ∧ st.o.p < sinebuf.length) → (0 ≤ st.o.freqhz ∧ st.o.freqhz < 2 ^ 31) →
    demod_blocks sinebuf m st blocks = demod_block sinebuf m st blocks.flatten := by
  intro blocks
  induction blocks with
  | nil => intro st _ _ _; rfl
  | cons b bs ih =>
    intro st hb hp hf
    have hb0 : ¬ (b.length = 0) := by
      have := (hb b (List.mem_cons_self _ _)).1
      omega
    obtain ⟨v1, v2⟩ := demod_block_valid sinebuf m st b hL1 hL hp hf
    have hrec := ih (demod_block sinebuf m st b).1
      (fun c hc => hb c (List.mem_cons_of_mem _ hc)) v1 v2
    have hcons : demod_blocks sinebuf m st (b :: bs) =
        if b.length = 0 then (st, [])
        else
          ((demod_blocks sinebuf m (demod_block sinebuf m st b).1 bs).1,
            (demod_block sinebuf m st b).2 ++
              (demod_blocks sinebuf m (demod_block sinebuf m st b).1 bs).2) := rfl
    rw [List.flatten_cons, demod_block_append sinebuf m st b bs.flatten hL1 hL hp hf, ← hrec,
      hcons, if_neg hb0]

/-- C30: block-size independence.  For a sine table of `1 ≤ L < 2 ^ 31` entries and locals
`st` whose oscillator phase lies within the table and whose frequency is a non-negative
`int` (the initial locals have phase 0 and a frequency below `2 ^ 31`), the bytes the
demodulator writes and all its locals afterwards (oscillator, differentiator, the four
filters, the locals of the sample loop) are the same for any two ways of splitting a sample
sequence into blocks of 1 to 1024 samples, and equal those of the whole sequence handled as
one block; in particular handling `xs ++ ys` in one block is handling `xs` and then `ys`. -/
theorem block_size_independence (sinebuf : List Int) (m : modemcfg) (st : demod_full)
    (blocks1 blocks2 : List (List Int)) (xs ys : List Int)
    (hL1 : 1 ≤ sinebuf.length) (hL : sinebuf.length < 2 ^ 31)
    (hp : 0 ≤ st.o.p ∧ st.o.p < sinebuf.length)
    (hf : 0 ≤ st.o.freqhz ∧ st.o.freqhz < 2 ^ 31)
    (hb1 : ∀ b ∈ blocks1, 1 ≤ b.length ∧ b.length ≤ 1024)
    (hb2 : ∀ b ∈ blocks2, 1 ≤ b.length ∧ b.length ≤ 1024)
    (hflat : blocks1.flatten = blocks2.flatten) :
    demod_blocks sinebuf m st blocks1 = demod_blocks sinebuf m st blocks2 ∧
      demod_blocks sinebuf m st blocks1 = demod_block sinebuf m st blocks1.flatten ∧
      demod_block sinebuf m st (xs ++ ys) =
        ((demod_block sinebuf m (demod_block sinebuf m st xs).1 ys).1,
          (demod_block sinebuf m st xs).2 ++
            (demod_block sinebuf m (demod_block sinebuf m st xs).1 ys).2) ∧
      (demod_full_init m).o.p = 0 ∧ (demod_full_init m).o.freqhz < 2 ^ 31 := by
  have e1 := demod_blocks_flatten sinebuf m hL1 hL blocks1 st hb1 hp hf
  have e2 := demod_blocks_flatten sinebuf m hL1 hL blocks2 st hb2 hp hf
  refine ⟨by rw [e1, e2, hflat], e1, demod_block_append sinebuf m st xs ys hL1 hL hp hf,
    rfl, ?_⟩
  show Int.tdiv (int32_wrap (m.mark_freqhz + m.space_freqhz)) 2 < 2 ^ 31
  generalize m.mark_freqhz + m.space_freqhz = v
  have hw : int32_wrap v < 2 ^ 31 := by unfold int32_wrap; omega
  have hw2 : -2 ^ 31 ≤ int32_wrap v := by unfold int32_wrap; omega
  generalize int32_wrap v = w at hw hw2
  by_cases h0 : 0 ≤ w
  · rw [Int.tdiv_eq_ediv h0 (by omega)]
    omega
  · have e : w = -(-w) := by omega
    rw [e, Int.neg_tdiv, Int.tdiv_eq_ediv (show 0 ≤ -w by omega) (by omega)]
    omega

theorem block_size_independence_witness :
    (1 ≤ [(0 : Int), 70, 100, 70, 0, -70, -100, -70].length ∧
        [(0 : Int), 70, 100, 70, 0, -70, -100, -70].length < 2 ^ 31 ∧
        (0 ≤ (demod_full_init short_bit_cfg).o.p ∧
          (demod_full_init short_bit_cfg).o.p <
            [(0 : Int), 70, 100, 70, 0, -70, -100, -70].length) ∧
        (0 ≤ (demod_full_init short_bit_cfg).o.freqhz ∧
          (demod_full_init short_bit_cfg).o.freqhz < 2 ^ 31) ∧
        (∀ b ∈ [[(100 : Int), -200], [300]], 1 ≤ b.length ∧ b.length ≤ 1024) ∧
        (∀ b ∈ [[(100 : Int)], [-200, 300]], 1 ≤ b.length ∧ b.length ≤ 1024) ∧
        [[(100 : Int), -200], [300]].flatten = [[(100 : Int)], [-200, 300]].flatten) ∧
      (demod_blocks [0, 70, 100, 70, 0, -70, -100, -70] short_bit_cfg
            (demod_full_init short_bit_cfg) [[100, -200], [300]] =
          demod_blocks [0, 70, 100, 70, 0, -70, -100, -70] short_bit_cfg
            (demod_full_init short_bit_cfg) [[100], [-200, 300]] ∧
        demod_blocks [0, 70, 100, 70, 0, -70, -100, -70] short_bit_cfg
            (demod_full_init short_bit_cfg) [[100, -200], [300]] =
          demod_block [0, 70, 100, 70, 0, -70, -100, -70] short_bit_cfg
            (demod_full_init short_bit_cfg) [[(100 : Int), -200], [300]].flatten ∧
        demod_block [0, 70, 100, 70, 0, -70, -100, -70] short_bit_cfg
            (demod_full_init short_bit_cfg) ([100] ++ [-200]) =
          ((demod_block [0, 70, 100, 70, 0, -70, -100, -70] short_bit_cfg
              (demod_block [0, 70, 100, 70, 0, -70, -100, -70] short_bit_cfg
                (demod_full_init short_bit_cfg) [100]).1 [-200]).1,
            (demod_block [0, 70, 100, 70, 0, -70, -100, -70] short_bit_cfg
                (demod_full_init short_bit_cfg) [100]).2 ++
              (demod_block [0, 70, 100, 70, 0, -70, -100, -70] short_bit_cfg
                (demod_block [0, 70, 100, 70, 0, -70, -100, -70] short_bit_cfg
                  (demod_full_init short_bit_cfg) [100]).1 [-200]).2) ∧
        (demod_full_init short_bit_cfg).o.p = 0 ∧
        (demod_full_init short_bit_cfg).o.freqhz < 2 ^ 31) :=
  ⟨⟨by decide, by decide, ⟨by decide, by decide⟩, ⟨by decide, by decide⟩, by decide,
      by decide, by decide⟩,
    block_size_independence [0, 70, 100, 70, 0, -70, -100, -70] short_bit_cfg
      (demod_full_init short_bit_cfg) [[100, -200], [300]] [[100], [-200, 300]] [100] [-200]
      (by decide) (by decide) ⟨by decide, by decide⟩ ⟨by decide, by decide⟩ (by decide)
      (by decide) (by decide)⟩

/-! ## Quadrants of the arctangent approximation -/

theorem scaled_ediv_bounds (a b : Int) (ha : 0 ≤ a) (hab : a ≤ b) (hb : 0 < b) :
    0 ≤ (8192 * a) / b ∧ (8192 * a) / b ≤ 8192 :=
  ⟨Int.ediv_nonneg (by omega) (by omega), Int.ediv_le_of_le_mul hb (by omega)⟩

/-- The quotient `8192 * a / b` of C for `|a| ≤ |b|`, `b ≠ 0`: it lies in `[0, 8192]` when `a`
and `b` have the same sign, in `[-8192, 0]` when they have opposite signs, and is 0 for
`a = 0`. -/
theorem scaled_tdiv_bounds (a b : Int) (hb : b ≠ 0) (hab : Int.natAbs a ≤ Int.natAbs b) :
    -8192 ≤ Int.tdiv (8192 * a) b ∧ Int.tdiv (8192 * a) b ≤ 8192 ∧
      ((0 ≤ a ∧ 0 < b) ∨ (a ≤ 0 ∧ b < 0) → 0 ≤ Int.tdiv (8192 * a) b) ∧
      ((a ≤ 0 ∧ 0 < b) ∨ (0 ≤ a ∧ b < 0) → Int.tdiv (8192 * a) b ≤ 0) ∧
      (a = 0 → Int.tdiv (8192 * a) b = 0) := by
  have hz : a = 0 → Int.tdiv (8192 * a) b = 0 := by
    intro h
    rw [h]
    simp
  by_cases ha : 0 ≤ a
  · by_cases hbp : 0 < b
    · have e : Int.tdiv (8192 * a) b = (8192 * a) / b :=
        Int.tdiv_eq_ediv (by omega) (by omega)
      obtain ⟨b1, b2⟩ := scaled_ediv_bounds a b ha (by omega) hbp
      rw [e]
      exact ⟨by omega, b2, fun _ => b1, fun h => by omega, fun h => by rw [← e]; exact hz h⟩
    · have hbn : b < 0 := by omega
      have e : Int.tdiv (8192 * a) b = -((8192 * a) / (-b)) := by
        have e0 : b = -(-b) := by omega
        conv_lhs => rw [e0, Int.tdiv_neg, Int.tdiv_eq_ediv (show 0 ≤ 8192 * a by omega)
          (show 0 ≤ -b by omega)]
      obtain ⟨b1, b2⟩ := scaled_ediv_bounds a (-b) ha (by omega) (by omega)
      rw [e]
      exact ⟨by omega, by omega, fun h => by omega, fun _ => by omega,
        fun h => by rw [← e]; exact hz h⟩
  · have han : a < 0 := by omega
    by_cases hbp : 0 < b
    · have e : Int.tdiv (8192 * a) b = -((8192 * -a) / b) := by
        have e0 : 8192 * a = -(8192 * -a) := by ring
        conv_lhs => rw [e0, Int.neg_tdiv, Int.tdiv_eq_ediv (show 0 ≤ 8192 * -a by omega)
          (show 0 ≤ b by omega)]
      obtain ⟨b1, b2⟩ := scaled_ediv_bounds (-a) b (by omega) (by omega) hbp
      rw [e]
      exact ⟨by omega, by omega, fun h => by omega, fun _ => by omega, fun h => by omega⟩
    · have hbn : b < 0 := by omega
      have e : Int.tdiv (8192 * a) b = (8192 * -a) / (-b) := by
        have e0 : 8192 * a = -(8192 * -a) := by ring
        have e1 : b = -(-b) := by omega
        conv_lhs => rw [e0, e1, Int.neg_tdiv, Int.tdiv_neg, neg_neg,
          Int.tdiv_eq_ediv (show 0 ≤ 8192 * -a by omega) (show 0 ≤ -b by omega)]
      obtain ⟨b1, b2⟩ := scaled_ediv_bounds (-a) (-b) (by omega) (by omega) (by omega)
      rw [e]
      exact ⟨by omega, b2, fun _ => b1, fun h => by omega, fun h => by omega⟩

theorem ang_angle_first (x y : Int) (hx : -32768 ≤ x ∧ x ≤ 32767)
    (hy : -32768 ≤ y ∧ y ≤ 32767) (hb : Int.natAbs y < Int.natAbs x) :
    ang_angle x y = Int.tdiv (8192 * y) x + (if x < 0 then 32768 else 0) := by
  obtain ⟨t1, t2, _⟩ := scaled_tdiv_bounds y x (by omega) (by omega)
  have hc : (if x < 0 then int32_wrap (-x) else x) > (if y < 0 then int32_wrap (-y) else y) := by
    by_cases h1 : x < 0 <;> by_cases h2 : y < 0 <;>
      simp only [h1, h2, if_true, if_false] <;>
      (try rw [int32_wrap_id (-x) (by omega) (by omega)]) <;>
      (try rw [int32_wrap_id (-y) (by omega) (by omega)]) <;> omega
  unfold ang_angle
  simp only []
  rw [if_pos hc, int32_wrap_id (8192 * y) (by omega) (by omega)]
  by_cases h1 : x < 0
  · rw [if_pos h1, if_pos h1, int32_wrap_id _ (by omega) (by omega)]
  · rw [if_neg h1, if_neg h1]
    omega

theorem ang_angle_second (x y : Int) (hx : -32768 ≤ x ∧ x ≤ 32767)
    (hy : -32768 ≤ y ∧ y ≤ 32767) (hb : ¬ Int.natAbs y < Int.natAbs x) (hy0 : y ≠ 0) :
    ang_angle x y = 16384 - Int.tdiv (8192 * x) y + (if y < 0 then 32768 else 0) := by
  obtain ⟨t1, t2, _⟩ := scaled_tdiv_bounds x y hy0 (by omega)
  have hc : ¬ ((if x < 0 then int32_wrap (-x) else x) >
      (if y < 0 then int32_wrap (-y) else y)) := by
    by_cases h1 : x < 0 <;> by_cases h2 : y < 0 <;>
      simp only [h1, h2, if_true, if_false] <;>
      (try rw [int32_wrap_id (-x) (by omega) (by omega)]) <;>
      (try rw [int32_wrap_id (-y) (by omega) (by omega)]) <;> omega
  unfold ang_angle
  simp only []
  rw [if_neg hc, int32_wrap_id (8192 * x) (by omega) (by omega),
    int32_wrap_id (16384 - Int.tdiv (8192 * x) y) (by omega) (by omega)]
  by_cases h1 : y < 0
  · rw [if_pos h1, if_pos h1, int32_wrap_id _ (by omega) (by omega)]
  · rw [if_neg h1, if_neg h1]
    omega

theorem int16_wrap_emod (v : Int) : int16_wrap v % 65536 = v % 65536 := by
  unfold int16_wrap
  omega

/-- C31: quadrant correctness of the arctangent approximation.  For every 16-bit pair
`(x, y)`, the value `ang_complex_samples` stores, taken modulo 65536, lies in `[0, 16384]`
when `x > 0` and `y ≥ 0`, in `[16384, 32768]` when `x ≤ 0` and `y > 0`, in `[32768, 49152]`
when `x < 0` and `y ≤ 0`, and in `[49152, 65536)` or at 0 (65536 identified with 0) when
`x ≥ 0` and `y < 0`; on the four half-axes it is exactly 0, 16384, 32768 and 49152, and the
pair `(0, 0)` gives 0. -/
theorem ang_quadrants (x y : Int) (hx : -32768 ≤ x ∧ x ≤ 32767)
    (hy : -32768 ≤ y ∧ y ≤ 32767) :
    ang_complex_samples [x] [y] = [ang_sample x y] ∧
      (0 < x ∧ 0 ≤ y → 0 ≤ ang_sample x y % 65536 ∧ ang_sample x y % 65536 ≤ 16384) ∧
      (x ≤ 0 ∧ 0 < y → 16384 ≤ ang_sample x y % 65536 ∧ ang_sample x y % 65536 ≤ 32768) ∧
      (x < 0 ∧ y ≤ 0 → 32768 ≤ ang_sample x y % 65536 ∧ ang_sample x y % 65536 ≤ 49152) ∧
      (0 ≤ x ∧ y < 0 →
        (49152 ≤ ang_sample x y % 65536 ∧ ang_sample x y % 65536 < 65536) ∨
          ang_sample x y % 65536 = 0) ∧
      (0 < x ∧ y = 0 → ang_sample x y % 65536 = 0) ∧
      (x = 0 ∧ 0 < y → ang_sample x y % 65536 = 16384) ∧
      (x < 0 ∧ y = 0 → ang_sample x y % 65536 = 32768) ∧
      (x = 0 ∧ y < 0 → ang_sample x y % 65536 = 49152) ∧
      (x = 0 ∧ y = 0 → ang_sample x y = 0) := by
  refine ⟨rfl, ?_⟩
  by_cases h0 : x = 0 ∧ y = 0
  · have e : ang_sample x y = 0 := by
      unfold ang_sample
      rw [if_pos h0]
    rw [e]
    obtain ⟨hx0, hy0⟩ := h0
    refine ⟨?_, ?_, ?_, ?_, ?_, ?_, ?_, ?_, ?_⟩ <;> intro h <;> omega
  · have e : ang_sample x y % 65536 = ang_angle x y % 65536 := by
      unfold ang_sample
      rw [if_neg h0, int16_wrap_emod]
    rw [e]
    by_cases hb : Int.natAbs y < Int.natAbs x
    · obtain ⟨t1, t2, t3, t4, t5⟩ := scaled_tdiv_bounds y x (by omega) (by omega)
      rw [ang_angle_first x y hx hy hb]
      generalize Int.tdiv (8192 * y) x = T at t1 t2 t3 t4 t5
      by_cases h1 : x < 0
      · simp only [if_pos h1]
        refine ⟨?_, ?_, ?_, ?_, ?_, ?_, ?_, ?_, ?_⟩ <;> intro h
        · omega
        · have := t4 (Or.inr ⟨by omega, h1⟩)
          omega
        · have := t3 (Or.inr ⟨by omega, h1⟩)
          omega
        · omega
        · omega
        · omega
        · have := t5 h.2
          omega
        · omega
        · omega
      · simp only [if_neg h1]
        have hxp : 0 < x := by omega
        refine ⟨?_, ?_, ?_, ?_, ?_, ?_, ?_, ?_, ?_⟩ <;> intro h
        · have := t3 (Or.inl ⟨by omega, hxp⟩)
          omega
        · omega
        · omega
        · have := t4 (Or.inl ⟨by omega, hxp⟩)
          omega
        · have := t5 h.2
          omega
        · omega
        · omega
        · omega
        · omega
    · have hy0 : y ≠ 0 := by omega
      obtain ⟨t1, t2, t3, t4, t5⟩ := scaled_tdiv_bounds x y hy0 (by omega)
      rw [ang_angle_second x y hx hy hb hy0]
      generalize Int.tdiv (8192 * x) y = U at t1 t2 t3 t4 t5
      by_cases h1 : y < 0
      · simp only [if_pos h1]
        refine ⟨?_, ?_, ?_, ?_, ?_, ?_, ?_, ?_, ?_⟩ <;> intro h
        · omega
        · omega
        · have := t3 (Or.inr ⟨by omega, h1⟩)
          omega
        · have := t4 (Or.inr ⟨by omega, h1⟩)
          omega
        · omega
        · omega
        · omega
        · have := t5 h.1
          omega
        · omega
      · simp only [if_neg h1]
        have hyp : 0 < y := by omega
        refine ⟨?_, ?_, ?_, ?_, ?_, ?_, ?_, ?_, ?_⟩ <;> intro h
        · have := t3 (Or.inl ⟨by omega, hyp⟩)
          omega
        · have := t4 (Or.inl ⟨by omega, hyp⟩)
          omega
        · omega
        · omega
        · omega
        · have := t5 h.1
          omega
        · omega
        · omega
        · omega

theorem ang_quadrants_witness :
    (((-32768 : Int) ≤ 10000 ∧ (10000 : Int) ≤ 32767) ∧
        ((-32768 : Int) ≤ -1 ∧ (-1 : Int) ≤ 32767)) ∧
      (ang_complex_samples [10000] [-1] = [ang_sample 10000 (-1)] ∧
        ((0 : Int) < 10000 ∧ (0 : Int) ≤ -1 →
          0 ≤ ang_sample 10000 (-1) % 65536 ∧ ang_sample 10000 (-1) % 65536 ≤ 16384) ∧
        ((10000 : Int) ≤ 0 ∧ (0 : Int) < -1 →
          16384 ≤ ang_sample 10000 (-1) % 65536 ∧ ang_sample 10000 (-1) % 65536 ≤ 32768) ∧
        ((10000 : Int) < 0 ∧ (-1 : Int) ≤ 0 →
          32768 ≤ ang_sample 10000 (-1) % 65536 ∧ ang_sample 10000 (-1) % 65536 ≤ 49152) ∧
        ((0 : Int) ≤ 10000 ∧ (-1 : Int) < 0 →
          (49152 ≤ ang_sample 10000 (-1) % 65536 ∧ ang_sample 10000 (-1) % 65536 < 65536) ∨
            ang_sample 10000 (-1) % 65536 = 0) ∧
        ((0 : Int) < 10000 ∧ (-1 : Int) = 0 → ang_sample 10000 (-1) % 65536 = 0) ∧
        ((10000 : Int) = 0 ∧ (0 : Int) < -1 → ang_sample 10000 (-1) % 65536 = 16384) ∧
        ((10000 : Int) < 0 ∧ (-1 : Int) = 0 → ang_sample 10000 (-1) % 65536 = 32768) ∧
        ((10000 : Int) = 0 ∧ (-1 : Int) < 0 → ang_sample 10000 (-1) % 65536 = 49152) ∧
        ((10000 : Int) = 0 ∧ (-1 : Int) = 0 → ang_sample 10000 (-1) = 0)) :=
  ⟨⟨⟨by decide, by decide⟩, ⟨by decide, by decide⟩⟩,
    ang_quadrants 10000 (-1) ⟨by decide, by decide⟩ ⟨by decide, by decide⟩⟩

end V23
